import Mathlib

/-!
# Verification of the `flowmap` K-LUT technology mapper

This file is a shallow embedding, in Lean 4, of the Rust sources of the
`flowmap` repository (`src/boolean_network.rs`, `src/flowmap/{mod,label,flow,map}.rs`,
`src/evaluate.rs`, `src/aiger.rs`, `src/backends/rtlil.rs`, `src/main.rs`),
together with theorems settling a list of claims about that code.

Embedding conventions:

* Node indices (the Rust generic `Ni: NodeIndex`, instantiated at `usize` and
  at `aiger::Literal`, both plain machine integers) are modelled as `Nat`.
* Rust `Vec<T>` fields become `List T`.  A `Vec` used as a stack
  (`push`/`pop` at the back) is modelled with the list head as the top of
  the stack: `push x s = x :: s`, `pop (x :: s) = (x, s)`.  A `Vec` that is
  collected in increasing order and then consumed as a stack is therefore
  reversed at construction time.
* Rust `HashSet`s that are only ever queried through `insert` (returning
  whether the element was fresh) and `contains` are modelled as `List`s with
  insert-if-absent; this is observationally equivalent for every call
  sequence.  The one place a `HashSet` determines an output order
  (`Flow::cut`'s `orig.difference(&reachable)`), the Rust iteration order is
  unspecified, and we canonically keep the order of the `orig` list.
* `u32` arithmetic is modelled as `Nat`; `x - y` is truncated subtraction.
  The development proves the subtractions performed by reachable executions
  never underflow where that matters.
* Rust panics (`expect`, `assert!`, index `unwrap`s reachable from the
  claims) are modelled by an explicit result type `Res`; loops whose
  termination Lean cannot see structurally take an explicit fuel argument
  and return `Res.fuelOut` when it is exhausted.  Out-of-bounds list reads
  that the Rust code would panic on are modelled with default values
  (`getD`); every access performed by the theorems below is in bounds.
-/

set_option linter.unusedVariables false

/-- Result of running a piece of Rust code that can panic: either a value,
a panic with the Rust panic message, or fuel exhaustion of the modelling
recursion (the Rust loop would simply have kept running). -/
inductive Res (α : Type) where
  | ok (a : α)
  | fail (msg : String)
  | fuelOut
  deriving Repr, DecidableEq

namespace Res

/-- `Res.bind`: sequence two possibly-panicking computations. -/
def bind {α β : Type} : Res α → (α → Res β) → Res β
  | ok a, f => f a
  | fail msg, _ => fail msg
  | fuelOut, _ => fuelOut

/-- `isOk r` holds iff `r` carries a value. -/
def isOk {α : Type} : Res α → Bool
  | ok _ => true
  | _ => false

end Res

/-! ## §1 The boolean network (`src/boolean_network.rs`)

`BooleanNetwork<N, E, Ni>` is instantiated by the mapper at
`FlowMapBooleanNetwork<Ni> = BooleanNetwork<NodeValue<Ni>, (u32, u32), Ni>`
(`src/flowmap/mod.rs`), so we embed that instantiation directly. -/

/-- `NodeValue` (`src/flowmap/mod.rs`): the per-node payload. -/
structure NodeValue where
  symbol : Option String
  label : Option Nat
  x_bar : List Nat
  is_pi : Bool
  is_po : Bool
  flow : Nat
  deriving Repr, DecidableEq

/-- `NodeValue::default()`. -/
def NodeValue.default : NodeValue :=
  { symbol := none, label := none, x_bar := [], is_pi := false,
    is_po := false, flow := 0 }

/-- Internal node representation (`Node` in `src/boolean_network.rs`):
ordered ancestor and descendent lists. -/
structure NetNode where
  ancestors : List Nat
  descendents : List Nat
  deriving Repr, DecidableEq

/-- `BooleanNetwork` at the `FlowMapBooleanNetwork` instantiation:
per-node adjacency, `NodeValue` payloads, and `(flow, capacity)` payloads
for the incoming edges of each node (parallel to its ancestor list). -/
structure BooleanNetwork where
  nodes : List NetNode
  node_values : List NodeValue
  edge_values : List (List (Nat × Nat))
  max_node_index : Nat
  deriving Repr, DecidableEq

namespace BooleanNetwork

/-- `BooleanNetwork::new(max_index)`: all nodes default-constructed. -/
def new (max_index : Nat) : BooleanNetwork :=
  { nodes := List.replicate (max_index + 1) ⟨[], []⟩
    node_values := List.replicate (max_index + 1) NodeValue.default
    edge_values := List.replicate (max_index + 1) []
    max_node_index := max_index }

/-- `node_count()`. -/
def node_count (net : BooleanNetwork) : Nat :=
  net.max_node_index + 1

/-- `ancestors(of)`: the stored ordered ancestor list. -/
def ancestors (net : BooleanNetwork) (of : Nat) : List Nat :=
  (net.nodes.getD of ⟨[], []⟩).ancestors

/-- `descendents(of)`: the stored ordered descendent list. -/
def descendents (net : BooleanNetwork) (of : Nat) : List Nat :=
  (net.nodes.getD of ⟨[], []⟩).descendents

/-- `node_value(of)`. -/
def node_value (net : BooleanNetwork) (of : Nat) : NodeValue :=
  net.node_values.getD of NodeValue.default

/-- `node_value_mut(of)`, as a functional update. -/
def set_node_value (net : BooleanNetwork) (of : Nat) (f : NodeValue → NodeValue) :
    BooleanNetwork :=
  { net with node_values := net.node_values.set of (f (net.node_value of)) }

/-- The ancestor-list position used by `edge_value_index`: index of the first
occurrence of `from` in `to`'s ancestor list (Rust `position(..).unwrap()`). -/
def edge_index (net : BooleanNetwork) (f t : Nat) : Nat :=
  (net.ancestors t).findIdx (fun ni => ni == f)

/-- `edge_value(From(f), To(t))`. -/
def edge_value (net : BooleanNetwork) (f t : Nat) : Nat × Nat :=
  (net.edge_values.getD t []).getD (net.edge_index f t) (0, 0)

/-- `edge_value_mut(From(f), To(t))`, as a functional update. -/
def set_edge_value (net : BooleanNetwork) (f t : Nat) (v : Nat × Nat) :
    BooleanNetwork :=
  { net with edge_values :=
      net.edge_values.set t ((net.edge_values.getD t []).set (net.edge_index f t) v) }

/-- `add_edge(From(f), To(t))`: append to the adjacency lists and grow the
edge-payload vector of `t` by one `(0, 0)` slot. -/
def add_edge (net : BooleanNetwork) (f t : Nat) : BooleanNetwork :=
  { net with
    nodes := (net.nodes.set t
        (let n := net.nodes.getD t ⟨[], []⟩
         { n with ancestors := n.ancestors ++ [f] })).set f
        (let n := (net.nodes.set t
            (let n := net.nodes.getD t ⟨[], []⟩
             { n with ancestors := n.ancestors ++ [f] })).getD f ⟨[], []⟩
         { n with descendents := n.descendents ++ [t] })
    edge_values := net.edge_values.set t ((net.edge_values.getD t []) ++ [(0, 0)]) }

end BooleanNetwork

/-! ## §2 The AIGER record parsers (`src/aiger.rs`) -/

/-- `aiger::Literal`: a nonnegative integer; low bit = polarity. -/
structure Literal where
  val : Nat
  deriving Repr, DecidableEq

/-- `Literal::variable()`. -/
def Literal.variable (l : Literal) : Nat := l.val / 2

/-- `Literal::is_inverted()`. -/
def Literal.is_inverted (l : Literal) : Bool := l.val % 2 == 1

/-- `aiger::Aiger`: a record from an AIGER file. -/
inductive Aiger where
  | Input (l : Literal)
  | Latch (output input : Literal)
  | Output (l : Literal)
  | AndGate (output : Literal) (input1 input2 : Literal)
  deriving Repr, DecidableEq

/-- `aiger::AigerError`. -/
inductive AigerError where
  | InvalidHeader
  | InvalidLiteral
  | InvalidLiteralCount
  | InvalidInverted
  | IoError
  deriving Repr, DecidableEq

/-- `Aiger::parse_input`. -/
def Aiger.parse_input (literals : List Literal) : Except AigerError Aiger :=
  match literals with
  | [input] =>
    if !input.is_inverted then
      .ok (Aiger.Input input)
    else
      .error AigerError.InvalidInverted
  | _ => .error AigerError.InvalidLiteralCount

/-- `Aiger::parse_latch`. -/
def Aiger.parse_latch (literals : List Literal) : Except AigerError Aiger :=
  match literals with
  | [output, input] =>
    if !output.is_inverted then
      .ok (Aiger.Latch output input)
    else
      .error AigerError.InvalidInverted
  | _ => .error AigerError.InvalidLiteralCount

/-- `Aiger::parse_output`. -/
def Aiger.parse_output (literals : List Literal) : Except AigerError Aiger :=
  match literals with
  | [input] => .ok (Aiger.Output input)
  | _ => .error AigerError.InvalidLiteralCount

/-- `Aiger::parse_and_gate`. -/
def Aiger.parse_and_gate (literals : List Literal) : Except AigerError Aiger :=
  match literals with
  | [output, input1, input2] =>
    if !output.is_inverted then
      .ok (Aiger.AndGate output input1 input2)
    else
      .error AigerError.InvalidInverted
  | _ => .error AigerError.InvalidLiteralCount

/-! ## §3 Topological order (`src/flowmap/label.rs`, `TopologicalOrder`) -/

/-- `TopologicalOrder`: worklist `s` (a stack, head = top) and the list of
nodes yielded so far (`visited`, in yield order). -/
structure TopologicalOrder where
  s : List Nat
  visited : List Nat
  deriving Repr, DecidableEq

/-- `TopologicalOrder::new`: seed `s` with every node that has no ancestors.
Rust collects node indices in increasing order into a `Vec` popped from the
back, so the stack (head = top) is the reverse of that collection. -/
def TopologicalOrder.new (net : BooleanNetwork) : TopologicalOrder :=
  { s := ((List.range net.node_count).filter
      (fun ni => (net.ancestors ni).length == 0)).reverse
    visited := [] }

/-- `TopologicalOrder::next`: pop a node, record it as visited, and push every
descendent all of whose ancestors are visited.  The Rust `for` loop pushes
eligible descendents in list order onto the back of the `Vec`; with the
head-as-top convention that is a `foldl` consing each eligible descendent. -/
def TopologicalOrder.next (t : TopologicalOrder) (net : BooleanNetwork) :
    Option Nat × TopologicalOrder :=
  match t.s with
  | [] => (none, t)
  | n :: rest =>
    let visited := t.visited ++ [n]
    let s := (net.descendents n).foldl
      (fun acc d =>
        if ((net.ancestors d).filter (fun ni => !(visited.contains ni))).length == 0 then
          d :: acc
        else
          acc) rest
    (some n, { s := s, visited := visited })

/-- Repeatedly call `TopologicalOrder::next` until it returns `None`,
collecting the yielded nodes in order.  Returns `none` if `fuel` runs out
before the iterator is exhausted. -/
def TopologicalOrder.run (net : BooleanNetwork) : Nat → TopologicalOrder →
    Option (List Nat)
  | 0, _ => none
  | fuel + 1, t =>
    match t.next net with
    | (none, _) => some []
    | (some n, t') =>
      match TopologicalOrder.run net fuel t' with
      | none => none
      | some l => some (n :: l)

/-- The full yield sequence of the topological iterator from its initial
state. -/
def topoSeq (net : BooleanNetwork) (fuel : Nat) : Option (List Nat) :=
  TopologicalOrder.run net fuel (TopologicalOrder.new net)

/-! ## §4 The max-flow engine (`src/flowmap/flow.rs`)

The residual graph of the node-split subnetwork.  The Rust `Visited` struct
(two `Vec<bool>`s plus two scalars) is a set of positions with an
insert-returning-freshness operation; we model it as the list of positions in
insertion order (`visited.contains` = list membership), which is
observationally equivalent and additionally records the insertion order used
by the proofs.  The Rust `Path` struct is a mutable map
`Position → Option Position`; we model it as an association list where
`set_from from to` prepends `(to, from)` and `get_from to` takes the first
binding, which is extensionally the same map. -/

/-- `Position`: a vertex of the node-split residual graph. -/
inductive Position where
  | Source
  | Sink
  | BeforeNode (ni : Nat)
  | AfterNode (ni : Nat)
  deriving Repr, DecidableEq

/-- `NetworkEdgeDirection`. -/
inductive NetworkEdgeDirection where
  | Descendent
  | Ancestor
  deriving Repr, DecidableEq

/-- `Flow`: the engine's own state.  The `&mut` network it holds is threaded
explicitly through every operation below. -/
structure FlowEngine where
  node : Nat
  source : List (Nat × Nat)
  sink : List (Nat × Nat)
  deriving Repr, DecidableEq

namespace FlowEngine

/-- `Flow::new(network, node, source, sink)`: all source/sink flows start 0. -/
def new (node : Nat) (source sink : List Nat) : FlowEngine :=
  { node := node
    source := source.map (fun ni => (ni, 0))
    sink := sink.map (fun ni => (ni, 0)) }

/-- Update the first entry of a source/sink leg list whose node matches,
then stop (the Rust loop `return`s after the first hit). -/
def updateFirst (l : List (Nat × Nat)) (ni : Nat) (f : Nat → Nat) :
    List (Nat × Nat) :=
  match l with
  | [] => []
  | (ni2, flow) :: rest =>
    if ni2 == ni then (ni2, f flow) :: rest
    else (ni2, flow) :: updateFirst rest ni f

/-- Update every entry of a sink leg list whose node matches (the Rust sink
loops do not `return` early). -/
def updateAll (l : List (Nat × Nat)) (ni : Nat) (f : Nat → Nat) :
    List (Nat × Nat) :=
  l.map (fun (ni2, flow) => if ni2 == ni then (ni2, f flow) else (ni2, flow))

/-- `Flow::descendents(position)`. -/
def descendents (net : BooleanNetwork) (fl : FlowEngine) :
    Position → List Position
  | .Source => fl.source.map (fun e => .BeforeNode e.1)
  | .Sink => []
  | .BeforeNode ni => [.AfterNode ni]
  | .AfterNode ni =>
    if fl.sink.any (fun e => e.1 == ni) then
      [.Sink]
    else
      (net.descendents ni).map (fun d =>
        if d == fl.node then .Sink else .BeforeNode d)

/-- `Flow::ancestors(position)`. -/
def ancestors (net : BooleanNetwork) (fl : FlowEngine) :
    Position → List Position
  | .Source => []
  | .Sink => fl.sink.map (fun e => .AfterNode e.1)
  | .BeforeNode ni => (net.ancestors ni).map (fun a => .AfterNode a)
  | .AfterNode ni => [.BeforeNode ni]

/-- `Flow::flow_cap(from, to)`: current flow and remaining capacity of the
residual edge, `(0, 0)` for a non-edge.  The match arms follow the Rust
arm order; a `(Before, After)` pair of distinct nodes falls through to the
catch-all. -/
def flow_cap (net : BooleanNetwork) (fl : FlowEngine) :
    Position → Position → Nat × Nat
  | .Source, .BeforeNode ni =>
    match fl.source.find? (fun e => e.1 == ni) with
    | some e => (e.2, 1000)
    | none => (0, 0)
  | .BeforeNode ni1, .AfterNode ni2 =>
    if ni1 == ni2 then
      let flow := (net.node_value ni1).flow
      (flow, 1 - flow)
    else (0, 0)
  | .AfterNode ni1, .BeforeNode ni2 => net.edge_value ni1 ni2
  | .AfterNode ni, .Sink =>
    match fl.sink.find? (fun e => e.1 == ni) with
    | some e => (e.2, 1000)
    | none => (0, 0)
  | _, _ => (0, 0)

/-- `Flow::augment(from, to, f)`: add `f` to the flow of a forward edge,
subtract it from a backward edge.  Arm order follows the Rust `match`:
the same-node guards on `(Before, After)` pairs take priority over the
original-edge arms. -/
def augment (net : BooleanNetwork) (fl : FlowEngine) (p q : Position) (f : Nat) :
    BooleanNetwork × FlowEngine :=
  match p, q with
  | .Source, .BeforeNode ni =>
    (net, { fl with source := updateFirst fl.source ni (fun x => x + f) })
  | .BeforeNode ni, .Source =>
    (net, { fl with source := updateFirst fl.source ni (fun x => x - f) })
  | .BeforeNode ni1, .AfterNode ni2 =>
    if ni1 == ni2 then
      (net.set_node_value ni1 (fun nv => { nv with flow := nv.flow + f }), fl)
    else
      let (flow, cap) := net.edge_value ni2 ni1
      (net.set_edge_value ni2 ni1 (flow - f, cap + f), fl)
  | .AfterNode ni1, .BeforeNode ni2 =>
    if ni1 == ni2 then
      (net.set_node_value ni1 (fun nv => { nv with flow := nv.flow - f }), fl)
    else
      let (flow, cap) := net.edge_value ni1 ni2
      (net.set_edge_value ni1 ni2 (flow + f, cap - f), fl)
  | .AfterNode ni, .Sink =>
    (net, { fl with sink := updateAll fl.sink ni (fun x => x + f) })
  | .Sink, .AfterNode ni =>
    (net, { fl with sink := updateAll fl.sink ni (fun x => x - f) })
  | _, _ => (net, fl)

/-- One child-pushing fold of the DFS in `Flow::step`: each element of `l`
that is not yet visited and passes the residual test `C` is recorded in the
parent map with parent `p` and pushed onto the stack. -/
def pushChildren (vis : List Position) (p : Position) (C : Position → Bool)
    (l : List Position) (st : List (Position × Position) × List Position) :
    List (Position × Position) × List Position :=
  l.foldl
    (fun st d =>
      if vis.contains d then st
      else if C d then ((d, p) :: st.1, d :: st.2)
      else st) st

/-- The body of `Flow::step`'s depth-first search.  State: `visited` (in
insertion order), the parent map `path`, and the stack `s`.  For each popped,
not-yet-visited position, forward residual edges with positive remaining
capacity and backward residual edges with positive flow are recorded in
`path` and pushed. -/
def stepDfs (net : BooleanNetwork) (fl : FlowEngine) :
    Nat → List Position → List (Position × Position) → List Position →
    Res (List Position × List (Position × Position))
  | 0, _, _, _ => .fuelOut
  | _ + 1, visited, path, [] => .ok (visited, path)
  | fuel + 1, visited, path, p :: s =>
    if visited.contains p then
      stepDfs net fl fuel visited path s
    else
      let visited := visited ++ [p]
      let st := pushChildren visited p
        (fun d => (flow_cap net fl p d).2 > 0) (descendents net fl p) (path, s)
      let st := pushChildren visited p
        (fun a => (flow_cap net fl a p).1 > 0) (ancestors net fl p) st
      stepDfs net fl fuel visited st.1 st.2

/-- `Path::path_rev` fused with the augmenting loop of `Flow::step`: walk
the parent map backwards from `last`, augmenting each step by 1, until a
position with no parent is reached. -/
def walkAugment (path : List (Position × Position)) :
    Nat → BooleanNetwork → FlowEngine → Position → Res (BooleanNetwork × FlowEngine)
  | 0, _, _, _ => .fuelOut
  | fuel + 1, net, fl, q =>
    match path.lookup q with
    | none => .ok (net, fl)
    | some p =>
      let (net, fl) := augment net fl p q 1
      walkAugment path fuel net fl p

/-- `Flow::step`: one DFS for an augmenting path; augment it by one unit if
the sink was reached.  Returns the updated state and whether a path was
found. -/
def step (net : BooleanNetwork) (fl : FlowEngine) (fuel : Nat) :
    Res (BooleanNetwork × FlowEngine × Bool) :=
  match stepDfs net fl fuel [] [] [.Source] with
  | .fuelOut => .fuelOut
  | .fail msg => .fail msg
  | .ok (visited, path) =>
    if !visited.contains .Sink then
      .ok (net, fl, false)
    else
      match walkAugment path fuel net fl .Sink with
      | .fuelOut => .fuelOut
      | .fail msg => .fail msg
      | .ok (net, fl) => .ok (net, fl, true)

/-- The caller's loop `while flow.step() { max_flow += 1 }`: run `step`
until it reports no augmenting path, returning the final state and the
number of augmenting paths found. -/
def runSteps (dfsFuel : Nat) :
    Nat → BooleanNetwork → FlowEngine → Res (BooleanNetwork × FlowEngine × Nat)
  | 0, _, _ => .fuelOut
  | fuel + 1, net, fl =>
    match step net fl dfsFuel with
    | .fuelOut => .fuelOut
    | .fail msg => .fail msg
    | .ok (net, fl, false) => .ok (net, fl, 0)
    | .ok (net, fl, true) =>
      match runSteps dfsFuel fuel net fl with
      | .fuelOut => .fuelOut
      | .fail msg => .fail msg
      | .ok (net, fl, m) => .ok (net, fl, m + 1)

/-- `Flow::is_undirected_path(from, to, direction)`. -/
def is_undirected_path (net : BooleanNetwork) (fl : FlowEngine)
    (p q : Position) (dir : NetworkEdgeDirection) : Bool :=
  let fc := match dir with
    | .Descendent => flow_cap net fl p q
    | .Ancestor => flow_cap net fl q p
  let is_undir_path_forward := fc.2 != 0
  let is_undir_path_backward := fc.1 != 0
  match p, q with
  | .Source, .BeforeNode _ => is_undir_path_forward
  | .BeforeNode _, .Source => is_undir_path_backward
  | .BeforeNode ni1, .AfterNode ni2 =>
    if ni1 == ni2 then is_undir_path_forward else is_undir_path_backward
  | .AfterNode ni1, .BeforeNode ni2 =>
    if ni1 == ni2 then is_undir_path_backward else is_undir_path_forward
  | .AfterNode _, .Sink => is_undir_path_forward
  | .Sink, .AfterNode _ => is_undir_path_backward
  | _, _ => false

/-- One neighbour-pushing fold of the search in `Flow::cut`: every element
of `l` joined to `n` by an undirected residual path is pushed. -/
def pushUndirected (net : BooleanNetwork) (fl : FlowEngine) (n : Position)
    (dir : NetworkEdgeDirection) (l : List Position) (acc : List Position) :
    List Position :=
  l.foldl
    (fun acc d =>
      if is_undirected_path net fl n d dir then d :: acc else acc) acc

/-- Record the original node of a reached `Before`/`After` position in the
deduplicating `reachable` list (the `HashSet` inserts of `Flow::cut`). -/
def markReached (reachable : List Nat) (n : Position) : List Nat :=
  match n with
  | .BeforeNode ni | .AfterNode ni =>
    if reachable.contains ni then reachable else reachable ++ [ni]
  | _ => reachable

/-- The search loop of `Flow::cut`: undirected-residual reachability from
`Source`.  `reachable` collects the original nodes whose `Before` or `After`
is reached (a `HashSet` in Rust, modelled as a deduplicating list). -/
def cutSearch (net : BooleanNetwork) (fl : FlowEngine) :
    Nat → List Nat → List Position → List Position → Res (List Nat)
  | 0, _, _, _ => .fuelOut
  | _ + 1, reachable, _, [] => .ok reachable
  | fuel + 1, reachable, visited, n :: s =>
    if visited.contains n then
      cutSearch net fl fuel reachable visited s
    else
      let visited := visited ++ [n]
      let reachable := markReached reachable n
      let s := pushUndirected net fl n .Descendent (descendents net fl n) s
      let s := pushUndirected net fl n .Ancestor (ancestors net fl n) s
      cutSearch net fl fuel reachable visited s

/-- `Flow::cut(orig)`: the nodes of `orig` not reachable in the undirected
residual graph.  Rust returns `orig.difference(&reachable)` in unspecified
`HashSet` order; we keep the order of the `orig` list. -/
def cut (net : BooleanNetwork) (fl : FlowEngine) (orig : List Nat) (fuel : Nat) :
    Res (List Nat) :=
  match cutSearch net fl fuel [] [] [.Source] with
  | .fuelOut => .fuelOut
  | .fail msg => .fail msg
  | .ok reachable => .ok (orig.filter (fun x => !(reachable.contains x)))

end FlowEngine

/-! ## §5 The labeling pass (`src/flowmap/label.rs`) -/

/-- Collect the labels of a list of ancestors, panicking at the first
unlabelled one (`label.expect("ancestor to be labelled")`). -/
def ancLabels (net : BooleanNetwork) : List Nat → Res (List Nat)
  | [] => .ok []
  | a :: rest =>
    match (net.node_value a).label with
    | none => .fail "ancestor to be labelled"
    | some l =>
      match ancLabels net rest with
      | .ok ls => .ok (l :: ls)
      | .fail m => .fail m
      | .fuelOut => .fuelOut

/-- Total number of edges (sum of ancestor-list lengths): used to size the
fuel of the inner search loops. -/
def BooleanNetwork.edge_count (net : BooleanNetwork) : Nat :=
  (net.nodes.map (fun n => n.ancestors.length)).sum

/-- Fuel for one residual-graph search: comfortably larger than the number
of stack operations any search over the at most `2·node_count + 2`
positions can perform. -/
def dfsFuel (net : BooleanNetwork) : Nat :=
  (2 * net.node_count + 2) * (net.edge_count + net.node_count + 4) + 4

/-- Fuel for the `while flow.step()` loop. -/
def stepsFuel (net : BooleanNetwork) : Nat :=
  1000 * (net.node_count + 2) + 2

/-- The `for ancestor in ancestors` body of the subnetwork-building loop of
`label_node`: reset the incoming edge, then classify an unvisited ancestor
(collapse label-`p` nodes into the sink, collect PIs as sources, give
internal nodes infinite-capacity edges). -/
def bfsStep (node p : Nat)
    (st : BooleanNetwork × List Nat × List Nat × List Nat × List Nat)
    (ancestor : Nat) :
    BooleanNetwork × List Nat × List Nat × List Nat × List Nat :=
  let (net, source, sink, visited, s) := st
  let net := net.set_edge_value ancestor node (0, 1)
  if !(visited.contains ancestor) then
    let nv := net.node_value ancestor
    if nv.label == some p then
      let sink := (net.ancestors ancestor).foldl
        (fun sk a2 => if sk.contains a2 then sk else sk ++ [a2]) sink
      (net, source, sink, visited ++ [ancestor], ancestor :: s)
    else if nv.is_pi then
      (net, source ++ [ancestor], sink, visited ++ [ancestor],
        ancestor :: s)
    else
      (net.set_edge_value ancestor node (0, 1000), source, sink,
        visited ++ [ancestor], ancestor :: s)
  else
    (net, source, sink, visited, s)

/-- The `for ancestor in ancestors` loop of the subnetwork builder. -/
def bfsFold (node p : Nat) (l : List Nat)
    (st : BooleanNetwork × List Nat × List Nat × List Nat × List Nat) :
    BooleanNetwork × List Nat × List Nat × List Nat × List Nat :=
  l.foldl (bfsStep node p) st

/-- The subnetwork-building loop of `label_node` (the
`while let Some(node) = s.pop()` loop).  State: the network (edge resets and
flow clears), the `source`, `sink` and `visited` vectors, and the stack `s`. -/
def labelBfs (p : Nat) :
    Nat → BooleanNetwork → List Nat → List Nat → List Nat → List Nat →
    Res (BooleanNetwork × List Nat × List Nat × List Nat)
  | 0, _, _, _, _, _ => .fuelOut
  | _ + 1, net, source, sink, visited, [] => .ok (net, source, sink, visited)
  | fuel + 1, net, source, sink, visited, node :: s =>
    let ancestors := net.ancestors node
    let net := net.set_node_value node (fun nv => { nv with flow := 0 })
    let st := bfsFold node p ancestors (net, source, sink, visited, s)
    labelBfs p fuel st.1 st.2.1 st.2.2.1 st.2.2.2.1 st.2.2.2.2

/-- `label_node(network, node, k)`: the label for a single node, together
with its cut set, and the mutated network. -/
def label_node (net : BooleanNetwork) (node : Nat) (k : Nat) :
    Res (BooleanNetwork × Nat × List Nat) :=
  match ancLabels net (net.ancestors node) with
  | .fail m => .fail m
  | .fuelOut => .fuelOut
  | .ok [] => .fail "node being labelled to have ancestors"
  | .ok (l :: ls) =>
    let p := ls.foldl max l
    if p == 0 then
      .ok (net, p + 1, [node])
    else
      let sink := net.ancestors node
      match labelBfs p (net.node_count + 2) net [] sink [] [node] with
      | .fail m => .fail m
      | .fuelOut => .fuelOut
      | .ok (net, source, sink, visited) =>
        let fl := FlowEngine.new node source sink
        match FlowEngine.runSteps (dfsFuel net) (stepsFuel net) net fl with
        | .fail m => .fail m
        | .fuelOut => .fuelOut
        | .ok (net, fl, max_flow) =>
          if max_flow ≤ k then
            let visited2 := visited ++ [node]
            match FlowEngine.cut net fl visited2 (dfsFuel net) with
            | .fail m => .fail m
            | .fuelOut => .fuelOut
            | .ok x_bar => .ok (net, p, x_bar)
          else
            .ok (net, p + 1, [node])

/-- The `while let Some(ni) = topo.next(&network)` loop of `label_network`:
skip PIs, label everything else, writing `label` and `x_bar` back into the
node value. -/
def labelLoop (k : Nat) :
    Nat → BooleanNetwork → TopologicalOrder → Res BooleanNetwork
  | 0, _, _ => .fuelOut
  | fuel + 1, net, topo =>
    match topo.next net with
    | (none, _) => .ok net
    | (some ni, topo) =>
      if (net.node_value ni).is_pi then
        labelLoop k fuel net topo
      else
        match label_node net ni k with
        | .fail m => .fail m
        | .fuelOut => .fuelOut
        | .ok (net, label, x_bar) =>
          let net := net.set_node_value ni (fun nv => { nv with label := some label })
          let net := net.set_node_value ni (fun nv => { nv with x_bar := x_bar })
          labelLoop k fuel net topo

/-- `label_network(network, k)`: the FlowMap labelling pass on the entire
network.  `fuel` bounds the number of topological-iterator steps. -/
def label_network (net : BooleanNetwork) (k : Nat) (fuel : Nat) :
    Res BooleanNetwork :=
  labelLoop k fuel net (TopologicalOrder.new net)

/-! ## §6 The mapping pass (`src/flowmap/map.rs`) -/

/-- `LUT`: output node, ordered input list, covered nodes. -/
structure LUT where
  output : Nat
  inputs : List Nat
  contains : List Nat
  deriving Repr, DecidableEq

/-- `inputs(network, x_bar)` (`src/flowmap/map.rs`): the ordered,
duplicate-free list of nodes outside `x_bar` with an edge into `x_bar`. -/
def inputs (net : BooleanNetwork) (x_bar : List Nat) : List Nat :=
  x_bar.foldl
    (fun acc n =>
      (net.ancestors n).foldl
        (fun acc ancestor =>
          if !(x_bar.contains ancestor) && !(acc.contains ancestor) then
            acc ++ [ancestor]
          else
            acc) acc) []

/-- The worklist loop of `map`: pop a node, skip if done, skip pure PIs,
emit a LUT, assert `1 ≤ |inputs| ≤ K`, and push the LUT's inputs. -/
def mapLoop (net : BooleanNetwork) (k : Nat) :
    Nat → List Nat → List LUT → List Nat → Res (List LUT)
  | 0, _, _, _ => .fuelOut
  | _ + 1, _, luts, [] => .ok luts
  | fuel + 1, done, luts, n :: s =>
    if done.contains n then
      mapLoop net k fuel done luts s
    else
      let done := done ++ [n]
      let nv := net.node_value n
      if nv.is_pi && !nv.is_po then
        mapLoop net k fuel done luts s
      else
        let inp := inputs net nv.x_bar
        let luts := luts ++ [{ output := n, inputs := inp, contains := nv.x_bar }]
        let num_inputs := inp.length
        if num_inputs > 0 && num_inputs ≤ k then
          mapLoop net k fuel done luts (inp.foldl (fun acc i => i :: acc) s)
        else
          .fail "number of inputs to LUT was outside 1..=K"

/-- `map(network, k)`: walk the cuts backwards from the POs, emitting LUTs.
The initial worklist collects the PO nodes in increasing index order into a
stack popped from the back. -/
def map (net : BooleanNetwork) (k : Nat) (fuel : Nat) : Res (List LUT) :=
  mapLoop net k fuel [] []
    (((List.range net.node_count).filter
        (fun ni => (net.node_value ni).is_po)).reverse)

/-! ## §7 LUT evaluation (`src/evaluate.rs`) and the emitter's truth table

In `src/evaluate.rs` the network's node indices are `aiger::Literal`s; in
this embedding they are the corresponding `Nat` values, so
`Literal::is_inverted` on a node is `n % 2 == 1`. -/

/-- `LogicNode`: the internal logic of a LUT. -/
inductive LogicNode where
  | Literal (n : Nat)
  | And (input0 input1 : LogicNode)
  | Inverter (ln : LogicNode)
  | Value (v : Bool)
  deriving Repr, DecidableEq

/-- `LogicNode::replace(n, replacement)`. -/
def LogicNode.replace (ln : LogicNode) (n : Nat) (replacement : LogicNode) :
    LogicNode :=
  match ln with
  | .Literal l => if l == n then replacement else .Literal l
  | .And input0 input1 =>
    .And (input0.replace n replacement) (input1.replace n replacement)
  | .Inverter ln => .Inverter (ln.replace n replacement)
  | .Value v => .Value v

/-- `LogicNode::evaluate()`: panics if any `Literal` remains. -/
def LogicNode.evaluate : LogicNode → Res Bool
  | .Literal _ => .fail "cant evaluate logic node with literal"
  | .And input0 input1 =>
    match input0.evaluate, input1.evaluate with
    | .ok a, .ok b => .ok (a && b)
    | .fail m, _ => .fail m
    | _, .fail m => .fail m
    | _, _ => .fuelOut
  | .Inverter ln =>
    match ln.evaluate with
    | .ok a => .ok (!a)
    | r => r
  | .Value v => .ok v

/-- The expansion loop of `evaluate`: starting from `Literal(lut.output)`,
expand every literal inside `lut.contains \ lut.inputs` into the gate that
drives it, pushing an ancestor once all of its in-cone descendents are
expanded. -/
def evalBuild (net : BooleanNetwork) (lut : LUT) :
    Nat → LogicNode → List Nat → List Nat → Res LogicNode
  | 0, _, _, _ => .fuelOut
  | _ + 1, logic, _, [] => .ok logic
  | fuel + 1, logic, visited, n :: s =>
    if visited.contains n then
      evalBuild net lut fuel logic visited s
    else
      let visited := visited ++ [n]
      if !(lut.inputs.contains n) then
        let ancestors := net.ancestors n
        let expanded : Res LogicNode :=
          if n % 2 == 1 then
            if ancestors.length == 1 then
              let parent := ancestors.getD 0 0
              .ok (logic.replace n (.Inverter (.Literal parent)))
            else
              .fail "inverter should only be driven by its non-inverted variable"
          else
            if ancestors.length == 2 then
              let input0 := ancestors.getD 0 0
              let input1 := ancestors.getD 1 0
              .ok (logic.replace n (.And (.Literal input0) (.Literal input1)))
            else
              .fail "and gate should only be driven by two literals"
        match expanded with
        | .fail m => .fail m
        | .fuelOut => .fuelOut
        | .ok logic =>
          let s := ancestors.foldl
            (fun acc ancestor =>
              if ((net.descendents ancestor).filter
                    (fun ni => lut.contains.contains ni &&
                      !(visited.contains ni))).length == 0 then
                ancestor :: acc
              else
                acc) s
          evalBuild net lut fuel logic visited s
      else
        evalBuild net lut fuel logic visited s

/-- `evaluate(network, lut)` applied to one input vector: build the logic
tree, substitute the given values for the input literals in order, and fold
the tree. -/
def evaluate (net : BooleanNetwork) (lut : LUT) (literal_values : List Bool) :
    Res Bool :=
  match evalBuild net lut (net.node_count + 2) (.Literal lut.output) []
      [lut.output] with
  | .fail m => .fail m
  | .fuelOut => .fuelOut
  | .ok logic =>
    ((lut.inputs.zip literal_values).foldl
      (fun logic lv => logic.replace lv.1 (.Value lv.2)) logic).evaluate

/-- The input-assignment enumeration of `src/main.rs` (`stim`): bit `j` of
the assignment index `i` gives the `j`-th input. -/
def stim (numInputs i : Nat) : List Bool :=
  (List.range numInputs).map (fun j => i &&& (1 <<< j) != 0)

/-- Modelled from the spec: the glue that feeds `write_rtlil`'s
`evaluate_lut` argument (absent from `src/`, which never calls
`write_rtlil`) iterates all `2^K` input assignments in the fixed enumeration
of `src/main.rs` (bit `i` of the assignment index giving the `i`-th input)
and collects the output bits. -/
def evaluateLutTable (net : BooleanNetwork) (lut : LUT) : Res (List Bool) :=
  (List.range (2 ^ lut.inputs.length)).foldr
    (fun i acc =>
      match evaluate net lut (stim lut.inputs.length i), acc with
      | .ok b, .ok bs => .ok (b :: bs)
      | .fail m, _ => .fail m
      | _, .fail m => .fail m
      | _, _ => .fuelOut)
    (.ok [])

/-- The truth-table bitstring of `write_rtlil` (`src/backends/rtlil.rs`):
the collected output bits, reversed, written as characters. -/
def lutBitstring (table : List Bool) : String :=
  String.mk (table.reverse.map (fun bit => if bit then '1' else '0'))

/-! ## §8 Network construction from AIGER records (`src/main.rs`) -/

/-- The record-processing loop of `src/main.rs`: marks PIs/POs and adds the
gate edges.  Node indices are the literal values. -/
def applyRecord (net : BooleanNetwork) : Aiger → BooleanNetwork
  | .Input l =>
    let net := net.set_node_value l.val (fun nv => { nv with label := some 0 })
    net.set_node_value l.val (fun nv => { nv with is_pi := true })
  | .Latch o i =>
    let net := net.set_node_value o.val (fun nv => { nv with is_pi := true })
    let net := net.set_node_value o.val (fun nv => { nv with is_po := true })
    net.add_edge i.val o.val
  | .Output l =>
    net.set_node_value l.val (fun nv => { nv with is_po := true })
  | .AndGate o i1 i2 =>
    (net.add_edge i1.val o.val).add_edge i2.val o.val

/-- Network construction of `src/main.rs` for header maximum-variable `m`:
reserve nodes `0 … 2m+1`, add every inverter edge `2v → 2v+1`, mark literal
0 as a PI with label 0, then process the records in order. -/
def buildNetwork (m : Nat) (records : List Aiger) : BooleanNetwork :=
  let net := BooleanNetwork.new (m * 2 + 1)
  let net := (List.range (m + 1)).foldl
    (fun net v => net.add_edge (2 * v) (2 * v + 1)) net
  let net := net.set_node_value 0 (fun nv => { nv with label := some 0 })
  let net := net.set_node_value 0 (fun nv => { nv with is_pi := true })
  records.foldl applyRecord net

/-! ## §9 Concrete networks used by the claims -/

/-- Build a network from an edge list and mark the given nodes as PIs with
label 0 (the frontend's preparation, as in the tests of
`src/flowmap/label.rs`). -/
def mkNet (maxIdx : Nat) (edges : List (Nat × Nat)) (pis : List Nat) :
    BooleanNetwork :=
  let net := edges.foldl (fun net e => net.add_edge e.1 e.2)
    (BooleanNetwork.new maxIdx)
  pis.foldl
    (fun net pi =>
      let net := net.set_node_value pi (fun nv => { nv with label := some 0 })
      net.set_node_value pi (fun nv => { nv with is_pi := true })) net

/-- Extract the network of an `ok` result (defaulting for the other cases,
which the theorems exclude). -/
def resNet (r : Res BooleanNetwork) : BooleanNetwork :=
  match r with
  | .ok net => net
  | _ => BooleanNetwork.new 0

/-- The network of claim C5 (the `label_uncollapsed_nodes_feed_sink`
regression network): edges 0→3, 1→3, 2→4, 3→4, PIs 0, 1, 2 with label 0,
node 4 the PO. -/
def c5Net : BooleanNetwork :=
  (mkNet 4 [(0, 3), (1, 3), (2, 4), (3, 4)] [0, 1, 2]).set_node_value 4
    (fun nv => { nv with is_po := true })

/-- The chain network of the C9 counterexample: 0 → 1 → 2 → 3 with nodes
0 and 1 flagged `is_pi` (node 1 a latch: a PI with a driver edge).  Node
3's labelling subnetwork contains the latch, whose incoming edge payload
the pass rewrites. -/
def c9LatchNet : BooleanNetwork := mkNet 3 [(0, 1), (1, 2), (2, 3)] [0, 1]

/-- The pure-inverter pipeline input of claim C7: `aag 1 1 0 1 0`, input
literal 2, output literal 3. -/
def c7Net : BooleanNetwork := buildNetwork 1 [.Input ⟨2⟩, .Output ⟨3⟩]

/-- The labelled C7 network (K = 6, the compile-time constant of
`src/main.rs`). -/
def c7Labelled : BooleanNetwork := resNet (label_network c7Net 6 20)

/-- The latch network of claim C4: PI 0 (label 0) drives node 1, which is
flagged both `is_pi` and `is_po` (a latch). -/
def c4Net : BooleanNetwork :=
  let net := mkNet 1 [(0, 1)] [0]
  let net := net.set_node_value 1 (fun nv => { nv with is_pi := true })
  net.set_node_value 1 (fun nv => { nv with is_po := true })

/-! ## §10 Claims C4, C5, C7, C8 -/

/-- C8: an AIGER record of correct arity with an inverted literal in a
forbidden position (input literal, latch state literal, AND-gate output
literal) parses to `InvalidInverted`; output records accept inverted
literals. -/
theorem c8_inverted_literals :
    (∀ i : Literal, i.is_inverted = true →
      Aiger.parse_input [i] = .error .InvalidInverted) ∧
    (∀ o i : Literal, o.is_inverted = true →
      Aiger.parse_latch [o, i] = .error .InvalidInverted) ∧
    (∀ o i1 i2 : Literal, o.is_inverted = true →
      Aiger.parse_and_gate [o, i1, i2] = .error .InvalidInverted) ∧
    (∀ l : Literal, Aiger.parse_output [l] = .ok (.Output l)) := by
  refine ⟨fun i h => ?_, fun o i h => ?_, fun o i1 i2 h => ?_, fun l => ?_⟩
  · simp [Aiger.parse_input, h]
  · simp [Aiger.parse_latch, h]
  · simp [Aiger.parse_and_gate, h]
  · rfl

/-- Witness for C8 at concrete records: literal 3 is inverted, and the four
parsers behave as the theorem states on it. -/
theorem c8_inverted_literals_witness :
    Aiger.parse_input [⟨3⟩] = .error .InvalidInverted ∧
    Aiger.parse_latch [⟨3⟩, ⟨0⟩] = .error .InvalidInverted ∧
    Aiger.parse_and_gate [⟨3⟩, ⟨0⟩, ⟨2⟩] = .error .InvalidInverted ∧
    Aiger.parse_output [⟨7⟩] = .ok (.Output ⟨7⟩) :=
  ⟨c8_inverted_literals.1 ⟨3⟩ (by decide),
    c8_inverted_literals.2.1 ⟨3⟩ ⟨0⟩ (by decide),
    c8_inverted_literals.2.2.1 ⟨3⟩ ⟨0⟩ ⟨2⟩ (by decide),
    c8_inverted_literals.2.2.2 ⟨7⟩⟩

/-- C5: on the network 0→3, 1→3, 2→4, 3→4 with PIs 0, 1, 2 (label 0) and PO
4, `label_network` with K = 2 completes and assigns ℓ(3) = 1 and ℓ(4) = 2. -/
theorem c5_regression_labels :
    (label_network c5Net 2 20).isOk = true ∧
    ((resNet (label_network c5Net 2 20)).node_value 3).label = some 1 ∧
    ((resNet (label_network c5Net 2 20)).node_value 4).label = some 2 := by
  decide

/-- C7, counterexample: the pure-inverter pipeline produces exactly one LUT
with output 3 and inputs [2], but the truth-table bitstring emitted for it
(output bits over all input assignments, reversed by `write_rtlil` to be
MSB-first) is "01", not "10" as the claim states: the inverter emits 1 for
input assignment 0. -/
theorem c7_bitstring_counterexample :
    map c7Labelled 6 20 = .ok [⟨3, [2], [3]⟩] ∧
    evaluateLutTable c7Labelled ⟨3, [2], [3]⟩ = .ok [true, false] ∧
    lutBitstring [true, false] = "01" ∧ ("01" : String) ≠ "10" := by
  decide

/-- C7, amended: for the AIGER input `aag 1 1 0 1 0` (input literal 2,
output literal 3) the pipeline produces exactly one LUT, with output node 3
and inputs [2], and its truth-table bitstring, collected MSB-first over all
input assignments (bit i of the assignment index giving the i-th input), is
"01". -/
theorem c7_inverter_pipeline :
    (label_network c7Net 6 20).isOk = true ∧
    map c7Labelled 6 20 = .ok [⟨3, [2], [3]⟩] ∧
    evaluateLutTable c7Labelled ⟨3, [2], [3]⟩ = .ok [true, false] ∧
    lutBitstring [true, false] = "01" := by
  decide

/-- C4: on the latch network, `label_network` completes (skipping the latch,
a PI, and leaving its `x_bar` empty), and `map` then violates its own
`1 ≤ |inputs| ≤ K` assertion on the latch's LUT and panics instead of
emitting a valid driver LUT. -/
theorem c4_latch_assert_fires :
    (label_network c4Net 2 20).isOk = true ∧
    (label_network c4Net 2 20).bind (fun net => map net 2 20) =
      .fail "number of inputs to LUT was outside 1..=K" := by
  decide

/-! ## §11 Basic facts about the network operations -/

/-- `List.getD` after `List.set` at the same in-range index. -/
theorem getD_set_self {α : Type} (l : List α) (i : Nat) (v d : α)
    (h : i < l.length) : (l.set i v).getD i d = v := by
  simp [List.getD, List.getElem?_set_eq_of_lt _ h]

/-- `List.getD` after `List.set` at a different index. -/
theorem getD_set_ne {α : Type} (l : List α) (i j : Nat) (v d : α)
    (h : j ≠ i) : (l.set i v).getD j d = l.getD j d := by
  simp only [List.getD, List.get?_eq_getElem?, List.getElem?_set]
  rw [if_neg (fun hh => h hh.symm)]

namespace BooleanNetwork

/-- `set_node_value` leaves the adjacency structure unchanged. -/
theorem nodes_set_node_value (net : BooleanNetwork) (i : Nat)
    (f : NodeValue → NodeValue) : (net.set_node_value i f).nodes = net.nodes := rfl

/-- `set_edge_value` leaves the adjacency structure unchanged. -/
theorem nodes_set_edge_value (net : BooleanNetwork) (a b : Nat) (v : Nat × Nat) :
    (net.set_edge_value a b v).nodes = net.nodes := rfl

theorem max_set_node_value (net : BooleanNetwork) (i : Nat)
    (f : NodeValue → NodeValue) :
    (net.set_node_value i f).max_node_index = net.max_node_index := rfl

theorem max_set_edge_value (net : BooleanNetwork) (a b : Nat) (v : Nat × Nat) :
    (net.set_edge_value a b v).max_node_index = net.max_node_index := rfl

/-- `set_edge_value` leaves every node value unchanged. -/
theorem node_value_set_edge_value (net : BooleanNetwork) (a b : Nat)
    (v : Nat × Nat) (i : Nat) :
    (net.set_edge_value a b v).node_value i = net.node_value i := rfl

/-- Reading back a `set_node_value` at another index. -/
theorem node_value_set_node_value_ne (net : BooleanNetwork) (i : Nat)
    (f : NodeValue → NodeValue) (j : Nat) (h : j ≠ i) :
    (net.set_node_value i f).node_value j = net.node_value j := by
  unfold node_value set_node_value
  exact getD_set_ne _ _ _ _ _ h

/-- Reading back a `set_node_value` at the written index: the result is
either the updated value (in range) or the old value (out of range, where
`List.set` is the identity). -/
theorem node_value_set_node_value_self (net : BooleanNetwork) (i : Nat)
    (f : NodeValue → NodeValue) :
    (net.set_node_value i f).node_value i = f (net.node_value i) ∨
    (net.set_node_value i f).node_value i = net.node_value i := by
  by_cases h : i < net.node_values.length
  · exact Or.inl (getD_set_self _ _ _ _ h)
  · right
    unfold node_value set_node_value
    rw [List.set_eq_of_length_le (Nat.le_of_not_lt h)]

end BooleanNetwork

/-- The fields of a node value other than `flow` are all equal. -/
def SameNV (a b : NodeValue) : Prop :=
  b.symbol = a.symbol ∧ b.label = a.label ∧ b.x_bar = a.x_bar ∧
  b.is_pi = a.is_pi ∧ b.is_po = a.is_po

theorem SameNV.refl_same (a : NodeValue) : SameNV a a := ⟨rfl, rfl, rfl, rfl, rfl⟩

theorem SameNV.trans_same {a b c : NodeValue} (h1 : SameNV a b) (h2 : SameNV b c) :
    SameNV a c :=
  ⟨h2.1.trans h1.1, h2.2.1.trans h1.2.1, h2.2.2.1.trans h1.2.2.1,
    h2.2.2.2.1.trans h1.2.2.2.1, h2.2.2.2.2.trans h1.2.2.2.2⟩

/-- The inner edge-payload list lengths survive `set_edge_value`. -/
theorem length_edge_values_set (net : BooleanNetwork) (a b : Nat)
    (v : Nat × Nat) (u : Nat) :
    (((net.set_edge_value a b v).edge_values).getD u []).length =
      ((net.edge_values).getD u []).length := by
  unfold BooleanNetwork.set_edge_value
  by_cases hub : u = b
  · subst hub
    by_cases hlt : u < net.edge_values.length
    · rw [getD_set_self _ _ _ _ hlt]
      exact List.length_set _ _ _
    · rw [List.set_eq_of_length_le (Nat.le_of_not_lt hlt)]
  · exact congrArg List.length (getD_set_ne _ _ _ _ _ hub)

/-- `NVPreserved a b`: `b` has the same adjacency structure as `a`, the same
payload-vector shape, and every node value agrees with `a`'s except possibly
in the `flow` scratch field (edge values themselves are unconstrained).
This is the footprint of everything the max-flow engine and the subnetwork
construction do to the network. -/
def NVPreserved (a b : BooleanNetwork) : Prop :=
  b.nodes = a.nodes ∧ b.max_node_index = a.max_node_index ∧
  (∀ i, SameNV (a.node_value i) (b.node_value i)) ∧
  b.node_values.length = a.node_values.length ∧
  ∀ u, ((b.edge_values).getD u []).length = ((a.edge_values).getD u []).length

theorem NVPreserved.refl (a : BooleanNetwork) : NVPreserved a a :=
  ⟨rfl, rfl, fun _ => SameNV.refl_same _, rfl, fun _ => rfl⟩

theorem NVPreserved.trans {a b c : BooleanNetwork}
    (h1 : NVPreserved a b) (h2 : NVPreserved b c) : NVPreserved a c :=
  ⟨h2.1.trans h1.1, h2.2.1.trans h1.2.1,
    fun i => SameNV.trans_same (h1.2.2.1 i) (h2.2.2.1 i),
    h2.2.2.2.1.trans h1.2.2.2.1,
    fun u => (h2.2.2.2.2 u).trans (h1.2.2.2.2 u)⟩

theorem NVPreserved.set_edge_value (net : BooleanNetwork) (a b : Nat)
    (v : Nat × Nat) : NVPreserved net (net.set_edge_value a b v) :=
  ⟨rfl, rfl, fun _ => SameNV.refl_same _, rfl,
    fun u => length_edge_values_set net a b v u⟩

/-- Updating only the `flow` field of one node preserves everything else. -/
theorem NVPreserved.set_flow (net : BooleanNetwork) (i : Nat) (g : Nat → Nat) :
    NVPreserved net (net.set_node_value i (fun nv => { nv with flow := g nv.flow })) := by
  refine ⟨rfl, rfl, fun j => ?_, List.length_set _ _ _, fun _ => rfl⟩
  by_cases h : j = i
  · subst h
    rcases net.node_value_set_node_value_self j
        (fun nv => { nv with flow := g nv.flow }) with h' | h' <;>
      rw [h'] <;> exact ⟨rfl, rfl, rfl, rfl, rfl⟩
  · rw [net.node_value_set_node_value_ne _ _ _ h]
    exact SameNV.refl_same _

/-- `ancestors` only depends on the adjacency structure. -/
theorem ancestors_eq_of_nodes_eq {a b : BooleanNetwork} (h : b.nodes = a.nodes) :
    ∀ i, b.ancestors i = a.ancestors i := by
  intro i
  unfold BooleanNetwork.ancestors
  rw [h]

/-- `descendents` only depends on the adjacency structure. -/
theorem descendents_eq_of_nodes_eq {a b : BooleanNetwork} (h : b.nodes = a.nodes) :
    ∀ i, b.descendents i = a.descendents i := by
  intro i
  unfold BooleanNetwork.descendents
  rw [h]

/-- A `foldl` whose every step preserves node values preserves them
globally. -/
theorem NVPreserved.foldl {α σ : Type} (proj : σ → BooleanNetwork)
    (f : σ → α → σ) (h : ∀ s x, NVPreserved (proj s) (proj (f s x))) :
    ∀ (l : List α) (s : σ), NVPreserved (proj s) (proj (l.foldl f s)) := by
  intro l
  induction l with
  | nil => intro s; exact NVPreserved.refl _
  | cons x xs ih => intro s; exact (h s x).trans (ih (f s x))

theorem NVPreserved.augment (net : BooleanNetwork) (fl : FlowEngine)
    (p q : Position) (f : Nat) :
    NVPreserved net (FlowEngine.augment net fl p q f).1 := by
  rcases p with _ | _ | n1 | n1 <;> rcases q with _ | _ | n2 | n2 <;>
    simp only [FlowEngine.augment] <;>
    try exact NVPreserved.refl _
  · split
    · exact NVPreserved.set_flow net n1 (fun x => x + f)
    · exact NVPreserved.set_edge_value _ _ _ _
  · split
    · exact NVPreserved.set_flow net n1 (fun x => x - f)
    · exact NVPreserved.set_edge_value _ _ _ _

theorem NVPreserved.walkAugment :
    ∀ (fuel : Nat) (path : List (Position × Position)) (net : BooleanNetwork)
      (fl : FlowEngine) (q : Position) (net' : BooleanNetwork) (fl' : FlowEngine),
      FlowEngine.walkAugment path fuel net fl q = .ok (net', fl') →
      NVPreserved net net' := by
  intro fuel
  induction fuel with
  | zero => intro _ _ _ _ _ _ h; exact absurd h (by simp [FlowEngine.walkAugment])
  | succ n ih =>
    intro path net fl q net' fl' h
    rw [FlowEngine.walkAugment] at h
    rcases hl : path.lookup q with _ | p <;> rw [hl] at h
    · cases h
      exact NVPreserved.refl _
    · exact (NVPreserved.augment net fl p q 1).trans (ih _ _ _ _ _ _ h)

theorem NVPreserved.step (net : BooleanNetwork) (fl : FlowEngine) (fuel : Nat)
    (net' : BooleanNetwork) (fl' : FlowEngine) (b : Bool)
    (h : FlowEngine.step net fl fuel = .ok (net', fl', b)) :
    NVPreserved net net' := by
  rw [FlowEngine.step] at h
  split at h
  · exact Res.noConfusion h
  · exact Res.noConfusion h
  · split at h
    · cases h
      exact NVPreserved.refl _
    · split at h
      · exact Res.noConfusion h
      · exact Res.noConfusion h
      · rename_i net1 fl1 hw
        cases h
        exact NVPreserved.walkAugment _ _ _ _ _ _ _ hw

theorem NVPreserved.runSteps :
    ∀ (fuel dfs : Nat) (net : BooleanNetwork) (fl : FlowEngine)
      (net' : BooleanNetwork) (fl' : FlowEngine) (m : Nat),
      FlowEngine.runSteps dfs fuel net fl = .ok (net', fl', m) →
      NVPreserved net net' := by
  intro fuel
  induction fuel with
  | zero => intro _ _ _ _ _ _ h; exact absurd h (by simp [FlowEngine.runSteps])
  | succ n ih =>
    intro dfs net fl net' fl' m h
    rw [FlowEngine.runSteps] at h
    split at h
    · exact Res.noConfusion h
    · exact Res.noConfusion h
    · rename_i net1 fl1 hs
      cases h
      exact NVPreserved.step _ _ _ _ _ _ hs
    · rename_i net1 fl1 hs
      split at h
      · exact Res.noConfusion h
      · exact Res.noConfusion h
      · rename_i net2 fl2 m2 hr
        cases h
        exact (NVPreserved.step _ _ _ _ _ _ hs).trans (ih _ _ _ _ _ _ hr)

theorem NVPreserved.of_labelBfs :
    ∀ (p fuel : Nat) (net : BooleanNetwork) (source sink visited s : List Nat)
      (net' : BooleanNetwork) (source' sink' visited' : List Nat),
      labelBfs p fuel net source sink visited s =
        .ok (net', source', sink', visited') →
      NVPreserved net net' := by
  intro p fuel
  induction fuel with
  | zero => intro _ _ _ _ _ _ _ _ _ h; exact absurd h (by simp [labelBfs])
  | succ n ih =>
    intro net source sink visited s net' source' sink' visited' h
    match s with
    | [] =>
      rw [labelBfs] at h
      cases h
      exact NVPreserved.refl _
    | node :: s =>
      rw [labelBfs] at h
      refine ((NVPreserved.set_flow net node (fun _ => 0)).trans
        ((NVPreserved.foldl
          (fun (st : BooleanNetwork × List Nat × List Nat × List Nat × List Nat) => st.1)
          _ ?_ _ _).trans (ih _ _ _ _ _ _ _ _ _ h)))
      intro st ancestor
      obtain ⟨net0, source0, sink0, visited0, s0⟩ := st
      rw [bfsStep]
      dsimp only []
      split
      · split
        · exact NVPreserved.set_edge_value _ _ _ _
        · split
          · exact NVPreserved.set_edge_value _ _ _ _
          · exact (NVPreserved.set_edge_value _ _ _ _).trans
              (NVPreserved.set_edge_value _ _ _ _)
      · exact NVPreserved.set_edge_value _ _ _ _

theorem NVPreserved.of_label_node (net : BooleanNetwork) (node k : Nat)
    (net' : BooleanNetwork) (lbl : Nat) (x_bar : List Nat)
    (h : label_node net node k = .ok (net', lbl, x_bar)) :
    NVPreserved net net' := by
  rw [label_node] at h
  split at h
  · exact Res.noConfusion h
  · exact Res.noConfusion h
  · exact Res.noConfusion h
  · rename_i l ls hanc
    dsimp only [] at h
    split at h
    · cases h
      exact NVPreserved.refl _
    · split at h
      · exact Res.noConfusion h
      · exact Res.noConfusion h
      · rename_i net1 source1 sink1 visited1 hbfs
        split at h
        · exact Res.noConfusion h
        · exact Res.noConfusion h
        · rename_i net2 fl2 mf hrun
          split at h
          · split at h
            · exact Res.noConfusion h
            · exact Res.noConfusion h
            · rename_i xb hcut
              cases h
              exact (NVPreserved.of_labelBfs _ _ _ _ _ _ _ _ _ _ _ hbfs).trans
                (NVPreserved.runSteps _ _ _ _ _ _ _ hrun)
          · cases h
            exact (NVPreserved.of_labelBfs _ _ _ _ _ _ _ _ _ _ _ hbfs).trans
              (NVPreserved.runSteps _ _ _ _ _ _ _ hrun)

/-- `PIFrame a b`: the adjacency structure, every node's `symbol`, `is_pi`
and `is_po`, and the `label` and `x_bar` of every PI node are the same in
`b` as in `a`.  This is what one pass of `label_network` preserves. -/
def PIFrame (a b : BooleanNetwork) : Prop :=
  b.nodes = a.nodes ∧ b.max_node_index = a.max_node_index ∧
  (∀ i, (b.node_value i).symbol = (a.node_value i).symbol ∧
        (b.node_value i).is_pi = (a.node_value i).is_pi ∧
        (b.node_value i).is_po = (a.node_value i).is_po) ∧
  (∀ i, (a.node_value i).is_pi = true →
        (b.node_value i).label = (a.node_value i).label ∧
        (b.node_value i).x_bar = (a.node_value i).x_bar)

theorem PIFrame.refl_pif (a : BooleanNetwork) : PIFrame a a :=
  ⟨rfl, rfl, fun _ => ⟨rfl, rfl, rfl⟩, fun _ _ => ⟨rfl, rfl⟩⟩

theorem PIFrame.trans_pif {a b c : BooleanNetwork} (h1 : PIFrame a b)
    (h2 : PIFrame b c) : PIFrame a c := by
  refine ⟨h2.1.trans h1.1, h2.2.1.trans h1.2.1, fun i => ?_, fun i hpi => ?_⟩
  · exact ⟨(h2.2.2.1 i).1.trans (h1.2.2.1 i).1,
      (h2.2.2.1 i).2.1.trans (h1.2.2.1 i).2.1,
      (h2.2.2.1 i).2.2.trans (h1.2.2.1 i).2.2⟩
  · have hb : (b.node_value i).is_pi = true := (h1.2.2.1 i).2.1.trans hpi ▸ rfl
    rw [(h1.2.2.1 i).2.1] at hb
    rw [hpi] at hb
    exact ⟨((h2.2.2.2 i (by rw [(h1.2.2.1 i).2.1, hpi])).1).trans (h1.2.2.2 i hpi).1,
      ((h2.2.2.2 i (by rw [(h1.2.2.1 i).2.1, hpi])).2).trans (h1.2.2.2 i hpi).2⟩

theorem PIFrame.of_nv_pif {a b : BooleanNetwork} (h : NVPreserved a b) :
    PIFrame a b :=
  ⟨h.1, h.2.1, fun i => ⟨(h.2.2.1 i).1, (h.2.2.1 i).2.2.2.1, (h.2.2.1 i).2.2.2.2⟩,
    fun i _ => ⟨(h.2.2.1 i).2.1, (h.2.2.1 i).2.2.1⟩⟩

/-- Writing the `label` of a non-PI node respects the PI frame. -/
theorem PIFrame.set_label (net : BooleanNetwork) (ni : Nat) (v : Option Nat)
    (hpi : (net.node_value ni).is_pi = false) :
    PIFrame net (net.set_node_value ni (fun nv => { nv with label := v })) := by
  refine ⟨rfl, rfl, fun j => ?_, fun j hj => ?_⟩
  · by_cases h : j = ni
    · subst h
      rcases net.node_value_set_node_value_self j (fun nv => { nv with label := v })
          with h' | h' <;> rw [h'] <;> exact ⟨rfl, rfl, rfl⟩
    · rw [net.node_value_set_node_value_ne _ _ _ h]
      exact ⟨rfl, rfl, rfl⟩
  · have h : j ≠ ni := fun he => by rw [he, hpi] at hj; exact Bool.noConfusion hj
    rw [net.node_value_set_node_value_ne _ _ _ h]
    exact ⟨rfl, rfl⟩

/-- Writing the `x_bar` of a non-PI node respects the PI frame. -/
theorem PIFrame.set_x_bar (net : BooleanNetwork) (ni : Nat) (v : List Nat)
    (hpi : (net.node_value ni).is_pi = false) :
    PIFrame net (net.set_node_value ni (fun nv => { nv with x_bar := v })) := by
  refine ⟨rfl, rfl, fun j => ?_, fun j hj => ?_⟩
  · by_cases h : j = ni
    · subst h
      rcases net.node_value_set_node_value_self j (fun nv => { nv with x_bar := v })
          with h' | h' <;> rw [h'] <;> exact ⟨rfl, rfl, rfl⟩
    · rw [net.node_value_set_node_value_ne _ _ _ h]
      exact ⟨rfl, rfl, rfl⟩
  · have h : j ≠ ni := fun he => by rw [he, hpi] at hj; exact Bool.noConfusion hj
    rw [net.node_value_set_node_value_ne _ _ _ h]
    exact ⟨rfl, rfl⟩

/-- The labelling loop preserves the PI frame. -/
theorem labelLoop_pi_frame :
    ∀ (fuel k : Nat) (net : BooleanNetwork) (topo : TopologicalOrder)
      (net' : BooleanNetwork),
      labelLoop k fuel net topo = .ok net' → PIFrame net net' := by
  intro fuel
  induction fuel with
  | zero => intro _ _ _ _ h; exact absurd h (by simp [labelLoop])
  | succ n ih =>
    intro k net topo net' h
    rw [labelLoop] at h
    split at h
    · cases h
      exact PIFrame.refl_pif _
    · rename_i ni topo' hnext
      split at h
      · exact PIFrame.trans_pif (PIFrame.refl_pif _) (ih _ _ _ _ h)
      · rename_i hpi
        split at h
        · exact Res.noConfusion h
        · exact Res.noConfusion h
        · rename_i net1 lbl xb hln
          dsimp only [] at h
          have h1 : PIFrame net net1 :=
            PIFrame.of_nv_pif (NVPreserved.of_label_node _ _ _ _ _ _ hln)
          have hpi1 : (net1.node_value ni).is_pi = false := by
            rw [((NVPreserved.of_label_node _ _ _ _ _ _ hln).2.2.1 ni).2.2.2.1]
            exact Bool.of_not_eq_true hpi
          have h2 := PIFrame.set_label net1 ni (some lbl) hpi1
          have hpi2 : ((net1.set_node_value ni
              (fun nv => { nv with label := some lbl })).node_value ni).is_pi = false := by
            rw [(h2.2.2.1 ni).2.1]
            exact hpi1
          have h3 := PIFrame.set_x_bar _ ni xb hpi2
          exact PIFrame.trans_pif (PIFrame.trans_pif h1 (PIFrame.trans_pif h2 h3)) (ih _ _ _ _ h)

/-! ## §12 Claims C9 and C10 -/

/-- C9, counterexample: the original claim's second conjunct — that for a
PI node only the `flow` scratch field and the payloads of its *outgoing*
edges may change — is false.  On the chain 0 → 1 → 2 → 3 with PIs 0 and 1
(node 1 a latch), a completed `label_network` run rewrites the payload of
the latch's *incoming* driver edge 0 → 1: the labelling subnetwork of
node 3 contains the latch, the BFS resets its in-edge to `(0, 1)` before
checking PI status, and the max-flow engine then pushes a flow unit
through it, leaving `(1, 0)` where the untouched network has `(0, 0)`. -/
theorem c9_latch_incoming_edge_counterexample :
    (c9LatchNet.node_value 1).is_pi = true ∧
    (label_network c9LatchNet 2 20).isOk = true ∧
    c9LatchNet.edge_value 0 1 = (0, 0) ∧
    (resNet (label_network c9LatchNet 2 20)).edge_value 0 1 ≠ (0, 0) := by
  decide

/-- C9, amended: `label_network` never modifies the `symbol`, `label`,
`x_bar`, `is_pi` or `is_po` fields of any node flagged `is_pi`, and never
changes the adjacency structure; only the `flow` scratch fields and the
payloads of edges incident to the node — incoming driver edges as well as
outgoing ones — may change during the pass. -/
theorem c9_pi_fields_preserved (net : BooleanNetwork) (k fuel : Nat)
    (net' : BooleanNetwork) (h : label_network net k fuel = .ok net') :
    net'.nodes = net.nodes ∧
    net'.max_node_index = net.max_node_index ∧
    ∀ i, (net.node_value i).is_pi = true →
      (net'.node_value i).symbol = (net.node_value i).symbol ∧
      (net'.node_value i).label = (net.node_value i).label ∧
      (net'.node_value i).x_bar = (net.node_value i).x_bar ∧
      (net'.node_value i).is_pi = true ∧
      (net'.node_value i).is_po = (net.node_value i).is_po := by
  have hf := labelLoop_pi_frame fuel k net (TopologicalOrder.new net) net' h
  refine ⟨hf.1, hf.2.1, fun i hpi => ?_⟩
  exact ⟨(hf.2.2.1 i).1, (hf.2.2.2 i hpi).1, (hf.2.2.2 i hpi).2,
    (hf.2.2.1 i).2.1.trans hpi, (hf.2.2.1 i).2.2⟩

/-- Witness for the amended C9: on the C5 network, node 0 is a PI, the
adjacency structure survives the pass, and the PI's label is unchanged. -/
theorem c9_pi_fields_preserved_witness :
    (c5Net.node_value 0).is_pi = true ∧
    (resNet (label_network c5Net 2 20)).nodes = c5Net.nodes ∧
    ((resNet (label_network c5Net 2 20)).node_value 0).label =
      (c5Net.node_value 0).label := by
  have hok : label_network c5Net 2 20 = .ok (resNet (label_network c5Net 2 20)) := by
    decide
  have h := c9_pi_fields_preserved c5Net 2 20 _ hok
  exact ⟨by decide, h.1, (h.2.2 0 (by decide)).2.1⟩

/-- The worklist of the topological iterator only grows by the pushes of
`next`: membership of any other node is preserved. -/
theorem mem_foldl_cons {α : Type} (p : α → Bool) (l : List α) (x : α)
    (hx : x ∈ l) :
    ∀ (xs : List α), x ∈ xs.foldl (fun acc d => if p d then d :: acc else acc) l := by
  intro xs
  induction xs generalizing l with
  | nil => exact hx
  | cons y ys ih =>
    by_cases hy : p y
    · simp only [List.foldl, hy, if_pos]
      exact ih _ (List.mem_cons_of_mem _ hx)
    · simp only [List.foldl, hy, if_neg, Bool.false_eq_true, not_false_iff]
      exact ih _ hx

/-- The labelling loop can never complete while a node with no ancestors
that is not a PI sits in the worklist: reaching it panics in `label_node`
(`expect("node being labelled to have ancestors")`). -/
theorem labelLoop_stuck_on_bad :
    ∀ (fuel k bad : Nat) (net : BooleanNetwork) (topo : TopologicalOrder),
      bad ∈ topo.s → net.ancestors bad = [] →
      (net.node_value bad).is_pi = false →
      (labelLoop k fuel net topo).isOk = false := by
  intro fuel
  induction fuel with
  | zero => intro _ _ _ _ _ _ _; rfl
  | succ n ih =>
    intro k bad net topo hmem hanc hpi
    rw [labelLoop]
    rcases hts : topo.s with _ | ⟨m, rest⟩
    · rw [hts] at hmem
      exact absurd hmem (List.not_mem_nil _)
    · rw [TopologicalOrder.next, hts]
      dsimp only []
      by_cases hbm : m = bad
      · subst hbm
        rw [hpi]
        rw [label_node, hanc]
        rfl
      · have hrest : bad ∈ rest := by
          rw [hts] at hmem
          rcases List.mem_cons.1 hmem with h | h
          · exact absurd h.symm hbm
          · exact h
        have hmem' := mem_foldl_cons
          (fun d => ((net.ancestors d).filter
            (fun ni => !((topo.visited ++ [m]).contains ni))).length == 0)
          rest bad hrest (net.descendents m)
        split
        · exact ih _ _ _ _ hmem' hanc hpi
        · rename_i hpim
          split
          · rfl
          · rfl
          · rename_i net1 lbl xb hln
            have hnv := NVPreserved.of_label_node _ _ _ _ _ _ hln
            have hf2 := PIFrame.set_label net1 m (some lbl) (by
              rw [(hnv.2.2.1 m).2.2.2.1]
              exact Bool.of_not_eq_true hpim)
            have hf3 := PIFrame.set_x_bar _ m xb (by
              rw [(hf2.2.2.1 m).2.1, (hnv.2.2.1 m).2.2.2.1]
              exact Bool.of_not_eq_true hpim)
            set net2 := (net1.set_node_value m
              (fun nv => { nv with label := some lbl })).set_node_value m
              (fun nv => { nv with x_bar := xb }) with hnet2
            have hanc2 : net2.ancestors bad = [] := by
              rw [ancestors_eq_of_nodes_eq (hf3.1.trans (hf2.1.trans hnv.1)) bad]
              exact hanc
            have hpi2 : (net2.node_value bad).is_pi = false := by
              rw [(hf3.2.2.1 bad).2.1, (hf2.2.2.1 bad).2.1, (hnv.2.2.1 bad).2.2.2.1]
              exact hpi
            exact ih _ _ _ _ hmem' hanc2 hpi2

/-- C10: if the network contains a node with no ancestors that is not
flagged `is_pi`, `label_network` never completes: the run panics when the
topological iterator reaches that node (whatever the fuel, the result is
never `ok`). -/
theorem c10_unflagged_seed_panics (net : BooleanNetwork) (k fuel bad : Nat)
    (hlt : bad < net.node_count) (hanc : net.ancestors bad = [])
    (hpi : (net.node_value bad).is_pi = false) :
    (label_network net k fuel).isOk = false := by
  apply labelLoop_stuck_on_bad fuel k bad net
  · rw [TopologicalOrder.new]
    dsimp only []
    rw [List.mem_reverse, List.mem_filter]
    refine ⟨List.mem_range.2 hlt, ?_⟩
    rw [hanc]
    rfl
  · exact hanc
  · exact hpi

/-- Witness for C10: node 0 of the two-node edgeless network is an
unflagged root, and `label_network` indeed fails on it. -/
theorem c10_unflagged_seed_panics_witness :
    (label_network (BooleanNetwork.new 1) 2 5).isOk = false :=
  c10_unflagged_seed_panics (BooleanNetwork.new 1) 2 5 0 (by decide) (by decide)
    (by decide)

/-! ## §13 Well-formedness and the topological iterator

`WFNet` collects the representation invariants every network built through
`BooleanNetwork::new` and `add_edge` satisfies: the payload vectors have one
entry per node, adjacency indices are in range, and (with multiplicity, for
parallel edges) `a` appears in `ancestors v` exactly as often as `v` appears
in `descendents a`.  `Acyclic` is witnessed by a rank function decreasing
along edges. -/

def WFNet (net : BooleanNetwork) : Prop :=
  net.nodes.length = net.node_count ∧
  net.node_values.length = net.node_count ∧
  (∀ v a, a ∈ net.ancestors v → a < net.node_count) ∧
  (∀ v d, d ∈ net.descendents v → d < net.node_count) ∧
  (∀ a v, (net.ancestors v).count a = (net.descendents a).count v)

def Acyclic (net : BooleanNetwork) : Prop :=
  ∃ rank : Nat → Nat, ∀ v a, a ∈ net.ancestors v → rank a < rank v

/-- No parallel edges: every ancestor list is duplicate-free. -/
def NoParallel (net : BooleanNetwork) : Prop :=
  ∀ v, (net.ancestors v).Nodup

/-- Membership form of the adjacency consistency. -/
theorem mem_descendents_of_mem_ancestors {net : BooleanNetwork}
    (hwf : WFNet net) {a v : Nat} (h : a ∈ net.ancestors v) :
    v ∈ net.descendents a := by
  have hc := hwf.2.2.2.2 a v
  have : 0 < (net.ancestors v).count a := List.count_pos_iff_mem.2 h
  rw [hc] at this
  exact List.count_pos_iff_mem.1 this

theorem mem_ancestors_of_mem_descendents {net : BooleanNetwork}
    (hwf : WFNet net) {a v : Nat} (h : v ∈ net.descendents a) :
    a ∈ net.ancestors v := by
  have hc := hwf.2.2.2.2 a v
  have : 0 < (net.descendents a).count v := List.count_pos_iff_mem.2 h
  rw [← hc] at this
  exact List.count_pos_iff_mem.1 this

/-- `next` only looks at the adjacency structure, so two networks with the
same `nodes` drive the iterator identically. -/
theorem TopologicalOrder.next_congr (t : TopologicalOrder)
    {net1 net2 : BooleanNetwork} (h : net2.nodes = net1.nodes) :
    t.next net2 = t.next net1 := by
  rcases hts : t.s with _ | ⟨n, rest⟩ <;>
    simp only [TopologicalOrder.next, hts]
  simp only [ancestors_eq_of_nodes_eq h, descendents_eq_of_nodes_eq h]

/-- The iterator consumes `xs` going from state `t` to state `t'`. -/
inductive Steps (net : BooleanNetwork) :
    TopologicalOrder → List Nat → TopologicalOrder → Prop
  | nil (t : TopologicalOrder) : Steps net t [] t
  | cons {t t1 t2 : TopologicalOrder} {x : Nat} {xs : List Nat}
      (h : t.next net = (some x, t1)) (hs : Steps net t1 xs t2) :
      Steps net t (x :: xs) t2

theorem Steps.append {net : BooleanNetwork} :
    ∀ {t1 t2 t3 : TopologicalOrder} {xs ys : List Nat},
      Steps net t1 xs t2 → Steps net t2 ys t3 → Steps net t1 (xs ++ ys) t3 := by
  intro t1 t2 t3 xs ys h1 h2
  induction h1 with
  | nil _ => exact h2
  | cons h hs ih => exact Steps.cons h (ih h2)

/-- A completed run (`run … = some seq`) is a `Steps` to a state with an
empty worklist. -/
theorem run_steps {net : BooleanNetwork} :
    ∀ {fuel : Nat} {t : TopologicalOrder} {seq : List Nat},
      TopologicalOrder.run net fuel t = some seq →
      ∃ t', Steps net t seq t' ∧ t'.s = [] := by
  intro fuel
  induction fuel with
  | zero => intro t seq h; exact absurd h (by simp [TopologicalOrder.run])
  | succ n ih =>
    intro t seq h
    rw [TopologicalOrder.run] at h
    split at h
    · rename_i hnone
      cases h
      refine ⟨t, Steps.nil t, ?_⟩
      rcases hts : t.s with _ | ⟨m, rest⟩
      · rfl
      · rw [TopologicalOrder.next, hts] at hnone
        exact absurd hnone (by simp)
    · rename_i x t' hnext
      split at h
      · exact Option.noConfusion h
      · rename_i l hrun
        cases h
        obtain ⟨t'', hsteps, hempty⟩ := ih hrun
        exact ⟨t'', Steps.cons hnext hsteps, hempty⟩

/-- Conversely, the suffix of a run after consuming a prefix of steps. -/
theorem run_of_steps_prefix {net : BooleanNetwork} :
    ∀ {t t1 : TopologicalOrder} {pre : List Nat},
      Steps net t pre t1 →
      ∀ {fuel : Nat} {seq : List Nat},
        TopologicalOrder.run net fuel t = some seq →
        ∃ fuel1 post, seq = pre ++ post ∧
          TopologicalOrder.run net fuel1 t1 = some post := by
  intro t t1 pre hsteps
  induction hsteps with
  | nil t => intro fuel seq h; exact ⟨fuel, seq, rfl, h⟩
  | cons hnext hs ih =>
    rename_i t t2 t3 x xs
    intro fuel seq h
    match fuel with
    | 0 => exact absurd h (by simp [TopologicalOrder.run])
    | n + 1 =>
      rw [TopologicalOrder.run, hnext] at h
      dsimp only [] at h
      rcases hrun : TopologicalOrder.run net n t2 with _ | l
      · rw [hrun] at h
        exact Option.noConfusion h
      · rw [hrun] at h
        cases h
        obtain ⟨fuel1, post, rfl, hrun1⟩ := ih hrun
        exact ⟨fuel1, post, rfl, hrun1⟩

/-- Inversion of a successful `next`. -/
theorem TopologicalOrder.next_some {net : BooleanNetwork}
    {t t' : TopologicalOrder} {m : Nat} (h : t.next net = (some m, t')) :
    ∃ rest, t.s = m :: rest ∧ t'.visited = t.visited ++ [m] ∧
      t'.s = (net.descendents m).foldl
        (fun acc d =>
          if ((net.ancestors d).filter
              (fun ni => !((t.visited ++ [m]).contains ni))).length == 0 then
            d :: acc
          else acc) rest := by
  rcases hts : t.s with _ | ⟨n, rest⟩
  · rw [TopologicalOrder.next, hts] at h
    exact absurd h (by simp)
  · rw [TopologicalOrder.next, hts] at h
    simp only [Prod.mk.injEq, Option.some.injEq] at h
    obtain ⟨rfl, rfl⟩ := h
    exact ⟨rest, rfl, rfl, rfl⟩

/-- The push condition of `next`: the filter of unvisited ancestors is empty
iff every ancestor is visited. -/
theorem pushCond_iff (l vis : List Nat) :
    ((l.filter (fun ni => !(vis.contains ni))).length == 0) = true ↔
      ∀ a ∈ l, a ∈ vis := by
  rw [beq_iff_eq, List.length_eq_zero, List.filter_eq_nil]
  constructor
  · intro h a ha
    have := h a ha
    simp only [Bool.not_eq_true', Bool.not_eq_false] at this
    exact List.elem_iff.1 this
  · intro h a ha
    simp only [Bool.not_eq_true', Bool.not_eq_false]
    exact List.elem_iff.2 (h a ha)

/-- Case analysis for membership in the push fold of `next`. -/
theorem mem_foldl_cases {α : Type} (p : α → Bool) :
    ∀ (xs : List α) (l : List α) (x : α),
      x ∈ xs.foldl (fun acc d => if p d then d :: acc else acc) l →
      x ∈ l ∨ (x ∈ xs ∧ p x = true) := by
  intro xs
  induction xs with
  | nil => intro l x h; exact Or.inl h
  | cons y ys ih =>
    intro l x h
    simp only [List.foldl] at h
    by_cases hy : p y
    · rw [if_pos hy] at h
      rcases ih _ x h with h' | h'
      · rcases List.mem_cons.1 h' with h'' | h''
        · subst h''
          exact Or.inr ⟨List.mem_cons_self _ _, hy⟩
        · exact Or.inl h''
      · exact Or.inr ⟨List.mem_cons_of_mem _ h'.1, h'.2⟩
    · rw [if_neg hy] at h
      rcases ih _ x h with h' | h'
      · exact Or.inl h'
      · exact Or.inr ⟨List.mem_cons_of_mem _ h'.1, h'.2⟩

/-- An eligible member of the descendent list is pushed by the fold. -/
theorem mem_foldl_of_pushed {α : Type} [DecidableEq α] (p : α → Bool) :
    ∀ (xs : List α) (l : List α) (x : α), x ∈ xs → p x = true →
      x ∈ xs.foldl (fun acc d => if p d then d :: acc else acc) l := by
  intro xs
  induction xs with
  | nil => intro l x h; exact absurd h (List.not_mem_nil _)
  | cons y ys ih =>
    intro l x h hp
    simp only [List.foldl]
    rcases List.mem_cons.1 h with h' | h'
    · subst h'
      rw [if_pos hp]
      exact mem_foldl_cons _ _ _ (List.mem_cons_self _ _) _
    · by_cases hy : p y
      · rw [if_pos hy]; exact ih _ _ h' hp
      · rw [if_neg hy]; exact ih _ _ h' hp

/-- The standing invariant of the topological iterator:
all worklist members are in range, every worklist member has all ancestors
visited, the visited set is ancestor-closed, and any node whose (nonempty)
ancestors are all visited is in the worklist or already visited. -/
def TopoInv (net : BooleanNetwork) (t : TopologicalOrder) : Prop :=
  (∀ x ∈ t.s, x < net.node_count) ∧
  (∀ x ∈ t.s, ∀ a ∈ net.ancestors x, a ∈ t.visited) ∧
  (∀ x ∈ t.visited, ∀ a ∈ net.ancestors x, a ∈ t.visited) ∧
  (∀ v, net.ancestors v ≠ [] → (∀ a ∈ net.ancestors v, a ∈ t.visited) →
    v ∈ t.s ∨ v ∈ t.visited)

theorem topoInv_new (net : BooleanNetwork) :
    TopoInv net (TopologicalOrder.new net) := by
  refine ⟨fun x hx => ?_, fun x hx a ha => ?_, fun x hx => absurd hx (List.not_mem_nil _),
    fun v hne hall => ?_⟩
  · rw [TopologicalOrder.new] at hx
    simp only [List.mem_reverse, List.mem_filter, List.mem_range] at hx
    exact hx.1
  · rw [TopologicalOrder.new] at hx
    simp only [List.mem_reverse, List.mem_filter, List.mem_range] at hx
    have : (net.ancestors x).length = 0 := by simpa using hx.2
    rw [List.length_eq_zero] at this
    rw [this] at ha
    exact absurd ha (List.not_mem_nil _)
  · rcases hne' : net.ancestors v with _ | ⟨a, l⟩
    · exact absurd hne' hne
    · have : a ∈ net.ancestors v := by rw [hne']; exact List.mem_cons_self _ _
      exact absurd (hall a this) (List.not_mem_nil _)

/-- `TopoInv` is preserved by one step of the iterator. -/
theorem topoInv_next {net : BooleanNetwork} {t t' : TopologicalOrder} {m : Nat}
    (hwf : WFNet net) (hinv : TopoInv net t) (h : t.next net = (some m, t')) :
    TopoInv net t' := by
  obtain ⟨rest, hts, hvis, hs⟩ := TopologicalOrder.next_some h
  have hmem_m : m ∈ t.s := by rw [hts]; exact List.mem_cons_self _ _
  refine ⟨fun x hx => ?_, fun x hx a ha => ?_, fun x hx a ha => ?_, fun v hne hall => ?_⟩
  · rw [hs] at hx
    rcases mem_foldl_cases _ _ _ _ hx with h' | h'
    · exact hinv.1 x (by rw [hts]; exact List.mem_cons_of_mem _ h')
    · exact hwf.2.2.2.1 m x h'.1
  · rw [hs] at hx
    rw [hvis]
    rcases mem_foldl_cases _ _ _ _ hx with h' | h'
    · exact List.mem_append_left _ (hinv.2.1 x
        (by rw [hts]; exact List.mem_cons_of_mem _ h') a ha)
    · exact (pushCond_iff _ _).1 h'.2 a ha
  · rw [hvis] at hx ⊢
    rcases List.mem_append.1 hx with h' | h'
    · exact List.mem_append_left _ (hinv.2.2.1 x h' a ha)
    · have : x = m := by
        rcases List.mem_singleton.1 h' with rfl
        rfl
      subst this
      exact List.mem_append_left _ (hinv.2.1 x hmem_m a ha)
  · rw [hvis] at hall
    by_cases hm : ∀ a ∈ net.ancestors v, a ∈ t.visited
    · rcases hinv.2.2.2 v hne hm with h' | h'
      · rw [hts] at h'
        rcases List.mem_cons.1 h' with h'' | h''
        · subst h''
          refine Or.inr ?_
          rw [hvis]
          simp
        · refine Or.inl ?_
          rw [hs]
          exact mem_foldl_cons _ _ _ h'' _
      · refine Or.inr ?_
        rw [hvis]
        exact List.mem_append_left _ h' 
    · push_neg at hm
      obtain ⟨a, ha, hnv⟩ := hm
      have ham : a = m := by
        rcases List.mem_append.1 (hall a ha) with h' | h'
        · exact absurd h' hnv
        · exact List.mem_singleton.1 h'
      subst ham
      refine Or.inl ?_
      rw [hs]
      exact mem_foldl_of_pushed _ _ _ _
        (mem_descendents_of_mem_ancestors hwf ha)
        ((pushCond_iff _ _).2 hall)

/-- `TopoInv` is preserved along any sequence of steps, and the visited list
grows by exactly the yielded nodes. -/
theorem topoInv_steps {net : BooleanNetwork} (hwf : WFNet net) :
    ∀ {t t' : TopologicalOrder} {xs : List Nat}, Steps net t xs t' →
      TopoInv net t → TopoInv net t' ∧ t'.visited = t.visited ++ xs := by
  intro t t' xs hsteps
  induction hsteps with
  | nil t => intro h; exact ⟨h, by simp⟩
  | cons hnext hs ih =>
    intro h
    obtain ⟨rest, hts, hvis, _⟩ := TopologicalOrder.next_some hnext
    obtain ⟨hinv', hvis'⟩ := ih (topoInv_next hwf h hnext)
    refine ⟨hinv', ?_⟩
    rw [hvis', hvis]
    simp

/-- A `none` yield means the worklist was empty. -/
theorem TopologicalOrder.next_none {net : BooleanNetwork}
    {t t' : TopologicalOrder} (h : t.next net = (none, t')) : t.s = [] := by
  rcases hts : t.s with _ | ⟨n, rest⟩
  · rfl
  · rw [TopologicalOrder.next, hts] at h
    exact absurd h (by simp)

/-- Every node in the worklist of `t` is yielded by a completed run from
`t`. -/
theorem mem_run_of_mem_s {net : BooleanNetwork} :
    ∀ {fuel : Nat} {t : TopologicalOrder} {seq : List Nat},
      TopologicalOrder.run net fuel t = some seq → ∀ x ∈ t.s, x ∈ seq := by
  intro fuel
  induction fuel with
  | zero => intro t seq h; exact absurd h (by simp [TopologicalOrder.run])
  | succ n ih =>
    intro t seq h x hx
    rw [TopologicalOrder.run] at h
    split at h
    · rename_i hnone
      rw [TopologicalOrder.next_none hnone] at hx
      exact absurd hx (List.not_mem_nil _)
    · rename_i m t1 hnext
      obtain ⟨rest, hts, _, hs⟩ := TopologicalOrder.next_some hnext
      split at h
      · exact Option.noConfusion h
      · rename_i seq1 hrun
        cases h
        rw [hts] at hx
        rcases List.mem_cons.1 hx with rfl | hx'
        · exact List.mem_cons_self _ _
        · refine List.mem_cons_of_mem _ (ih hrun x ?_)
          rw [hs]
          exact mem_foldl_cons _ _ _ hx' _

/-- An ancestor-free node in range sits in the initial worklist. -/
theorem root_mem_new_s {net : BooleanNetwork} {v : Nat}
    (hv : v < net.node_count) (hanc : net.ancestors v = []) :
    v ∈ (TopologicalOrder.new net).s := by
  rw [TopologicalOrder.new]
  simp only [List.mem_reverse, List.mem_filter, List.mem_range]
  exact ⟨hv, by rw [hanc]; rfl⟩

/-- In an acyclic well-formed network, a completed run of the topological
iterator from the initial state yields every node at least once. -/
theorem every_node_yielded {net : BooleanNetwork} (hwf : WFNet net)
    (hacy : Acyclic net) {fuel : Nat} {seq : List Nat}
    (hrun : topoSeq net fuel = some seq) :
    ∀ v, v < net.node_count → v ∈ seq := by
  obtain ⟨rank, hrank⟩ := hacy
  obtain ⟨tend, hsteps, hempty⟩ := run_steps hrun
  obtain ⟨hinvend, hvisend⟩ := topoInv_steps hwf hsteps (topoInv_new net)
  have hvis : tend.visited = seq := by
    rw [hvisend]
    rfl
  suffices h : ∀ r v, rank v < r → v < net.node_count → v ∈ seq by
    intro v hv
    exact h (rank v + 1) v (Nat.lt_succ_self _) hv
  intro r
  induction r with
  | zero => intro v hr; exact absurd hr (Nat.not_lt_zero _)
  | succ n ih =>
    intro v hr hv
    rcases hanc : net.ancestors v with _ | ⟨a, l⟩
    · exact mem_run_of_mem_s hrun v (root_mem_new_s hv hanc)
    · have hall : ∀ b ∈ net.ancestors v, b ∈ seq := by
        intro b hb
        have hrb : rank b < rank v := hrank v b hb
        exact ih b (Nat.lt_of_lt_of_le hrb (Nat.lt_succ_iff.1 hr))
          (hwf.2.2.1 v b hb)
      have hne : net.ancestors v ≠ [] := by rw [hanc]; exact List.cons_ne_nil _ _
      rcases hinvend.2.2.2 v hne (by rw [hvis]; exact hall) with h' | h'
      · rw [hempty] at h'
        exact absurd h' (List.not_mem_nil _)
      · rw [hvis] at h'
        exact h'

/-- If an ancestor `a` of `m` is yielded by the remaining run and all of
`m`'s ancestors are already visited, then `m` is yielded by the remaining
run as well: popping `a` re-pushes `m`. -/
theorem mem_run_of_ancestor_mem {net : BooleanNetwork} (hwf : WFNet net) :
    ∀ {fuel : Nat} {t : TopologicalOrder} {seq : List Nat} {m a : Nat},
      TopologicalOrder.run net fuel t = some seq →
      (∀ b ∈ net.ancestors m, b ∈ t.visited) →
      a ∈ net.ancestors m → a ∈ seq → m ∈ seq := by
  intro fuel
  induction fuel with
  | zero => intro t seq m a h; exact absurd h (by simp [TopologicalOrder.run])
  | succ n ih =>
    intro t seq m a h hvis ha hmem
    rw [TopologicalOrder.run] at h
    split at h
    · cases h
      exact absurd hmem (List.not_mem_nil _)
    · rename_i x t1 hnext
      obtain ⟨rest, hts, hvis1, hs1⟩ := TopologicalOrder.next_some hnext
      split at h
      · exact Option.noConfusion h
      · rename_i seq1 hrun
        cases h
        have hvismono : ∀ b ∈ net.ancestors m, b ∈ t1.visited := by
          intro b hb
          rw [hvis1]
          exact List.mem_append_left _ (hvis b hb)
        rcases List.mem_cons.1 hmem with rfl | hmem'
        · have hpush : m ∈ t1.s := by
            rw [hs1]
            refine mem_foldl_of_pushed _ _ _ _
              (mem_descendents_of_mem_ancestors hwf ha) ?_
            refine (pushCond_iff _ _).2 ?_
            intro b hb
            rw [← hvis1]
            exact hvismono b hb
          exact List.mem_cons_of_mem _ (mem_run_of_mem_s hrun m hpush)
        · exact List.mem_cons_of_mem _ (ih hrun hvismono ha hmem')

/-- Transport of well-formedness along the engine's footprint. -/
theorem WFNet.of_nv {a b : BooleanNetwork} (hwf : WFNet a)
    (h : NVPreserved a b) : WFNet b := by
  have hcnt : b.node_count = a.node_count := by
    unfold BooleanNetwork.node_count
    rw [h.2.1]
  refine ⟨?_, ?_, ?_, ?_, ?_⟩
  · rw [h.1, hcnt]; exact hwf.1
  · rw [h.2.2.2.1, hcnt]; exact hwf.2.1
  · intro v x hx
    rw [ancestors_eq_of_nodes_eq h.1] at hx
    rw [hcnt]
    exact hwf.2.2.1 v x hx
  · intro v d hd
    rw [descendents_eq_of_nodes_eq h.1] at hd
    rw [hcnt]
    exact hwf.2.2.2.1 v d hd
  · intro x v
    rw [ancestors_eq_of_nodes_eq h.1, descendents_eq_of_nodes_eq h.1]
    exact hwf.2.2.2.2 x v

/-- Any single node-value update keeps the network well-formed. -/
theorem WFNet.set_node_value {a : BooleanNetwork} (hwf : WFNet a) (i : Nat)
    (f : NodeValue → NodeValue) : WFNet (a.set_node_value i f) := by
  refine ⟨hwf.1, ?_, hwf.2.2.1, hwf.2.2.2.1, hwf.2.2.2.2⟩
  unfold BooleanNetwork.set_node_value
  rw [List.length_set]
  exact hwf.2.1

/-- `Acyclic` only depends on the adjacency structure. -/
theorem Acyclic.of_nodes_eq {a b : BooleanNetwork} (h : b.nodes = a.nodes)
    (hacy : Acyclic a) : Acyclic b := by
  obtain ⟨rank, hrank⟩ := hacy
  exact ⟨rank, fun v x hx => hrank v x (by rw [← ancestors_eq_of_nodes_eq h]; exact hx)⟩

/-- `TopoInv` only depends on the adjacency structure. -/
theorem TopoInv.of_nodes_eq_topo {a b : BooleanNetwork} (hn : b.nodes = a.nodes)
    (hm : b.max_node_index = a.max_node_index) {t : TopologicalOrder}
    (h : TopoInv a t) : TopoInv b t := by
  have hcnt : b.node_count = a.node_count := by
    unfold BooleanNetwork.node_count
    rw [hm]
  refine ⟨fun x hx => ?_, fun x hx x2 hx2 => ?_, fun x hx x2 hx2 => ?_,
    fun v hne hall => ?_⟩
  · rw [hcnt]; exact h.1 x hx
  · rw [ancestors_eq_of_nodes_eq hn] at hx2
    exact h.2.1 x hx x2 hx2
  · rw [ancestors_eq_of_nodes_eq hn] at hx2
    exact h.2.2.1 x hx x2 hx2
  · rw [ancestors_eq_of_nodes_eq hn] at hne hall
    exact h.2.2.2 v hne hall

/-- The pure topological run only depends on the adjacency structure. -/
theorem run_congr {net1 net2 : BooleanNetwork} (h : net2.nodes = net1.nodes) :
    ∀ (fuel : Nat) (t : TopologicalOrder),
      TopologicalOrder.run net2 fuel t = TopologicalOrder.run net1 fuel t := by
  intro fuel
  induction fuel with
  | zero => intro t; rfl
  | succ n ih =>
    intro t
    rw [TopologicalOrder.run, TopologicalOrder.run,
      TopologicalOrder.next_congr t h]
    rcases t.next net1 with ⟨_ | x, t'⟩
    · rfl
    · dsimp only []
      rw [ih t']

/-- Specification of `ancLabels`: on success it returns exactly the labels
of the ancestors, which are all present. -/
theorem ancLabels_ok {net : BooleanNetwork} :
    ∀ {l : List Nat} {ls : List Nat}, ancLabels net l = .ok ls →
      List.Forall₂ (fun a x => (net.node_value a).label = some x) l ls := by
  intro l
  induction l with
  | nil =>
    intro ls h
    rw [ancLabels] at h
    cases h
    exact List.Forall₂.nil
  | cons a rest ih =>
    intro ls h
    rw [ancLabels] at h
    split at h
    · exact Res.noConfusion h
    · rename_i x hx
      split at h
      · rename_i ls1 hrest
        cases h
        exact List.Forall₂.cons hx (ih hrest)
      · exact Res.noConfusion h
      · exact Res.noConfusion h

/-- The fold of `max` over a list is the seed or a member. -/
theorem foldl_max_mem : ∀ (l : List Nat) (init : Nat),
    l.foldl max init = init ∨ l.foldl max init ∈ l := by
  intro l
  induction l with
  | nil => intro init; exact Or.inl rfl
  | cons x xs ih =>
    intro init
    simp only [List.foldl]
    rcases ih (max init x) with h | h
    · rw [h]
      rcases Nat.le_total init x with h' | h'
      · rw [Nat.max_eq_right h']
        exact Or.inr (List.mem_cons_self _ _)
      · rw [Nat.max_eq_left h']
        exact Or.inl rfl
    · exact Or.inr (List.mem_cons_of_mem _ h)

/-- The seed is below the fold of `max`. -/
theorem init_le_foldl_max : ∀ (l : List Nat) (init : Nat),
    init ≤ l.foldl max init := by
  intro l
  induction l with
  | nil => intro init; exact Nat.le_refl _
  | cons x xs ih =>
    intro init
    exact Nat.le_trans (Nat.le_max_left init x) (ih (max init x))

/-- Every member is below the fold of `max`. -/
theorem mem_le_foldl_max : ∀ (l : List Nat) (init x : Nat), x ∈ l →
    x ≤ l.foldl max init := by
  intro l
  induction l with
  | nil => intro init x h; exact absurd h (List.not_mem_nil _)
  | cons y ys ih =>
    intro init x h
    rcases List.mem_cons.1 h with rfl | h'
    · exact Nat.le_trans (Nat.le_max_right init x) (init_le_foldl_max ys _)
    · exact ih _ x h'

/-- Inversion of a successful `label_node`: the ancestors were all labelled
with maximum `p`, and the returned label is `p` or `p + 1`, in particular at
least 1. -/
theorem label_node_ok_inv {net : BooleanNetwork} {node k : Nat}
    {net' : BooleanNetwork} {lbl : Nat} {xb : List Nat}
    (h : label_node net node k = .ok (net', lbl, xb)) :
    ∃ l ls, ancLabels net (net.ancestors node) = .ok (l :: ls) ∧
      1 ≤ lbl ∧ (lbl = (l :: ls).foldl max 0 ∨ lbl = (l :: ls).foldl max 0 + 1) := by
  have hfold : ∀ (l : Nat) (ls : List Nat), (l :: ls).foldl max 0 = ls.foldl max l := by
    intro l ls
    simp only [List.foldl]
    rw [Nat.max_eq_right (Nat.zero_le l)]
  rw [label_node] at h
  split at h
  · exact Res.noConfusion h
  · exact Res.noConfusion h
  · exact Res.noConfusion h
  · rename_i l ls hanc
    dsimp only [] at h
    split at h
    · rename_i hp
      cases h
      refine ⟨l, ls, hanc, ?_, ?_⟩
      · exact Nat.succ_le_succ (Nat.zero_le _)
      · right
        rw [hfold]
    · rename_i hp
      have hp1 : 1 ≤ ls.foldl max l := by
        rcases Nat.eq_zero_or_pos (ls.foldl max l) with h0 | h0
        · exact absurd (show (ls.foldl max l == 0) = true by rw [h0]; rfl) hp
        · exact h0
      split at h
      · exact Res.noConfusion h
      · exact Res.noConfusion h
      · rename_i net1 source1 sink1 visited1 hbfs
        split at h
        · exact Res.noConfusion h
        · exact Res.noConfusion h
        · rename_i net2 fl2 mf hrun
          split at h
          · split at h
            · exact Res.noConfusion h
            · exact Res.noConfusion h
            · rename_i xbb hcut
              cases h
              exact ⟨l, ls, hanc, hp1, Or.inl (hfold l ls).symm⟩
          · cases h
            refine ⟨l, ls, hanc, Nat.le_trans hp1 (Nat.le_succ _), ?_⟩
            right
            rw [hfold]

theorem forall2_mem_right {α β : Type} {R : α → β → Prop} :
    ∀ {l1 : List α} {l2 : List β}, List.Forall₂ R l1 l2 →
      ∀ x ∈ l2, ∃ a ∈ l1, R a x := by
  intro l1 l2 h
  induction h with
  | nil => intro x hx; exact absurd hx (List.not_mem_nil _)
  | cons hR hrest ih =>
    intro x hx
    rcases List.mem_cons.1 hx with rfl | hx'
    · exact ⟨_, List.mem_cons_self _ _, hR⟩
    · obtain ⟨a, ha, haR⟩ := ih x hx'
      exact ⟨a, List.mem_cons_of_mem _ ha, haR⟩

theorem forall2_mem_left {α β : Type} {R : α → β → Prop} :
    ∀ {l1 : List α} {l2 : List β}, List.Forall₂ R l1 l2 →
      ∀ a ∈ l1, ∃ x ∈ l2, R a x := by
  intro l1 l2 h
  induction h with
  | nil => intro a ha; exact absurd ha (List.not_mem_nil _)
  | cons hR hrest ih =>
    intro a ha
    rcases List.mem_cons.1 ha with rfl | ha'
    · exact ⟨_, List.mem_cons_self _ _, hR⟩
    · obtain ⟨x, hx, hxR⟩ := ih a ha'
      exact ⟨x, List.mem_cons_of_mem _ hx, hxR⟩

/-- In-range read-back of a node-value update. -/
theorem node_value_set_self_of_lt (net : BooleanNetwork) (i : Nat)
    (f : NodeValue → NodeValue) (h : i < net.node_values.length) :
    (net.set_node_value i f).node_value i = f (net.node_value i) :=
  getD_set_self _ _ _ _ h

/-- The induction behind claim C2: a completed labelling run leaves
unyielded nodes' labels alone, gives every yielded non-PI node a label
`l ∈ [1, p+1]` for `p` the final label of one of its ancestors, and leaves
every ancestor labelled. -/
theorem c2_loop :
    ∀ (fuel k : Nat) (net : BooleanNetwork) (t : TopologicalOrder)
      (net' : BooleanNetwork) (seq : List Nat),
      labelLoop k fuel net t = .ok net' →
      TopologicalOrder.run net fuel t = some seq →
      WFNet net → Acyclic net → TopoInv net t →
      (∀ v, ¬v ∈ seq →
        (net'.node_value v).label = (net.node_value v).label ∧
        (net'.node_value v).x_bar = (net.node_value v).x_bar) ∧
      (∀ v, v ∈ seq → (net.node_value v).is_pi = false →
        ∃ l, (net'.node_value v).label = some l ∧ 1 ≤ l ∧
          (∀ a ∈ net.ancestors v, ∃ la, (net'.node_value a).label = some la) ∧
          ∃ a p, a ∈ net.ancestors v ∧ (net'.node_value a).label = some p ∧
            l ≤ p + 1) := by
  intro fuel
  induction fuel with
  | zero => intro k net t net' seq hloop; exact absurd hloop (by simp [labelLoop])
  | succ n ih =>
    intro k net t net' seq hloop hrun hwf hacy hinv
    rw [labelLoop] at hloop
    rw [TopologicalOrder.run] at hrun
    rcases hnext : t.next net with ⟨op, t1⟩
    rw [hnext] at hloop hrun
    rcases op with _ | m
    · cases hloop
      cases hrun
      exact ⟨fun v _ => ⟨rfl, rfl⟩, fun v hv => absurd hv (List.not_mem_nil _)⟩
    · dsimp only [] at hloop hrun
      rcases hrun2 : TopologicalOrder.run net n t1 with _ | seq1 <;> rw [hrun2] at hrun
      · exact Option.noConfusion hrun
      · cases hrun
        obtain ⟨rest, hts, hvis1, _⟩ := TopologicalOrder.next_some hnext
        have hmS : m ∈ t.s := by rw [hts]; exact List.mem_cons_self _ _
        have hinv1 : TopoInv net t1 := topoInv_next hwf hinv hnext
        split at hloop
        · rename_i hpim
          obtain ⟨frameI, boundsI⟩ :=
            ih k net t1 net' seq1 hloop hrun2 hwf hacy hinv1
          refine ⟨fun v hv => ?_, fun v hv hpi => ?_⟩
          · exact frameI v (fun h' => hv (List.mem_cons_of_mem _ h'))
          · by_cases hv1 : v ∈ seq1
            · exact boundsI v hv1 hpi
            · rcases List.mem_cons.1 hv with rfl | h'
              · rw [hpim] at hpi
                exact Bool.noConfusion hpi
              · exact absurd h' hv1
        · rename_i hpim
          split at hloop
          · exact Res.noConfusion hloop
          · exact Res.noConfusion hloop
          · rename_i net1 lbl xb hln
            have hnv : NVPreserved net net1 :=
              NVPreserved.of_label_node _ _ _ _ _ _ hln
            have hmN : m < net.node_count := hinv.1 m hmS
            have hmlen1 : m < net1.node_values.length := by
              rw [hnv.2.2.2.1, hwf.2.1]
              exact hmN
            set netA := net1.set_node_value m
              (fun nv => { nv with label := some lbl }) with hnetA
            set netB := netA.set_node_value m
              (fun nv => { nv with x_bar := xb }) with hnetB
            have hmlenA : m < netA.node_values.length := by
              rw [hnetA]
              unfold BooleanNetwork.set_node_value
              simpa [List.length_set] using hmlen1
            have hvA : netA.node_value m =
                { net1.node_value m with label := some lbl } :=
              node_value_set_self_of_lt net1 m _ hmlen1
            have hvB : netB.node_value m =
                { netA.node_value m with x_bar := xb } :=
              node_value_set_self_of_lt netA m _ hmlenA
            have hlabelB : (netB.node_value m).label = some lbl := by
              rw [hvB, hvA]
            have hnodesB : netB.nodes = net.nodes := hnv.1
            have hmaxB : netB.max_node_index = net.max_node_index := hnv.2.1
            have hwfB : WFNet netB :=
              ((WFNet.of_nv hwf hnv).set_node_value m _).set_node_value m _
            have hacyB : Acyclic netB := Acyclic.of_nodes_eq hnodesB hacy
            have hinvB : TopoInv netB t1 := TopoInv.of_nodes_eq_topo hnodesB hmaxB hinv1
            have hrunB : TopologicalOrder.run netB n t1 = some seq1 := by
              rw [run_congr hnodesB]
              exact hrun2
            obtain ⟨frameI, boundsI⟩ :=
              ih k netB t1 net' seq1 hloop hrunB hwfB hacyB hinvB
            have hBnv : ∀ v, v ≠ m → netB.node_value v = net1.node_value v := by
              intro v hvm
              rw [hnetB, hnetA,
                BooleanNetwork.node_value_set_node_value_ne _ _ _ _ hvm,
                BooleanNetwork.node_value_set_node_value_ne _ _ _ _ hvm]
            have hBpi : ∀ v, (netB.node_value v).is_pi = (net.node_value v).is_pi := by
              intro v
              by_cases hvm : v = m
              · subst hvm
                rw [hvB, hvA]
                exact (hnv.2.2.1 v).2.2.2.1
              · rw [hBnv v hvm]
                exact (hnv.2.2.1 v).2.2.2.1
            have hBanc : ∀ v, netB.ancestors v = net.ancestors v :=
              ancestors_eq_of_nodes_eq hnodesB
            refine ⟨fun v hv => ?_, fun v hv hpi => ?_⟩
            · have hvm : v ≠ m := fun h' => hv (h' ▸ List.mem_cons_self _ _)
              have hv1 : ¬v ∈ seq1 := fun h' => hv (List.mem_cons_of_mem _ h')
              have hfr := frameI v hv1
              rw [hBnv v hvm] at hfr
              exact ⟨hfr.1.trans (hnv.2.2.1 v).2.1,
                hfr.2.trans (hnv.2.2.1 v).2.2.1⟩
            · by_cases hv1 : v ∈ seq1
              · obtain ⟨l, hl, h1l, hall, a, p, hap⟩ := boundsI v hv1
                  (by rw [hBpi v]; exact hpi)
                rw [hBanc v] at hall
                refine ⟨l, hl, h1l, hall, a, p, ?_⟩
                rw [hBanc v] at hap
                exact hap
              · rcases List.mem_cons.1 hv with rfl | h'
                · obtain ⟨l0, ls0, hanc0, h1lbl, hor⟩ := label_node_ok_inv hln
                  have hF2 := ancLabels_ok hanc0
                  have hlbl_le : lbl ≤ (l0 :: ls0).foldl max 0 + 1 := by
                    rcases hor with h | h
                    · rw [h]; exact Nat.le_succ _
                    · rw [h]
                  have hpmem : (l0 :: ls0).foldl max 0 ∈ (l0 :: ls0) := by
                    rcases foldl_max_mem (l0 :: ls0) 0 with h | h
                    · have hl0 : l0 ≤ (l0 :: ls0).foldl max 0 :=
                        mem_le_foldl_max _ _ _ (List.mem_cons_self _ _)
                      rw [h] at hl0 ⊢
                      have : l0 = 0 := Nat.le_zero.1 hl0
                      rw [← this]
                      exact List.mem_cons_self _ _
                    · exact h
                  obtain ⟨astar, hastar, hastar_lab⟩ :=
                    forall2_mem_right hF2 _ hpmem
                  have hvisanc : ∀ b ∈ net.ancestors v, b ∈ t1.visited := by
                    intro b hb
                    rw [hvis1]
                    exact List.mem_append_left _ (hinv.2.1 v hmS b hb)
                  have hnotseq1 : ∀ b ∈ net.ancestors v, ¬b ∈ seq1 := by
                    intro b hb hbs
                    exact hv1 (mem_run_of_ancestor_mem hwf hrun2 hvisanc hb hbs)
                  obtain ⟨rank, hrank⟩ := hacy
                  have hnotm : ∀ b ∈ net.ancestors v, b ≠ v := by
                    intro b hb he
                    subst he
                    exact Nat.lt_irrefl _ (hrank b b hb)
                  have hfinal : ∀ b ∈ net.ancestors v,
                      (net'.node_value b).label = (net.node_value b).label := by
                    intro b hb
                    have := (frameI b (hnotseq1 b hb)).1
                    rw [hBnv b (hnotm b hb)] at this
                    exact this.trans (hnv.2.2.1 b).2.1
                  have hmlab : (net'.node_value v).label = some lbl := by
                    have := (frameI v hv1).1
                    rw [this, hlabelB]
                  refine ⟨lbl, hmlab, h1lbl, ?_, ?_⟩
                  · intro a ha
                    obtain ⟨la, _, hla⟩ := forall2_mem_left hF2 a ha
                    exact ⟨la, (hfinal a ha).trans hla⟩
                  · exact ⟨astar, _, hastar,
                      (hfinal astar hastar).trans hastar_lab, hlbl_le⟩
                · exact absurd h' hv1

/-- A completed labelling loop means the pure topological run completes with
the same fuel. -/
theorem labelLoop_ok_run :
    ∀ (fuel k : Nat) (net : BooleanNetwork) (t : TopologicalOrder)
      (net' : BooleanNetwork),
      labelLoop k fuel net t = .ok net' →
      ∃ seq, TopologicalOrder.run net fuel t = some seq := by
  intro fuel
  induction fuel with
  | zero => intro k net t net' h; exact absurd h (by simp [labelLoop])
  | succ n ih =>
    intro k net t net' h
    rw [labelLoop] at h
    rw [TopologicalOrder.run]
    rcases hnext : t.next net with ⟨op, t1⟩
    rw [hnext] at h
    rcases op with _ | m
    · exact ⟨[], rfl⟩
    · dsimp only [] at h ⊢
      split at h
      · obtain ⟨seq1, hrun⟩ := ih k net t1 net' h
        rw [hrun]
        exact ⟨m :: seq1, rfl⟩
      · split at h
        · exact Res.noConfusion h
        · exact Res.noConfusion h
        · rename_i net1 lbl xb hln
          have hnodes : ((net1.set_node_value m
              (fun nv => { nv with label := some lbl })).set_node_value m
              (fun nv => { nv with x_bar := xb })).nodes = net.nodes :=
            (NVPreserved.of_label_node _ _ _ _ _ _ hln).1
          obtain ⟨seq1, hrun⟩ := ih k _ t1 net' h
          rw [run_congr hnodes] at hrun
          rw [hrun]
          exact ⟨m :: seq1, rfl⟩

/-- The maximum label over the direct ancestors of `v` (absent labels count
as 0; the C2 theorem separately shows none are absent). -/
def maxAncLabel (net : BooleanNetwork) (v : Nat) : Nat :=
  ((net.ancestors v).map (fun a => (net.node_value a).label.getD 0)).foldl max 0

/-- Build `WFNet` from checks bounded by `node_count` (decidable on a
concrete network). -/
theorem wfNet_of_checks (net : BooleanNetwork)
    (h1 : net.nodes.length = net.node_count)
    (h2 : net.node_values.length = net.node_count)
    (h3 : ∀ v < net.node_count, ∀ a ∈ net.ancestors v, a < net.node_count)
    (h4 : ∀ v < net.node_count, ∀ d ∈ net.descendents v, d < net.node_count)
    (h5 : ∀ a < net.node_count, ∀ v < net.node_count,
      (net.ancestors v).count a = (net.descendents a).count v) :
    WFNet net := by
  have hancnil : ∀ v, ¬v < net.node_count → net.ancestors v = [] := by
    intro v hv
    unfold BooleanNetwork.ancestors
    rw [List.getD_eq_default]
    rw [h1]
    exact Nat.le_of_not_lt hv
  have hdescnil : ∀ v, ¬v < net.node_count → net.descendents v = [] := by
    intro v hv
    unfold BooleanNetwork.descendents
    rw [List.getD_eq_default]
    rw [h1]
    exact Nat.le_of_not_lt hv
  refine ⟨h1, h2, ?_, ?_, ?_⟩
  · intro v a ha
    by_cases hv : v < net.node_count
    · exact h3 v hv a ha
    · rw [hancnil v hv] at ha
      exact absurd ha (List.not_mem_nil _)
  · intro v d hd
    by_cases hv : v < net.node_count
    · exact h4 v hv d hd
    · rw [hdescnil v hv] at hd
      exact absurd hd (List.not_mem_nil _)
  · intro a v
    by_cases hv : v < net.node_count
    · by_cases ha : a < net.node_count
      · exact h5 a ha v hv
      · rw [List.count_eq_zero_of_not_mem
            (fun hmem => ha (h3 v hv a hmem)),
          hdescnil a ha]
        rfl
    · rw [hancnil v hv]
      by_cases ha : a < net.node_count
      · rw [List.count_eq_zero_of_not_mem
            (fun hmem => hv (h4 a ha v hmem))]
        rfl
      · rw [hdescnil a ha]
        rfl

/-- Build `Acyclic` from a rank table checked below `node_count`
(decidable on a concrete network). -/
theorem acyclic_of_rank_list (net : BooleanNetwork) (rk : List Nat)
    (hlen : net.nodes.length = net.node_count)
    (h : ∀ v < net.node_count, ∀ a ∈ net.ancestors v,
      rk.getD a 0 < rk.getD v 0) :
    Acyclic net := by
  refine ⟨fun i => rk.getD i 0, fun v a ha => ?_⟩
  by_cases hv : v < net.node_count
  · exact h v hv a ha
  · exfalso
    have : net.ancestors v = [] := by
      unfold BooleanNetwork.ancestors
      rw [List.getD_eq_default]
      rw [hlen]
      exact Nat.le_of_not_lt hv
    rw [this] at ha
    exact absurd ha (List.not_mem_nil _)

/-- C2: on an acyclic network whose PIs are labelled 0 and whose
ancestor-free nodes are all PIs, a completed `label_network` run gives every
non-PI node a label `l` with `1 ≤ l ≤ 1 + max(label of its direct
ancestors)`, all of which are labelled. -/
theorem c2_label_bounds (net : BooleanNetwork) (k fuel : Nat)
    (net' : BooleanNetwork) (hwf : WFNet net) (hacy : Acyclic net)
    (hpilab : ∀ v, (net.node_value v).is_pi = true →
      (net.node_value v).label = some 0)
    (hroots : ∀ v, v < net.node_count → net.ancestors v = [] →
      (net.node_value v).is_pi = true)
    (hok : label_network net k fuel = .ok net') :
    ∀ v, v < net.node_count → (net.node_value v).is_pi = false →
      ∃ l, (net'.node_value v).label = some l ∧ 1 ≤ l ∧
        l ≤ 1 + maxAncLabel net' v ∧
        ∀ a ∈ net'.ancestors v, (net'.node_value a).label ≠ none := by
  intro v hv hpi
  obtain ⟨seq, hrun⟩ := labelLoop_ok_run fuel k net _ net' hok
  obtain ⟨_, bounds⟩ := c2_loop fuel k net _ net' seq hok hrun hwf hacy
    (topoInv_new net)
  have hvseq : v ∈ seq := every_node_yielded hwf hacy hrun v hv
  obtain ⟨l, hl, h1l, hall, a, p, ha, hap, hlp⟩ := bounds v hvseq hpi
  have hanc' : net'.ancestors v = net.ancestors v :=
    ancestors_eq_of_nodes_eq (labelLoop_pi_frame fuel k net _ net' hok).1 v
  refine ⟨l, hl, h1l, ?_, ?_⟩
  · have hple : p ≤ maxAncLabel net' v := by
      have hmem : (net'.node_value a).label.getD 0 ∈
          ((net'.ancestors v).map (fun b => (net'.node_value b).label.getD 0)) := by
        rw [hanc']
        exact List.mem_map.2 ⟨a, ha, rfl⟩
      have := mem_le_foldl_max _ 0 _ hmem
      rw [hap] at this
      exact this
    calc l ≤ p + 1 := hlp
    _ ≤ maxAncLabel net' v + 1 := Nat.succ_le_succ hple
    _ = 1 + maxAncLabel net' v := Nat.add_comm _ _
  · intro b hb
    rw [hanc'] at hb
    obtain ⟨la, hla⟩ := hall b hb
    rw [hla]
    exact Option.noConfusion

/-- An out-of-range node value is the default, so checking a per-node
property below `node_count` suffices. -/
theorem pilab_of_checks (net : BooleanNetwork)
    (h2 : net.node_values.length = net.node_count)
    (h : ∀ v < net.node_count, (net.node_value v).is_pi = true →
      (net.node_value v).label = some 0) :
    ∀ v, (net.node_value v).is_pi = true → (net.node_value v).label = some 0 := by
  intro v hpi
  by_cases hv : v < net.node_count
  · exact h v hv hpi
  · exfalso
    have : net.node_value v = NodeValue.default := by
      unfold BooleanNetwork.node_value
      rw [List.getD_eq_default]
      rw [h2]
      exact Nat.le_of_not_lt hv
    rw [this] at hpi
    exact Bool.noConfusion hpi

/-- Witness for C2 on the C5 network: node 4 is non-PI and gets a label in
the required range. -/
theorem c2_label_bounds_witness :
    ∃ l, ((resNet (label_network c5Net 2 20)).node_value 4).label = some l ∧
      1 ≤ l ∧ l ≤ 1 + maxAncLabel (resNet (label_network c5Net 2 20)) 4 := by
  have hok : label_network c5Net 2 20 = .ok (resNet (label_network c5Net 2 20)) := by
    decide
  have hwf : WFNet c5Net := by
    refine wfNet_of_checks c5Net (by decide) (by decide) ?_ ?_ ?_ <;> decide
  have hacy : Acyclic c5Net :=
    acyclic_of_rank_list c5Net [0, 0, 0, 1, 2] (by decide) (by decide)
  obtain ⟨l, hl, h1l, hle, _⟩ := c2_label_bounds c5Net 2 20 _ hwf hacy
    (pilab_of_checks c5Net (by decide) (by decide)) (by decide) hok 4
    (by decide) (by decide)
  exact ⟨l, hl, h1l, hle⟩

/-! ## §14 Claim C3: the topological iterator -/

/-- Descendent lists are duplicate-free when ancestor lists are. -/
theorem desc_nodup {net : BooleanNetwork} (hwf : WFNet net)
    (hnp : NoParallel net) : ∀ m, (net.descendents m).Nodup := by
  intro m
  rw [List.nodup_iff_count_le_one]
  intro v
  rw [← hwf.2.2.2.2 m v]
  exact List.nodup_iff_count_le_one.1 (hnp v) m

/-- The push fold preserves `Nodup` of worklist-plus-visited when the pushed
elements are fresh. -/
theorem foldl_push_nodup (p : Nat → Bool) :
    ∀ (xs : List Nat) (fixed l : List Nat), (l ++ fixed).Nodup → xs.Nodup →
      (∀ x ∈ xs, p x = true → ¬x ∈ l ++ fixed) →
      ((xs.foldl (fun acc d => if p d then d :: acc else acc) l) ++ fixed).Nodup := by
  intro xs
  induction xs with
  | nil => intro fixed l h _ _; exact h
  | cons y ys ih =>
    intro fixed l h hnd hfresh
    simp only [List.foldl]
    by_cases hy : p y
    · rw [if_pos hy]
      refine ih fixed (y :: l) ?_ (List.Nodup.of_cons hnd) ?_
      · rw [List.cons_append]
        exact List.Nodup.cons (hfresh y (List.mem_cons_self _ _) hy) h
      · intro x hx hpx hmem
        rw [List.cons_append, List.mem_cons] at hmem
        rcases hmem with rfl | hmem
        · exact (List.nodup_cons.1 hnd).1 hx
        · exact hfresh x (List.mem_cons_of_mem _ hx) hpx hmem
    · rw [if_neg hy]
      exact ih fixed l h (List.Nodup.of_cons hnd) fun x hx hpx =>
        hfresh x (List.mem_cons_of_mem _ hx) hpx

/-- Without parallel edges, one iterator step keeps worklist-plus-visited
duplicate-free. -/
theorem topoND_next {net : BooleanNetwork} {t t' : TopologicalOrder} {m : Nat}
    (hwf : WFNet net) (hnp : NoParallel net) (hacy : Acyclic net)
    (hinv : TopoInv net t) (hnd : (t.s ++ t.visited).Nodup)
    (h : t.next net = (some m, t')) : (t'.s ++ t'.visited).Nodup := by
  obtain ⟨rest, hts, hvis, hs⟩ := TopologicalOrder.next_some h
  rw [hts, List.cons_append, List.nodup_cons] at hnd
  have hmnot : ¬m ∈ rest ++ t.visited := hnd.1
  have hmvis : ¬m ∈ t.visited := fun h' => hmnot (List.mem_append_right _ h')
  rw [hs, hvis]
  refine foldl_push_nodup _ (net.descendents m) (t.visited ++ [m]) rest ?_
    (desc_nodup hwf hnp m) ?_
  · rw [← List.append_assoc, List.nodup_append]
    refine ⟨hnd.2, List.nodup_singleton m, ?_⟩
    intro x hx hxm
    rw [List.mem_singleton] at hxm
    subst hxm
    exact hmnot hx
  · intro d hd hp hdmem
    have hmanc : m ∈ net.ancestors d := mem_ancestors_of_mem_descendents hwf hd
    have hmvisited : m ∈ t.visited := by
      rcases List.mem_append.1 hdmem with hdr | hdva
      · exact hinv.2.1 d (by rw [hts]; exact List.mem_cons_of_mem _ hdr) m hmanc
      · rcases List.mem_append.1 hdva with hdv | hdm
        · exact hinv.2.2.1 d hdv m hmanc
        · rw [List.mem_singleton] at hdm
          rw [hdm] at hmanc
          obtain ⟨rank, hrank⟩ := hacy
          exact absurd (hrank m m hmanc) (Nat.lt_irrefl _)
    exact hmvis hmvisited

/-- The no-duplicate invariant along a sequence of steps. -/
theorem topoND_steps {net : BooleanNetwork} (hwf : WFNet net)
    (hnp : NoParallel net) (hacy : Acyclic net) :
    ∀ {t t' : TopologicalOrder} {xs : List Nat}, Steps net t xs t' →
      TopoInv net t → (t.s ++ t.visited).Nodup → (t'.s ++ t'.visited).Nodup := by
  intro t t' xs hsteps
  induction hsteps with
  | nil t => intro _ h; exact h
  | cons hnext hs ih =>
    intro hinv hnd
    exact ih (topoInv_next hwf hinv hnext) (topoND_next hwf hnp hacy hinv hnd hnext)

/-- The order part of C3: at any point of the run, all ancestors of the
`i`-th yielded node were yielded among the previously visited nodes. -/
theorem run_order {net : BooleanNetwork} :
    ∀ {fuel : Nat} {t : TopologicalOrder} {seq : List Nat},
      TopologicalOrder.run net fuel t = some seq → WFNet net → TopoInv net t →
      ∀ (i : Nat) (hi : i < seq.length),
        ∀ a ∈ net.ancestors (seq.get ⟨i, hi⟩), a ∈ t.visited ++ seq.take i := by
  intro fuel
  induction fuel with
  | zero => intro t seq h; exact absurd h (by simp [TopologicalOrder.run])
  | succ n ih =>
    intro t seq h hwf hinv i hi a ha
    rw [TopologicalOrder.run] at h
    split at h
    · cases h
      exact absurd hi (by simp)
    · rename_i m t1 hnext
      split at h
      · exact Option.noConfusion h
      · rename_i seq1 hrun
        cases h
        obtain ⟨rest, hts, hvis1, _⟩ := TopologicalOrder.next_some hnext
        match i with
        | 0 =>
          simp only [List.get] at ha
          have : a ∈ t.visited :=
            hinv.2.1 m (by rw [hts]; exact List.mem_cons_self _ _) a ha
          simp only [List.take]
          exact List.mem_append_left _ this
        | j + 1 =>
          have hj : j < seq1.length := Nat.lt_of_succ_lt_succ hi
          have := ih hrun hwf (topoInv_next hwf hinv hnext) j hj a
            (by simpa using ha)
          rw [hvis1] at this
          simp only [List.take, List.cons_append, List.append_assoc] at this ⊢
          simpa using this

/-- Everything a completed run yields is a valid node index. -/
theorem run_members_lt {net : BooleanNetwork} (hwf : WFNet net) :
    ∀ {fuel : Nat} {t : TopologicalOrder} {seq : List Nat},
      TopologicalOrder.run net fuel t = some seq → TopoInv net t →
      ∀ v ∈ seq, v < net.node_count := by
  intro fuel
  induction fuel with
  | zero => intro t seq h; exact absurd h (by simp [TopologicalOrder.run])
  | succ n ih =>
    intro t seq h hinv v hv
    rw [TopologicalOrder.run] at h
    split at h
    · cases h
      exact absurd hv (List.not_mem_nil _)
    · rename_i m t1 hnext
      split at h
      · exact Option.noConfusion h
      · rename_i seq1 hrun
        cases h
        obtain ⟨rest, hts, _, _⟩ := TopologicalOrder.next_some hnext
        rcases List.mem_cons.1 hv with rfl | hv'
        · exact hinv.1 v (by rw [hts]; exact List.mem_cons_self _ _)
        · exact ih hrun (topoInv_next hwf hinv hnext) v hv'

/-- The initial iterator state has a duplicate-free worklist. -/
theorem new_nodup (net : BooleanNetwork) :
    ((TopologicalOrder.new net).s ++ (TopologicalOrder.new net).visited).Nodup := by
  rw [TopologicalOrder.new]
  simp only [List.append_nil]
  exact List.nodup_reverse.2 (List.Nodup.filter _ (List.nodup_range _))

/-- C3 (amended): on an acyclic well-formed network without parallel edges,
a completed run of the topological iterator yields exactly the nodes of the
network, each exactly once, and never yields a node before all of its direct
ancestors. -/
theorem c3_topological_order (net : BooleanNetwork) (fuel : Nat)
    (seq : List Nat) (hwf : WFNet net) (hacy : Acyclic net)
    (hnp : NoParallel net) (hrun : topoSeq net fuel = some seq) :
    (∀ v, v < net.node_count → seq.count v = 1) ∧
    (∀ v ∈ seq, v < net.node_count) ∧
    (∀ (i : Nat) (hi : i < seq.length),
      ∀ a ∈ net.ancestors (seq.get ⟨i, hi⟩), a ∈ seq.take i) := by
  refine ⟨?_, run_members_lt hwf hrun (topoInv_new net), ?_⟩
  · intro v hv
    obtain ⟨tend, hsteps, hempty⟩ := run_steps hrun
    obtain ⟨hinvend, hvisend⟩ := topoInv_steps hwf hsteps (topoInv_new net)
    have hnd := topoND_steps hwf hnp hacy hsteps (topoInv_new net) (new_nodup net)
    rw [hempty, List.nil_append, hvisend] at hnd
    have hseqnd : seq.Nodup := by simpa using hnd
    have hmem : v ∈ seq := every_node_yielded hwf hacy hrun v hv
    exact Nat.le_antisymm (List.nodup_iff_count_le_one.1 hseqnd v)
      (List.count_pos_iff_mem.2 hmem)
  · intro i hi a ha
    have := run_order hrun hwf (topoInv_new net) i hi a ha
    simpa [TopologicalOrder.new] using this

/-- `NoParallel` from a check bounded by `node_count`. -/
theorem noParallel_of_checks (net : BooleanNetwork)
    (hlen : net.nodes.length = net.node_count)
    (h : ∀ v < net.node_count, (net.ancestors v).Nodup) : NoParallel net := by
  intro v
  by_cases hv : v < net.node_count
  · exact h v hv
  · have : net.ancestors v = [] := by
      unfold BooleanNetwork.ancestors
      rw [List.getD_eq_default]
      rw [hlen]
      exact Nat.le_of_not_lt hv
    rw [this]
    exact List.nodup_nil

/-- The doubled-edge network 0 ⇉ 1 of the C3 counterexample. -/
def c3ParNet : BooleanNetwork := mkNet 1 [(0, 1), (0, 1)] []

/-- C3, counterexample: with a parallel edge the (acyclic, well-formed)
two-node network makes the iterator yield node 1 twice before `None`,
refuting "every node exactly once". -/
theorem c3_parallel_counterexample :
    WFNet c3ParNet ∧ Acyclic c3ParNet ∧
    topoSeq c3ParNet 10 = some [0, 1, 1] ∧ [0, 1, 1].count 1 ≠ 1 :=
  ⟨wfNet_of_checks c3ParNet (by decide) (by decide) (by decide) (by decide)
      (by decide),
    acyclic_of_rank_list c3ParNet [0, 1] (by decide) (by decide),
    by decide, by decide⟩

/-- Witness for C3 on the C5 network (no parallel edges): the completed run
yields each of the five nodes exactly once, in ancestors-first order. -/
theorem c3_topological_order_witness :
    topoSeq c5Net 20 = some [2, 1, 0, 3, 4] ∧
    [2, 1, 0, 3, 4].count 4 = 1 ∧
    ∀ a ∈ c5Net.ancestors 4, a ∈ [2, 1, 0, 3] := by
  have hwf : WFNet c5Net :=
    wfNet_of_checks c5Net (by decide) (by decide) (by decide) (by decide)
      (by decide)
  have hacy : Acyclic c5Net :=
    acyclic_of_rank_list c5Net [0, 0, 0, 1, 2] (by decide) (by decide)
  have hnp : NoParallel c5Net := noParallel_of_checks c5Net (by decide) (by decide)
  have hrun : topoSeq c5Net 20 = some [2, 1, 0, 3, 4] := by decide
  obtain ⟨hcount, _, horder⟩ := c3_topological_order c5Net 20 _ hwf hacy hnp hrun
  refine ⟨hrun, hcount 4 (by decide), ?_⟩
  have := horder 4 (by decide)
  simpa using this

/-! ## §15 C6: `Flow::step` keeps every node flow in {0, 1} -/

theorem pushChildren_cons (vis : List Position) (p : Position)
    (C : Position → Bool) (d : Position) (l : List Position)
    (st : List (Position × Position) × List Position) :
    FlowEngine.pushChildren vis p C (d :: l) st =
      FlowEngine.pushChildren vis p C l
        (if vis.contains d then st
         else if C d then ((d, p) :: st.1, d :: st.2)
         else st) := rfl

/-- The stack only grows across a push fold. -/
theorem pushChildren_mono (vis : List Position) (p : Position)
    (C : Position → Bool) :
    ∀ (l : List Position) (st : List (Position × Position) × List Position)
      (x : Position), x ∈ st.2 → x ∈ (FlowEngine.pushChildren vis p C l st).2 := by
  intro l
  induction l with
  | nil => intro st x hx; exact hx
  | cons d l ih =>
    intro st x hx
    rw [pushChildren_cons]
    apply ih
    split
    · exact hx
    · split
      · exact List.mem_cons_of_mem _ hx
      · exact hx

/-- Every parent-map entry a push fold adds has parent `p`, was unvisited,
passed the test, names a member of the folded list, and sits on the output
stack; other lookups defer to the initial map. -/
theorem pushChildren_lookup (vis : List Position) (p : Position)
    (C : Position → Bool) :
    ∀ (l : List Position) (st : List (Position × Position) × List Position)
      (q r : Position),
      (FlowEngine.pushChildren vis p C l st).1.lookup q = some r →
      (r = p ∧ vis.contains q = false ∧ C q = true ∧ q ∈ l ∧
        q ∈ (FlowEngine.pushChildren vis p C l st).2) ∨
      st.1.lookup q = some r := by
  intro l
  induction l with
  | nil => intro st q r h; exact Or.inr h
  | cons d l ih =>
    intro st q r h
    rw [pushChildren_cons] at h ⊢
    by_cases hc : vis.contains d
    · rw [if_pos hc] at h ⊢
      rcases ih st q r h with ⟨h1, h2, h3, h4, h5⟩ | hold
      · exact Or.inl ⟨h1, h2, h3, List.mem_cons_of_mem _ h4, h5⟩
      · exact Or.inr hold
    · rw [if_neg hc] at h ⊢
      by_cases hC : C d
      · rw [if_pos hC] at h ⊢
        rcases ih _ q r h with ⟨h1, h2, h3, h4, h5⟩ | hold
        · exact Or.inl ⟨h1, h2, h3, List.mem_cons_of_mem _ h4, h5⟩
        · by_cases hqd : q = d
          · subst hqd
            have hr : r = p := by
              have := by simpa [List.lookup] using hold
              exact this.symm
            refine Or.inl ⟨hr, Bool.eq_false_iff.2 hc, hC, List.mem_cons_self _ _, ?_⟩
            exact pushChildren_mono vis p C l _ q (List.mem_cons_self _ _)
          · rw [List.lookup, beq_false_of_ne hqd] at hold
            exact Or.inr hold
      · rw [if_neg hC] at h ⊢
        rcases ih st q r h with ⟨h1, h2, h3, h4, h5⟩ | hold
        · exact Or.inl ⟨h1, h2, h3, List.mem_cons_of_mem _ h4, h5⟩
        · exact Or.inr hold

/-- Invariant of the DFS in `Flow::step`: every parent-map entry points to an
already-visited parent that was visited strictly earlier (parents recorded at
visit time), an entry's key is visited or still on the stack, and an entry
`After(n) ↦ Before(n)` certifies that the node-split edge had spare capacity,
i.e. that node `n`'s flow was 0. -/
def DFSInv (net : BooleanNetwork) (visited : List Position)
    (path : List (Position × Position)) (s : List Position) : Prop :=
  (∀ q r, path.lookup q = some r →
    r ∈ visited ∧
    (q ∈ visited → visited.indexOf r < visited.indexOf q) ∧
    (q ∉ visited → q ∈ s)) ∧
  (∀ ni, path.lookup (.AfterNode ni) = some (.BeforeNode ni) →
    (net.node_value ni).flow = 0)

theorem dfsInv_init (net : BooleanNetwork) : DFSInv net [] [] [.Source] :=
  ⟨fun _ _ h => Option.noConfusion h, fun _ h => Option.noConfusion h⟩

theorem contains_iff_mem {α : Type} [BEq α] [LawfulBEq α] (l : List α) (x : α) :
    l.contains x = true ↔ x ∈ l :=
  ⟨fun h => List.elem_iff.1 h, fun h => List.elem_iff.2 h⟩

/-- A completed DFS of `Flow::step` leaves the invariant at the final state
(empty stack): every recorded parent was visited strictly before its child,
and every `After(n) ↦ Before(n)` entry certifies flow(n) = 0. -/
theorem stepDfs_ok_inv {net : BooleanNetwork} {fl : FlowEngine}
    (hsl : ∀ ni, ni ∉ net.ancestors ni) :
    ∀ (fuel : Nat) (visited : List Position)
      (path : List (Position × Position)) (s visF : List Position)
      (PF : List (Position × Position)),
      FlowEngine.stepDfs net fl fuel visited path s = .ok (visF, PF) →
      DFSInv net visited path s → DFSInv net visF PF [] := by
  intro fuel
  induction fuel with
  | zero =>
    intro visited path s visF PF h _
    rw [FlowEngine.stepDfs] at h
    exact Res.noConfusion h
  | succ n ih =>
    intro visited path s visF PF h hinv
    match s with
    | [] =>
      rw [FlowEngine.stepDfs] at h
      cases h
      exact hinv
    | p :: s =>
      rw [FlowEngine.stepDfs] at h
      split at h
      · rename_i hc
        refine ih visited path s visF PF h ⟨?_, hinv.2⟩
        intro q r hqr
        obtain ⟨h1, h2, h3⟩ := hinv.1 q r hqr
        refine ⟨h1, h2, fun hq => ?_⟩
        rcases List.mem_cons.1 (h3 hq) with rfl | hs
        · exact absurd ((contains_iff_mem _ _).1 hc) hq
        · exact hs
      · rename_i hc
        have hpv : p ∉ visited := fun hm => hc ((contains_iff_mem _ _).2 hm)
        dsimp only [] at h
        refine ih _ _ _ _ _ h ⟨?_, ?_⟩
        · intro q r hqr
          rcases pushChildren_lookup _ _ _ _ _ q r hqr with
            ⟨hr, hnc, _, _, hstk⟩ | hold2
          · have hqnv : q ∉ visited ++ [p] := fun hm => by
              rw [(contains_iff_mem _ _).2 hm] at hnc
              exact Bool.noConfusion hnc
            refine ⟨?_, fun hq => absurd hq hqnv, fun _ => hstk⟩
            rw [hr]
            exact List.mem_append_right _ (List.mem_singleton.2 rfl)
          · rcases pushChildren_lookup _ _ _ _ _ q r hold2 with
              ⟨hr, hnc, _, _, hstk⟩ | hold1
            · have hqnv : q ∉ visited ++ [p] := fun hm => by
                rw [(contains_iff_mem _ _).2 hm] at hnc
                exact Bool.noConfusion hnc
              refine ⟨?_, fun hq => absurd hq hqnv,
                fun _ => pushChildren_mono _ _ _ _ _ q hstk⟩
              rw [hr]
              exact List.mem_append_right _ (List.mem_singleton.2 rfl)
            · obtain ⟨h1, h2, h3⟩ := hinv.1 q r hold1
              refine ⟨List.mem_append_left _ h1, ?_, ?_⟩
              · intro hqV
                rcases List.mem_append.1 hqV with hq | hq
                · rw [List.indexOf_append_of_mem h1,
                    List.indexOf_append_of_mem hq]
                  exact h2 hq
                · have hq' : q = p := List.mem_singleton.1 hq
                  subst hq'
                  rw [List.indexOf_append_of_mem h1,
                    List.indexOf_append_of_not_mem hpv,
                    List.indexOf_cons_self, Nat.add_zero]
                  exact List.indexOf_lt_length.2 h1
              · intro hqV
                have hqnvis : q ∉ visited := fun hm =>
                  hqV (List.mem_append_left _ hm)
                have hqne : q ≠ p := fun he =>
                  hqV (he ▸ List.mem_append_right _ (List.mem_singleton.2 rfl))
                rcases List.mem_cons.1 (h3 hqnvis) with he | hs2
                · exact absurd he hqne
                · exact pushChildren_mono _ _ _ _ _ q
                    (pushChildren_mono _ _ _ _ _ q hs2)
        · intro ni hni
          rcases pushChildren_lookup _ _ _ _ _ _ _ hni with
            ⟨hr, _, _, hmem, _⟩ | hold2
          · exfalso
            rw [← hr] at hmem
            simp only [FlowEngine.ancestors, List.mem_map] at hmem
            obtain ⟨a, ha, hae⟩ := hmem
            have : a = ni := Position.AfterNode.inj hae
            subst this
            exact hsl a ha
          · rcases pushChildren_lookup _ _ _ _ _ _ _ hold2 with
              ⟨hr, _, hC, _, _⟩ | hold1
            · have hcap := of_decide_eq_true hC
              rw [← hr] at hcap
              simp [FlowEngine.flow_cap] at hcap
              omega
            · exact hinv.2 ni hold1

/-- How one `Flow::augment` call touches a node flow: it leaves it alone,
adds `f` on the matched node-split pair `(Before(i), After(i))`, or subtracts
`f` on `(After(i), Before(i))` (out-of-range writes leave it alone). -/
theorem augment_flow_char (net : BooleanNetwork) (fl : FlowEngine)
    (p q : Position) (f : Nat) (i : Nat) :
    (((FlowEngine.augment net fl p q f).1.node_value i).flow =
        (net.node_value i).flow) ∨
    (p = .BeforeNode i ∧ q = .AfterNode i ∧
      (((FlowEngine.augment net fl p q f).1.node_value i).flow =
          (net.node_value i).flow + f ∨
        ((FlowEngine.augment net fl p q f).1.node_value i).flow =
          (net.node_value i).flow)) ∨
    (p = .AfterNode i ∧ q = .BeforeNode i ∧
      (((FlowEngine.augment net fl p q f).1.node_value i).flow =
          (net.node_value i).flow - f ∨
        ((FlowEngine.augment net fl p q f).1.node_value i).flow =
          (net.node_value i).flow)) := by
  rcases p with _ | _ | n1 | n1 <;> rcases q with _ | _ | n2 | n2 <;>
    simp only [FlowEngine.augment] <;> try exact Or.inl (by trivial)
  · by_cases he : n1 = n2
    · subst he
      rw [if_pos (beq_self_eq_true n1)]
      by_cases hi : i = n1
      · subst hi
        refine Or.inr (Or.inl ⟨rfl, rfl, ?_⟩)
        rcases BooleanNetwork.node_value_set_node_value_self net i
          (fun nv => { nv with flow := nv.flow + f }) with hv | hv
        · exact Or.inl (congrArg NodeValue.flow hv)
        · exact Or.inr (congrArg NodeValue.flow hv)
      · exact Or.inl (congrArg NodeValue.flow
          (BooleanNetwork.node_value_set_node_value_ne net n1 _ i hi))
    · rw [if_neg (by simpa using he)]
      exact Or.inl (congrArg NodeValue.flow
        (BooleanNetwork.node_value_set_edge_value net n2 n1 _ i))
  · by_cases he : n1 = n2
    · subst he
      rw [if_pos (beq_self_eq_true n1)]
      by_cases hi : i = n1
      · subst hi
        refine Or.inr (Or.inr ⟨rfl, rfl, ?_⟩)
        rcases BooleanNetwork.node_value_set_node_value_self net i
          (fun nv => { nv with flow := nv.flow - f }) with hv | hv
        · exact Or.inl (congrArg NodeValue.flow hv)
        · exact Or.inr (congrArg NodeValue.flow hv)
      · exact Or.inl (congrArg NodeValue.flow
          (BooleanNetwork.node_value_set_node_value_ne net n1 _ i hi))
    · rw [if_neg (by simpa using he)]
      exact Or.inl (congrArg NodeValue.flow
        (BooleanNetwork.node_value_set_edge_value net n1 n2 _ i))

/-- Walking the augmenting path keeps every node flow at most 1, given that
parents rank strictly below children (so the walk never revisits a vertex)
and that every pending `Before(n) → After(n)` hop had flow(n) = 0. -/
theorem walkAugment_flow (P : List (Position × Position)) (rk : Position → Nat)
    (hrank : ∀ q p, P.lookup q = some p → rk p < rk q) :
    ∀ (fuel : Nat) (net : BooleanNetwork) (fl : FlowEngine) (q : Position)
      (net' : BooleanNetwork) (fl' : FlowEngine),
      FlowEngine.walkAugment P fuel net fl q = .ok (net', fl') →
      (∀ i, (net.node_value i).flow ≤ 1) →
      (∀ ni, P.lookup (.AfterNode ni) = some (.BeforeNode ni) →
        rk (.AfterNode ni) ≤ rk q → (net.node_value ni).flow = 0) →
      ∀ i, (net'.node_value i).flow ≤ 1 := by
  intro fuel
  induction fuel with
  | zero =>
    intro net fl q net' fl' h
    rw [FlowEngine.walkAugment] at h
    exact Res.noConfusion h
  | succ n ih =>
    intro net fl q net' fl' h hA hB
    rw [FlowEngine.walkAugment] at h
    rcases hl : P.lookup q with _ | p <;> rw [hl] at h
    · cases h
      exact hA
    · dsimp only [] at h
      rcases haug : FlowEngine.augment net fl p q 1 with ⟨net1, fl1⟩
      rw [haug] at h
      dsimp only [] at h
      have hflow : ∀ i, (net1.node_value i).flow = (net.node_value i).flow ∨
          (p = .BeforeNode i ∧ q = .AfterNode i ∧
            ((net1.node_value i).flow = (net.node_value i).flow + 1 ∨
              (net1.node_value i).flow = (net.node_value i).flow)) ∨
          (p = .AfterNode i ∧ q = .BeforeNode i ∧
            ((net1.node_value i).flow = (net.node_value i).flow - 1 ∨
              (net1.node_value i).flow = (net.node_value i).flow)) := by
        intro i
        have := augment_flow_char net fl p q 1 i
        rw [haug] at this
        exact this
      refine ih net1 fl1 p net' fl' h ?_ ?_
      · intro i
        rcases hflow i with heq | ⟨hp, hq, hcase⟩ | ⟨hp, hq, hcase⟩
        · rw [heq]
          exact hA i
        · have h0 : (net.node_value i).flow = 0 := by
            refine hB i ?_ ?_
            · rw [← hp, ← hq]
              exact hl
            · rw [← hq]
          rcases hcase with hc | hc <;> omega
        · have := hA i
          rcases hcase with hc | hc <;> omega
      · intro nj hlook hle
        rcases hflow nj with heq | ⟨hp, hq, hcase⟩ | ⟨hp, hq, hcase⟩
        · rw [heq]
          exact hB nj hlook (Nat.le_trans hle (Nat.le_of_lt (hrank q p hl)))
        · exfalso
          have h1 : rk p < rk q := hrank q p hl
          rw [hq] at h1
          exact absurd (Nat.lt_of_le_of_lt hle h1) (Nat.lt_irrefl _)
        · have h0 : (net.node_value nj).flow = 0 := by
            refine hB nj hlook ?_
            rw [← hp] at hle ⊢
            exact Nat.le_of_lt (Nat.lt_of_le_of_lt hle (hrank q p hl))
          rcases hcase with hc | hc <;> omega

/-- One successful `Flow::step` keeps every node flow at most 1 (on a
network without self-edges). -/
theorem step_flows_le_one (net : BooleanNetwork) (fl : FlowEngine) (fuel : Nat)
    (net' : BooleanNetwork) (fl' : FlowEngine) (b : Bool)
    (hsl : ∀ ni, ni ∉ net.ancestors ni)
    (hA : ∀ i, (net.node_value i).flow ≤ 1)
    (h : FlowEngine.step net fl fuel = .ok (net', fl', b)) :
    ∀ i, (net'.node_value i).flow ≤ 1 := by
  rw [FlowEngine.step] at h
  split at h
  · exact Res.noConfusion h
  · exact Res.noConfusion h
  · rename_i visF PF hdfs
    split at h
    · cases h
      exact hA
    · split at h
      · exact Res.noConfusion h
      · exact Res.noConfusion h
      · rename_i net1 fl1 hw
        cases h
        have hinv := stepDfs_ok_inv hsl fuel [] [] [.Source] visF PF hdfs
          (dfsInv_init net)
        refine walkAugment_flow PF (fun x => visF.indexOf x) ?_ fuel net fl
          .Sink _ _ hw hA ?_
        · intro q p hqp
          obtain ⟨h1, h2, h3⟩ := hinv.1 q p hqp
          by_cases hq : q ∈ visF
          · exact h2 hq
          · exact absurd (h3 hq) (List.not_mem_nil _)
        · intro ni hni _
          exact hinv.2 ni hni

/-- The unbounded flow-range invariant from a check bounded by
`node_count` (decidable on a concrete network). -/
theorem flows01_of_checks (net : BooleanNetwork)
    (hlen : net.node_values.length = net.node_count)
    (h : ∀ i < net.node_count,
      (net.node_value i).flow = 0 ∨ (net.node_value i).flow = 1) :
    ∀ i, (net.node_value i).flow = 0 ∨ (net.node_value i).flow = 1 := by
  intro i
  by_cases hi : i < net.node_count
  · exact h i hi
  · left
    unfold BooleanNetwork.node_value
    rw [List.getD_eq_default]
    · rfl
    · rw [hlen]
      exact Nat.le_of_not_lt hi

/-- C6: on an acyclic network, a successful call to `Flow::step` preserves
the invariant that the `flow` field of every node value is 0 or 1 (the
node-split edge `Before(n) → After(n)` has capacity 1, so the augmenting
walk adds a unit only through nodes whose flow was 0). -/
theorem c6_step_preserves_flow01 (net : BooleanNetwork) (fl : FlowEngine)
    (fuel : Nat) (net' : BooleanNetwork) (fl' : FlowEngine) (b : Bool)
    (hacy : Acyclic net)
    (h01 : ∀ i, (net.node_value i).flow = 0 ∨ (net.node_value i).flow = 1)
    (hstep : FlowEngine.step net fl fuel = .ok (net', fl', b)) :
    ∀ i, (net'.node_value i).flow = 0 ∨ (net'.node_value i).flow = 1 := by
  obtain ⟨rk, hrk⟩ := hacy
  have hsl : ∀ ni, ni ∉ net.ancestors ni := fun ni h =>
    Nat.lt_irrefl _ (hrk ni ni h)
  have hA : ∀ i, (net.node_value i).flow ≤ 1 := by
    intro i
    rcases h01 i with h | h <;> omega
  have hle := step_flows_le_one net fl fuel net' fl' b hsl hA hstep
  intro i
  have := hle i
  omega

/-- The single-edge network 0 → 1 on which the C6 witness runs the engine. -/
def c6WitNet : BooleanNetwork := mkNet 1 [(0, 1)] []

/-- The C6 witness engine: source leg at node 0, sink leg at node 0. -/
def c6WitFl : FlowEngine := FlowEngine.new 1 [0] [0]

/-- Witness for C6: on the single-edge network with all flows 0, `step`
finds the path through node 0 and leaves its flow at 1. -/
theorem c6_step_preserves_flow01_witness :
    (({ nodes := [⟨[], [1]⟩, ⟨[0], []⟩],
        node_values := [⟨none, none, [], false, false, 1⟩,
          ⟨none, none, [], false, false, 0⟩],
        edge_values := [[], [(0, 0)]],
        max_node_index := 1 } : BooleanNetwork).node_value 0).flow = 0 ∨
    (({ nodes := [⟨[], [1]⟩, ⟨[0], []⟩],
        node_values := [⟨none, none, [], false, false, 1⟩,
          ⟨none, none, [], false, false, 0⟩],
        edge_values := [[], [(0, 0)]],
        max_node_index := 1 } : BooleanNetwork).node_value 0).flow = 1 :=
  c6_step_preserves_flow01 c6WitNet c6WitFl 20 _ ⟨1, [(0, 1)], [(0, 1)]⟩ true
    (acyclic_of_rank_list c6WitNet [0, 1] (by decide) (by decide))
    (flows01_of_checks c6WitNet (by decide) (by decide))
    (by rfl) 0

/-! ## §16 C1: reading edge values around `set_edge_value` -/

namespace BooleanNetwork

theorem findIdx_beq_lt {l : List Nat} {a : Nat} (h : a ∈ l) :
    l.findIdx (fun x => x == a) < l.length :=
  List.findIdx_lt_length_of_exists ⟨a, h, by simp⟩

theorem findIdx_beq_eq_length {l : List Nat} {a : Nat} (h : a ∉ l) :
    l.findIdx (fun x => x == a) = l.length := by
  rw [List.findIdx_eq_length]
  intro x hx
  simp
  intro he
  exact absurd (he ▸ hx) h

theorem get_findIdx_beq {l : List Nat} {a : Nat}
    (h : l.findIdx (fun x => x == a) < l.length) :
    l.get ⟨l.findIdx (fun x => x == a), h⟩ = a := by
  have := @List.findIdx_get _ (fun x => x == a) l h
  simpa using this

/-- Distinct members of a list have distinct first-occurrence indices. -/
theorem findIdx_beq_inj {l : List Nat} {a b : Nat} (ha : a ∈ l) (hb : b ∈ l)
    (h : l.findIdx (fun x => x == a) = l.findIdx (fun x => x == b)) :
    a = b := by
  have hla := findIdx_beq_lt ha
  have hlb := findIdx_beq_lt hb
  have h1 := get_findIdx_beq hla
  have h2 := get_findIdx_beq hlb
  rw [← h1, ← h2]
  congr 1
  exact Fin.ext h

/-- The edge vector of `t` after `set_edge_value f t v`. -/
theorem edge_values_after_set (net : BooleanNetwork) (f t : Nat)
    (v : Nat × Nat) :
    (net.set_edge_value f t v).edge_values.getD t [] =
      (net.edge_values.getD t []).set (net.edge_index f t) v := by
  unfold set_edge_value
  by_cases h : t < net.edge_values.length
  · exact getD_set_self _ _ _ _ h
  · rw [List.set_eq_of_length_le (Nat.le_of_not_lt h)]
    have hd : net.edge_values.getD t [] = [] :=
      List.getD_eq_default _ _ (Nat.le_of_not_lt h)
    rw [hd]
    rfl

/-- A `set_edge_value` is invisible to every other edge read, provided the
edge vector of the written node is no longer than its ancestor list. -/
theorem edge_value_set_cases (net : BooleanNetwork) (f t f' t' : Nat)
    (v : Nat × Nat)
    (hlen : (net.edge_values.getD t []).length ≤ (net.ancestors t).length) :
    (net.set_edge_value f t v).edge_value f' t' = net.edge_value f' t' ∨
      (f' = f ∧ t' = t) := by
  by_cases ht : t' = t
  · subst ht
    by_cases hf : f' = f
    · exact Or.inr ⟨hf, rfl⟩
    · left
      show ((net.set_edge_value f t' v).edge_values.getD t' []).getD
          ((net.set_edge_value f t' v).edge_index f' t') (0, 0) = _
      have hidx : (net.set_edge_value f t' v).edge_index f' t' =
          net.edge_index f' t' := rfl
      rw [hidx, edge_values_after_set]
      by_cases hfm : f ∈ net.ancestors t'
      · by_cases hfm' : f' ∈ net.ancestors t'
        · exact getD_set_ne _ _ _ _ _
            (fun he => hf (findIdx_beq_inj hfm' hfm he))
        · have hidx' : net.edge_index f' t' = (net.ancestors t').length :=
            findIdx_beq_eq_length hfm'
          have h1 : ((net.edge_values.getD t' []).set (net.edge_index f t') v).getD
              (net.edge_index f' t') (0, 0) = (0, 0) :=
            List.getD_eq_default _ _
              (by rw [List.length_set, hidx']; exact hlen)
          have h2 : net.edge_value f' t' = (0, 0) :=
            List.getD_eq_default _ _ (by rw [hidx']; exact hlen)
          rw [h2]
          exact h1
      · have hidx0 : net.edge_index f t' = (net.ancestors t').length :=
          findIdx_beq_eq_length hfm
        rw [List.set_eq_of_length_le (by rw [hidx0]; exact hlen)]
        rfl
  · left
    show ((net.set_edge_value f t v).edge_values.getD t' []).getD
        ((net.set_edge_value f t v).edge_index f' t') (0, 0) = _
    have hidx : (net.set_edge_value f t v).edge_index f' t' =
        net.edge_index f' t' := rfl
    rw [hidx]
    unfold set_edge_value
    rw [getD_set_ne _ _ _ _ _ ht]
    rfl

/-- Writing an edge that exists (the edge vector is long enough) is read
back exactly. -/
theorem edge_value_set_self (net : BooleanNetwork) (f t : Nat) (v : Nat × Nat)
    (hmem : f ∈ net.ancestors t)
    (hlen : (net.ancestors t).length ≤ (net.edge_values.getD t []).length) :
    (net.set_edge_value f t v).edge_value f t = v := by
  show ((net.set_edge_value f t v).edge_values.getD t []).getD
      ((net.set_edge_value f t v).edge_index f t) (0, 0) = v
  have hidx : (net.set_edge_value f t v).edge_index f t =
      net.edge_index f t := rfl
  rw [hidx, edge_values_after_set]
  exact getD_set_self _ _ _ _ (Nat.lt_of_lt_of_le (findIdx_beq_lt hmem) hlen)

end BooleanNetwork

/-! ### Per-ancestor facts about `bfsStep` -/

theorem dedup_append_foldl_mono (l : List Nat) :
    ∀ (sk : List Nat) (x : Nat), x ∈ sk →
      x ∈ l.foldl (fun sk a2 => if sk.contains a2 then sk else sk ++ [a2]) sk := by
  induction l with
  | nil => intro sk x hx; exact hx
  | cons a2 l ih =>
    intro sk x hx
    rw [List.foldl_cons]
    apply ih
    split
    · exact hx
    · exact List.mem_append_left _ hx

theorem bfsStep_nodes (node p : Nat) (net : BooleanNetwork)
    (source sink visited s : List Nat) (a : Nat) :
    (bfsStep node p (net, source, sink, visited, s) a).1.nodes = net.nodes := by
  rw [bfsStep]
  dsimp only []
  split
  · split
    · rfl
    · split
      · rfl
      · rfl
  · rfl

theorem bfsStep_node_values (node p : Nat) (net : BooleanNetwork)
    (source sink visited s : List Nat) (a : Nat) :
    (bfsStep node p (net, source, sink, visited, s) a).1.node_values =
      net.node_values := by
  rw [bfsStep]
  dsimp only []
  split
  · split
    · rfl
    · split
      · rfl
      · rfl
  · rfl

theorem bfsStep_max (node p : Nat) (net : BooleanNetwork)
    (source sink visited s : List Nat) (a : Nat) :
    (bfsStep node p (net, source, sink, visited, s) a).1.max_node_index =
      net.max_node_index := by
  rw [bfsStep]
  dsimp only []
  split
  · split
    · rfl
    · split
      · rfl
      · rfl
  · rfl

theorem bfsStep_elen (node p : Nat) (net : BooleanNetwork)
    (source sink visited s : List Nat) (a : Nat) (u : Nat) :
    ((bfsStep node p (net, source, sink, visited, s) a).1.edge_values.getD
      u []).length = ((net.edge_values.getD u []).length) := by
  rw [bfsStep]
  dsimp only []
  split
  · split
    · exact length_edge_values_set _ _ _ _ _
    · split
      · exact length_edge_values_set _ _ _ _ _
      · rw [length_edge_values_set,
          length_edge_values_set]
  · exact length_edge_values_set _ _ _ _ _

theorem bfsStep_visited_mono (node p : Nat) (net : BooleanNetwork)
    (source sink visited s : List Nat) (a : Nat) (x : Nat) (hx : x ∈ visited) :
    x ∈ (bfsStep node p (net, source, sink, visited, s) a).2.2.2.1 := by
  rw [bfsStep]
  dsimp only []
  split
  · split
    · exact List.mem_append_left _ hx
    · split
      · exact List.mem_append_left _ hx
      · exact List.mem_append_left _ hx
  · exact hx

theorem bfsStep_visited_sub (node p : Nat) (net : BooleanNetwork)
    (source sink visited s : List Nat) (a : Nat) (x : Nat)
    (hx : x ∈ (bfsStep node p (net, source, sink, visited, s) a).2.2.2.1) :
    x ∈ visited ∨ x = a := by
  rw [bfsStep] at hx
  dsimp only [] at hx
  split at hx <;>
    [skip; exact Or.inl hx]
  split at hx
  · rcases List.mem_append.1 hx with h | h
    · exact Or.inl h
    · exact Or.inr (List.mem_singleton.1 h)
  · split at hx <;>
      rcases List.mem_append.1 hx with h | h
    · exact Or.inl h
    · exact Or.inr (List.mem_singleton.1 h)
    · exact Or.inl h
    · exact Or.inr (List.mem_singleton.1 h)

theorem bfsStep_mem_visited (node p : Nat) (net : BooleanNetwork)
    (source sink visited s : List Nat) (a : Nat) :
    a ∈ (bfsStep node p (net, source, sink, visited, s) a).2.2.2.1 := by
  rw [bfsStep]
  dsimp only []
  split
  · split
    · exact List.mem_append_right _ (List.mem_singleton.2 rfl)
    · split
      · exact List.mem_append_right _ (List.mem_singleton.2 rfl)
      · exact List.mem_append_right _ (List.mem_singleton.2 rfl)
  · rename_i hc
    have : visited.contains a = true := by
      rcases hv : visited.contains a with _ | _
      · rw [hv] at hc
        exact absurd rfl hc
      · rfl
    exact (contains_iff_mem visited a).1 this

theorem bfsStep_stack_mono (node p : Nat) (net : BooleanNetwork)
    (source sink visited s : List Nat) (a : Nat) (x : Nat) (hx : x ∈ s) :
    x ∈ (bfsStep node p (net, source, sink, visited, s) a).2.2.2.2 := by
  rw [bfsStep]
  dsimp only []
  split
  · split
    · exact List.mem_cons_of_mem _ hx
    · split
      · exact List.mem_cons_of_mem _ hx
      · exact List.mem_cons_of_mem _ hx
  · exact hx

theorem bfsStep_stack_sub (node p : Nat) (net : BooleanNetwork)
    (source sink visited s : List Nat) (a : Nat) (x : Nat)
    (hx : x ∈ (bfsStep node p (net, source, sink, visited, s) a).2.2.2.2) :
    x ∈ s ∨ x ∈ (bfsStep node p (net, source, sink, visited, s) a).2.2.2.1 := by
  have hmem := bfsStep_mem_visited node p net source sink visited s a
  rw [bfsStep] at hx ⊢
  dsimp only [] at hx ⊢
  rw [bfsStep] at hmem
  dsimp only [] at hmem
  split at hx <;> rename_i hc
  · split at hx <;> rename_i h1
    · rw [if_pos hc, if_pos h1] at hmem ⊢
      rcases List.mem_cons.1 hx with rfl | h
      · exact Or.inr hmem
      · exact Or.inl h
    · split at hx <;> rename_i h2
      · rw [if_pos hc, if_neg h1, if_pos h2] at hmem ⊢
        rcases List.mem_cons.1 hx with rfl | h
        · exact Or.inr hmem
        · exact Or.inl h
      · rw [if_pos hc, if_neg h1, if_neg h2] at hmem ⊢
        rcases List.mem_cons.1 hx with rfl | h
        · exact Or.inr hmem
        · exact Or.inl h
  · exact Or.inl hx

theorem bfsStep_sink_mono (node p : Nat) (net : BooleanNetwork)
    (source sink visited s : List Nat) (a : Nat) (x : Nat) (hx : x ∈ sink) :
    x ∈ (bfsStep node p (net, source, sink, visited, s) a).2.2.1 := by
  rw [bfsStep]
  dsimp only []
  split
  · split
    · exact dedup_append_foldl_mono _ _ _ hx
    · split
      · exact hx
      · exact hx
  · exact hx

theorem edge_value_set_ne_target (net : BooleanNetwork) (f t : Nat)
    (v : Nat × Nat) (f' t' : Nat) (ht : t' ≠ t) :
    (net.set_edge_value f t v).edge_value f' t' = net.edge_value f' t' := by
  show ((net.set_edge_value f t v).edge_values.getD t' []).getD
      ((net.set_edge_value f t v).edge_index f' t') (0, 0) = _
  have hidx : (net.set_edge_value f t v).edge_index f' t' =
      net.edge_index f' t' := rfl
  rw [hidx]
  unfold BooleanNetwork.set_edge_value
  rw [getD_set_ne _ _ _ _ _ ht]
  rfl

theorem edge_value_set_not_mem (net : BooleanNetwork) (f t : Nat)
    (v : Nat × Nat) (hmem : f ∉ net.ancestors t)
    (hlen : (net.edge_values.getD t []).length ≤ (net.ancestors t).length)
    (f' t' : Nat) :
    (net.set_edge_value f t v).edge_value f' t' = net.edge_value f' t' := by
  by_cases ht : t' = t
  · subst ht
    show ((net.set_edge_value f t' v).edge_values.getD t' []).getD
        ((net.set_edge_value f t' v).edge_index f' t') (0, 0) = _
    have hidx : (net.set_edge_value f t' v).edge_index f' t' =
        net.edge_index f' t' := rfl
    rw [hidx, BooleanNetwork.edge_values_after_set]
    rw [List.set_eq_of_length_le]
    · rfl
    · rw [show net.edge_index f t' = (net.ancestors t').length from
        BooleanNetwork.findIdx_beq_eq_length hmem]
      exact hlen
  · exact edge_value_set_ne_target _ _ _ _ _ _ ht

/-- The values a finished `bfsStep` can leave on a reset incoming edge. -/
def resetE (net : BooleanNetwork) (a node : Nat) : Prop :=
  net.edge_value a node = (0, 1) ∨ net.edge_value a node = (0, 1000)

/-- `bfsStep` only writes edges into `node`. -/
theorem bfsStep_edge_other (node p : Nat) (net : BooleanNetwork)
    (source sink visited s : List Nat) (a : Nat) (x y : Nat) (hy : y ≠ node) :
    (bfsStep node p (net, source, sink, visited, s) a).1.edge_value x y =
      net.edge_value x y := by
  rw [bfsStep]
  dsimp only []
  split
  · split
    · exact edge_value_set_ne_target _ _ _ _ _ _ hy
    · split
      · exact edge_value_set_ne_target _ _ _ _ _ _ hy
      · rw [edge_value_set_ne_target _ _ _ _ _ _ hy,
          edge_value_set_ne_target _ _ _ _ _ _ hy]
  · exact edge_value_set_ne_target _ _ _ _ _ _ hy

/-- After `bfsStep` processes ancestor `a`, the edge `a → node` holds a
reset value. -/
theorem bfsStep_edge_self (node p : Nat) (net : BooleanNetwork)
    (source sink visited s : List Nat) (a : Nat)
    (hlen : (net.edge_values.getD node []).length =
      (net.ancestors node).length) :
    resetE (bfsStep node p (net, source, sink, visited, s) a).1 a node ∨
      a ∉ net.ancestors node := by
  by_cases hmem : a ∈ net.ancestors node
  · left
    have hself : (net.set_edge_value a node (0, 1)).edge_value a node =
        (0, 1) :=
      BooleanNetwork.edge_value_set_self net a node (0, 1) hmem
        (Nat.le_of_eq hlen.symm)
    rw [bfsStep]
    dsimp only []
    split
    · split
      · exact Or.inl hself
      · split
        · exact Or.inl hself
        · right
          have hmem1 : a ∈ (net.set_edge_value a node (0, 1)).ancestors node :=
            hmem
          have hlen1 : ((net.set_edge_value a node (0, 1)).ancestors
              node).length ≤ ((net.set_edge_value a node
              (0, 1)).edge_values.getD node []).length := by
            rw [length_edge_values_set]
            exact Nat.le_of_eq hlen.symm
          exact BooleanNetwork.edge_value_set_self _ a node (0, 1000) hmem1
            hlen1
    · exact Or.inl hself
  · exact Or.inr hmem

/-- `bfsStep` keeps already-reset edges into `node` reset. -/
theorem bfsStep_edge_inv (node p : Nat) (net : BooleanNetwork)
    (source sink visited s : List Nat) (a : Nat) (x : Nat)
    (hlen : (net.edge_values.getD node []).length =
      (net.ancestors node).length)
    (hx : resetE net x node) :
    resetE (bfsStep node p (net, source, sink, visited, s) a).1 x node := by
  by_cases hmem : a ∈ net.ancestors node
  · by_cases hxa : x = a
    · subst hxa
      rcases bfsStep_edge_self node p net source sink visited s x hlen with
        h | h
      · exact h
      · exact absurd hmem h
    · have h1 : ∀ w : Nat × Nat,
          ((net.set_edge_value a node w).edge_value x node) =
            net.edge_value x node := by
        intro w
        rcases BooleanNetwork.edge_value_set_cases net a node x node w
          (Nat.le_of_eq hlen) with h | ⟨h, _⟩
        · exact h
        · exact absurd h hxa
      rw [bfsStep]
      dsimp only []
      split
      · split
        · rw [resetE, h1]
          exact hx
        · split
          · rw [resetE, h1]
            exact hx
          · have h2 : ((net.set_edge_value a node (0, 1)).set_edge_value a
                node (0, 1000)).edge_value x node =
                (net.set_edge_value a node (0, 1)).edge_value x node := by
              rcases BooleanNetwork.edge_value_set_cases
                (net.set_edge_value a node (0, 1)) a node x node (0, 1000)
                (by rw [length_edge_values_set]; exact Nat.le_of_eq hlen) with
                h | ⟨h, _⟩
              · exact h
              · exact absurd h hxa
            rw [resetE, h2, h1]
            exact hx
      · rw [resetE, h1]
        exact hx
  · have h1 : ∀ (m : BooleanNetwork) (w : Nat × Nat),
        m.nodes = net.nodes →
        (m.edge_values.getD node []).length =
          (net.edge_values.getD node []).length →
        (m.set_edge_value a node w).edge_value x node =
          m.edge_value x node := by
      intro m w hn hl
      refine edge_value_set_not_mem m a node w ?_ ?_ x node
      · rw [ancestors_eq_of_nodes_eq hn]
        exact hmem
      · rw [hl, hlen, ancestors_eq_of_nodes_eq hn]
    rw [bfsStep]
    dsimp only []
    split
    · split
      · rw [resetE, h1 net (0, 1) rfl rfl]
        exact hx
      · split
        · rw [resetE, h1 net (0, 1) rfl rfl]
          exact hx
        · rw [resetE, h1 (net.set_edge_value a node (0, 1)) (0, 1000) rfl
            (length_edge_values_set _ _ _ _ _), h1 net (0, 1) rfl rfl]
          exact hx
    · rw [resetE, h1 net (0, 1) rfl rfl]
      exact hx

/-! ### Facts about a whole `bfsFold` pass -/

theorem bfsFold_cons (node p : Nat) (a : Nat) (l : List Nat)
    (st : BooleanNetwork × List Nat × List Nat × List Nat × List Nat) :
    bfsFold node p (a :: l) st = bfsFold node p l (bfsStep node p st a) := rfl

theorem bfsFold_struct (node p : Nat) :
    ∀ (l : List Nat)
      (st : BooleanNetwork × List Nat × List Nat × List Nat × List Nat),
      (bfsFold node p l st).1.nodes = st.1.nodes ∧
      (bfsFold node p l st).1.node_values = st.1.node_values ∧
      (bfsFold node p l st).1.max_node_index = st.1.max_node_index ∧
      ∀ u, ((bfsFold node p l st).1.edge_values.getD u []).length =
        (st.1.edge_values.getD u []).length := by
  intro l
  induction l with
  | nil => intro st; exact ⟨rfl, rfl, rfl, fun u => rfl⟩
  | cons a l ih =>
    intro st
    obtain ⟨net, source, sink, visited, s⟩ := st
    rw [bfsFold_cons]
    obtain ⟨ih1, ih2, ih3, ih4⟩ := ih (bfsStep node p (net, source, sink, visited, s) a)
    refine ⟨?_, ?_, ?_, fun u => ?_⟩
    · rw [ih1, bfsStep_nodes]
    · rw [ih2, bfsStep_node_values]
    · rw [ih3, bfsStep_max]
    · rw [ih4 u, bfsStep_elen]

theorem bfsFold_visited_mono (node p : Nat) :
    ∀ (l : List Nat)
      (st : BooleanNetwork × List Nat × List Nat × List Nat × List Nat)
      (x : Nat), x ∈ st.2.2.2.1 → x ∈ (bfsFold node p l st).2.2.2.1 := by
  intro l
  induction l with
  | nil => intro st x hx; exact hx
  | cons a l ih =>
    intro st x hx
    obtain ⟨net, source, sink, visited, s⟩ := st
    rw [bfsFold_cons]
    exact ih _ x (bfsStep_visited_mono node p net source sink visited s a x hx)

theorem bfsFold_visited_sub (node p : Nat) :
    ∀ (l : List Nat)
      (st : BooleanNetwork × List Nat × List Nat × List Nat × List Nat)
      (x : Nat), x ∈ (bfsFold node p l st).2.2.2.1 →
      x ∈ st.2.2.2.1 ∨ x ∈ l := by
  intro l
  induction l with
  | nil => intro st x hx; exact Or.inl hx
  | cons a l ih =>
    intro st x hx
    obtain ⟨net, source, sink, visited, s⟩ := st
    rw [bfsFold_cons] at hx
    rcases ih _ x hx with h | h
    · rcases bfsStep_visited_sub node p net source sink visited s a x h with
        h' | h'
      · exact Or.inl h'
      · exact Or.inr (h' ▸ List.mem_cons_self _ _)
    · exact Or.inr (List.mem_cons_of_mem _ h)

theorem bfsFold_mem_visited (node p : Nat) :
    ∀ (l : List Nat)
      (st : BooleanNetwork × List Nat × List Nat × List Nat × List Nat)
      (a : Nat), a ∈ l → a ∈ (bfsFold node p l st).2.2.2.1 := by
  intro l
  induction l with
  | nil => intro st a ha; exact absurd ha (List.not_mem_nil _)
  | cons b l ih =>
    intro st a ha
    obtain ⟨net, source, sink, visited, s⟩ := st
    rw [bfsFold_cons]
    rcases List.mem_cons.1 ha with rfl | h
    · exact bfsFold_visited_mono node p l _ a
        (bfsStep_mem_visited node p net source sink visited s a)
    · exact ih _ a h

theorem bfsFold_stack_mono (node p : Nat) :
    ∀ (l : List Nat)
      (st : BooleanNetwork × List Nat × List Nat × List Nat × List Nat)
      (x : Nat), x ∈ st.2.2.2.2 → x ∈ (bfsFold node p l st).2.2.2.2 := by
  intro l
  induction l with
  | nil => intro st x hx; exact hx
  | cons a l ih =>
    intro st x hx
    obtain ⟨net, source, sink, visited, s⟩ := st
    rw [bfsFold_cons]
    exact ih _ x (bfsStep_stack_mono node p net source sink visited s a x hx)

theorem bfsFold_stack_sub (node p : Nat) :
    ∀ (l : List Nat)
      (st : BooleanNetwork × List Nat × List Nat × List Nat × List Nat)
      (x : Nat), x ∈ (bfsFold node p l st).2.2.2.2 →
      x ∈ st.2.2.2.2 ∨ x ∈ (bfsFold node p l st).2.2.2.1 := by
  intro l
  induction l with
  | nil => intro st x hx; exact Or.inl hx
  | cons a l ih =>
    intro st x hx
    obtain ⟨net, source, sink, visited, s⟩ := st
    rw [bfsFold_cons] at hx ⊢
    rcases ih _ x hx with h | h
    · rcases bfsStep_stack_sub node p net source sink visited s a x h with
        h' | h'
      · exact Or.inl h'
      · exact Or.inr (bfsFold_visited_mono node p l _ x h')
    · exact Or.inr h

theorem bfsFold_sink_mono (node p : Nat) :
    ∀ (l : List Nat)
      (st : BooleanNetwork × List Nat × List Nat × List Nat × List Nat)
      (x : Nat), x ∈ st.2.2.1 → x ∈ (bfsFold node p l st).2.2.1 := by
  intro l
  induction l with
  | nil => intro st x hx; exact hx
  | cons a l ih =>
    intro st x hx
    obtain ⟨net, source, sink, visited, s⟩ := st
    rw [bfsFold_cons]
    exact ih _ x (bfsStep_sink_mono node p net source sink visited s a x hx)

theorem bfsFold_edge_other (node p : Nat) :
    ∀ (l : List Nat)
      (st : BooleanNetwork × List Nat × List Nat × List Nat × List Nat)
      (x y : Nat), y ≠ node →
      (bfsFold node p l st).1.edge_value x y = st.1.edge_value x y := by
  intro l
  induction l with
  | nil => intro st x y _; rfl
  | cons a l ih =>
    intro st x y hy
    obtain ⟨net, source, sink, visited, s⟩ := st
    rw [bfsFold_cons, ih _ x y hy,
      bfsStep_edge_other node p net source sink visited s a x y hy]

theorem bfsFold_edge_inv (node p : Nat) :
    ∀ (l : List Nat)
      (st : BooleanNetwork × List Nat × List Nat × List Nat × List Nat)
      (x : Nat),
      ((st.1.edge_values.getD node []).length =
        (st.1.ancestors node).length) →
      resetE st.1 x node → resetE (bfsFold node p l st).1 x node := by
  intro l
  induction l with
  | nil => intro st x _ hx; exact hx
  | cons a l ih =>
    intro st x hlen hx
    obtain ⟨net, source, sink, visited, s⟩ := st
    rw [bfsFold_cons]
    refine ih _ x ?_ (bfsStep_edge_inv node p net source sink visited s a x hlen hx)
    rw [bfsStep_elen,
      ancestors_eq_of_nodes_eq (bfsStep_nodes node p net source sink visited s a)]
    exact hlen

theorem bfsFold_edge_reset (node p : Nat) :
    ∀ (l : List Nat)
      (st : BooleanNetwork × List Nat × List Nat × List Nat × List Nat)
      (a : Nat), a ∈ l →
      ((st.1.edge_values.getD node []).length =
        (st.1.ancestors node).length) →
      resetE (bfsFold node p l st).1 a node ∨ a ∉ st.1.ancestors node := by
  intro l
  induction l with
  | nil => intro st a ha; exact absurd ha (List.not_mem_nil _)
  | cons b l ih =>
    intro st a ha hlen
    obtain ⟨net, source, sink, visited, s⟩ := st
    have hlen' : (((bfsStep node p (net, source, sink, visited, s)
        b).1.edge_values).getD node []).length =
        ((bfsStep node p (net, source, sink, visited, s)
          b).1.ancestors node).length := by
      rw [bfsStep_elen,
        ancestors_eq_of_nodes_eq (bfsStep_nodes node p net source sink visited s b)]
      exact hlen
    rw [bfsFold_cons]
    rcases List.mem_cons.1 ha with rfl | h
    · rcases bfsStep_edge_self node p net source sink visited s a hlen with
        hr | hnm
      · exact Or.inl (bfsFold_edge_inv node p l _ a hlen' hr)
      · exact Or.inr hnm
    · rcases ih _ a h hlen' with hr | hnm
      · exact Or.inl hr
      · right
        rw [ancestors_eq_of_nodes_eq
          (bfsStep_nodes node p net source sink visited s b)] at hnm
        exact hnm

/-! ### The `labelBfs` postconditions -/

theorem node_value_congr {a b : BooleanNetwork}
    (h : b.node_values = a.node_values) :
    ∀ i, b.node_value i = a.node_value i := by
  intro i
  unfold BooleanNetwork.node_value
  rw [h]

theorem edge_value_set_node_value (net : BooleanNetwork) (i : Nat)
    (f : NodeValue → NodeValue) (x y : Nat) :
    (net.set_node_value i f).edge_value x y = net.edge_value x y := rfl

/-- Every ancestor of `l = ancestors node` lands on the state's stack or was
already visited before the fold. -/
theorem bfsFold_mem_stack_or_visited (node p : Nat) :
    ∀ (l : List Nat)
      (st : BooleanNetwork × List Nat × List Nat × List Nat × List Nat)
      (a : Nat), a ∈ l →
      a ∈ st.2.2.2.1 ∨ a ∈ (bfsFold node p l st).2.2.2.2 := by
  intro l
  induction l with
  | nil => intro st a ha; exact absurd ha (List.not_mem_nil _)
  | cons b l ih =>
    intro st a ha
    obtain ⟨net, source, sink, visited, s⟩ := st
    rw [bfsFold_cons]
    rcases List.mem_cons.1 ha with rfl | h
    · by_cases hc : a ∈ visited
      · exact Or.inl hc
      · right
        refine bfsFold_stack_mono node p l _ a ?_
        rw [bfsStep]
        dsimp only []
        rw [if_pos]
        · split
          · exact List.mem_cons_self _ _
          · split
            · exact List.mem_cons_self _ _
            · exact List.mem_cons_self _ _
        · simp only [Bool.not_eq_true']
          exact Bool.eq_false_iff.2 (fun hm => hc ((contains_iff_mem _ _).1 hm))
    · rcases ih _ a h with h' | h'
      · rcases bfsStep_visited_sub node p net source sink visited s b a h' with
          h'' | h''
        · exact Or.inl h''
        · subst h''
          by_cases hc : a ∈ visited
          · exact Or.inl hc
          · right
            refine bfsFold_stack_mono node p l _ a ?_
            rw [bfsStep]
            dsimp only []
            rw [if_pos]
            · split
              · exact List.mem_cons_self _ _
              · split
                · exact List.mem_cons_self _ _
                · exact List.mem_cons_self _ _
            · simp only [Bool.not_eq_true']
              exact Bool.eq_false_iff.2
                (fun hm => hc ((contains_iff_mem _ _).1 hm))
      · exact Or.inr h'

/-- What the subnetwork builder guarantees for a node it has popped:
flow cleared, all incoming edges reset, all ancestors discovered. -/
def ProcessedBfs (net1 : BooleanNetwork) (vis : List Nat) (v : Nat) : Prop :=
  (net1.node_value v).flow = 0 ∧
  (∀ a ∈ net1.ancestors v, resetE net1 a v) ∧
  (∀ a ∈ net1.ancestors v, a ∈ vis)


/-- The master postcondition of `labelBfs`: everything on the stack ends up
processed, everything visited was initially visited or processed, visited
and sink only grow, flows are only cleared, resets are durable, and the
adjacency is untouched. -/
theorem labelBfs_processed (p : Nat) :
    ∀ (fuel : Nat) (net : BooleanNetwork) (source sink visited s : List Nat)
      (net1 : BooleanNetwork) (src snk vis : List Nat),
      labelBfs p fuel net source sink visited s = .ok (net1, src, snk, vis) →
      (∀ u, (net.edge_values.getD u []).length = (net.ancestors u).length) →
      (∀ v ∈ s, v < net.node_count) →
      (∀ v ∈ visited, v < net.node_count) →
      (∀ v a, a ∈ net.ancestors v → a < net.node_count) →
      net.node_count ≤ net.node_values.length →
      (∀ v ∈ s, ProcessedBfs net1 vis v) ∧
      (∀ v ∈ vis, v ∈ visited ∨ ProcessedBfs net1 vis v) ∧
      (∀ x ∈ visited, x ∈ vis) ∧
      (∀ x ∈ sink, x ∈ snk) ∧
      (∀ i, (net1.node_value i).flow = (net.node_value i).flow ∨
        (net1.node_value i).flow = 0) ∧
      (∀ x v, resetE net x v → resetE net1 x v) ∧
      net1.nodes = net.nodes := by
  intro fuel
  induction fuel with
  | zero =>
    intro net source sink visited s net1 src snk vis h
    rw [labelBfs] at h
    exact Res.noConfusion h
  | succ n ih =>
    intro net source sink visited s net1 src snk vis h hEA hsr hvr hAR hnvl
    match s with
    | [] =>
      rw [labelBfs] at h
      cases h
      exact ⟨fun v hv => absurd hv (List.not_mem_nil _),
        fun v hv => Or.inl hv, fun x hx => hx, fun x hx => hx,
        fun i => Or.inl rfl, fun x v hr => hr, rfl⟩
    | node :: s =>
      rw [labelBfs] at h
      have hnode_lt : node < net.node_count :=
        hsr node (List.mem_cons_self _ _)
      rcases hSTeq : bfsFold node p (net.ancestors node)
          (net.set_node_value node (fun nv => { nv with flow := 0 }),
            source, sink, visited, s) with
        ⟨net2, source2, sink2, visited2, s2⟩
      rw [hSTeq] at h
      obtain ⟨hfn, hfv, hfm, hfe⟩ := hSTeq ▸ bfsFold_struct node p
        (net.ancestors node)
        (net.set_node_value node (fun nv => { nv with flow := 0 }),
          source, sink, visited, s)
      have hfn' : net2.nodes = net.nodes := hfn
      have hvmono : ∀ x ∈ visited, x ∈ visited2 := fun x hx => by
        have := bfsFold_visited_mono node p (net.ancestors node)
          (net.set_node_value node (fun nv => { nv with flow := 0 }),
            source, sink, visited, s) x hx
        rw [hSTeq] at this
        exact this
      have hvsub : ∀ x ∈ visited2, x ∈ visited ∨ x ∈ net.ancestors node :=
        fun x hx =>
          bfsFold_visited_sub node p (net.ancestors node) _ x
            (by rw [hSTeq]; exact hx)
      have hmemv : ∀ a ∈ net.ancestors node, a ∈ visited2 := fun a ha => by
        have := bfsFold_mem_visited node p (net.ancestors node)
          (net.set_node_value node (fun nv => { nv with flow := 0 }),
            source, sink, visited, s) a ha
        rw [hSTeq] at this
        exact this
      have hsmono : ∀ x ∈ s, x ∈ s2 := fun x hx => by
        have := bfsFold_stack_mono node p (net.ancestors node)
          (net.set_node_value node (fun nv => { nv with flow := 0 }),
            source, sink, visited, s) x hx
        rw [hSTeq] at this
        exact this
      have hssub : ∀ x ∈ s2, x ∈ s ∨ x ∈ visited2 := fun x hx => by
        have := bfsFold_stack_sub node p (net.ancestors node)
          (net.set_node_value node (fun nv => { nv with flow := 0 }),
            source, sink, visited, s) x (by rw [hSTeq]; exact hx)
        rw [hSTeq] at this
        exact this
      have hkmono : ∀ x ∈ sink, x ∈ sink2 := fun x hx => by
        have := bfsFold_sink_mono node p (net.ancestors node)
          (net.set_node_value node (fun nv => { nv with flow := 0 }),
            source, sink, visited, s) x hx
        rw [hSTeq] at this
        exact this
      have heo : ∀ x y, y ≠ node → net2.edge_value x y = net.edge_value x y :=
        fun x y hy => by
          have := bfsFold_edge_other node p (net.ancestors node)
            (net.set_node_value node (fun nv => { nv with flow := 0 }),
              source, sink, visited, s) x y hy
          rw [hSTeq] at this
          exact this
      have hlen0 : (((net.set_node_value node
          (fun nv => { nv with flow := 0 })).edge_values).getD node
          []).length = ((net.set_node_value node
          (fun nv => { nv with flow := 0 })).ancestors node).length := hEA node
      have hei : ∀ x, resetE net x node → resetE net2 x node := fun x hx => by
        have := bfsFold_edge_inv node p (net.ancestors node)
          (net.set_node_value node (fun nv => { nv with flow := 0 }),
            source, sink, visited, s) x hlen0 hx
        rw [hSTeq] at this
        exact this
      have her : ∀ a ∈ net.ancestors node, resetE net2 a node := fun a ha => by
        have := bfsFold_edge_reset node p (net.ancestors node)
          (net.set_node_value node (fun nv => { nv with flow := 0 }),
            source, sink, visited, s) a ha hlen0
        rw [hSTeq] at this
        rcases this with h' | h'
        · exact h'
        · exact absurd ha h'
      have hsov : ∀ a ∈ net.ancestors node, a ∈ visited ∨ a ∈ s2 :=
        fun a ha => by
          have := bfsFold_mem_stack_or_visited node p (net.ancestors node)
            (net.set_node_value node (fun nv => { nv with flow := 0 }),
              source, sink, visited, s) a ha
          rw [hSTeq] at this
          exact this
      -- the flow of `node` is cleared in the fold state
      have hflow2 : ∀ i, net2.node_value i =
          (net.set_node_value node
            (fun nv => { nv with flow := 0 })).node_value i :=
        node_value_congr hfv
      have hfnode : (net2.node_value node).flow = 0 := by
        rw [hflow2 node, node_value_set_self_of_lt _ _ _
          (Nat.lt_of_lt_of_le hnode_lt hnvl)]
      have hfother : ∀ i, i ≠ node →
          (net2.node_value i).flow = (net.node_value i).flow := fun i hi => by
        rw [hflow2 i, BooleanNetwork.node_value_set_node_value_ne _ _ _ _ hi]
      -- recursive call
      have hcount : net2.node_count = net.node_count := by
        unfold BooleanNetwork.node_count
        rw [hfm]
        rfl
      have hanc2 : ∀ u, net2.ancestors u = net.ancestors u :=
        ancestors_eq_of_nodes_eq hfn'
      have hrange2 : ∀ v, (v ∈ visited2 ∨ v ∈ s2) → v < net.node_count := by
        intro v hv
        rcases hv with h' | h'
        · rcases hvsub v h' with h'' | h''
          · exact hvr v h''
          · exact hAR node v h''
        · rcases hssub v h' with h'' | h''
          · exact hsr v (List.mem_cons_of_mem _ h'')
          · rcases hvsub v h'' with h3 | h3
            · exact hvr v h3
            · exact hAR node v h3
      have hEA2 : ∀ u, (net2.edge_values.getD u []).length =
          (net2.ancestors u).length := by
        intro u
        rw [hfe u, hanc2 u]
        exact hEA u
      have hnvl2 : net2.node_count ≤ net2.node_values.length := by
        rw [hcount, hfv]
        unfold BooleanNetwork.set_node_value
        dsimp only []
        rw [List.length_set]
        exact hnvl
      obtain ⟨ihs, ihv, ihvm, ihsm, ihf, ihe, ihn⟩ :=
        ih net2 source2 sink2 visited2 s2 net1 src snk vis h hEA2
          (fun v hv => hcount ▸ hrange2 v (Or.inr hv))
          (fun v hv => hcount ▸ hrange2 v (Or.inl hv))
          (fun v a ha => hcount ▸ hAR v a (hanc2 v ▸ ha))
          hnvl2
      have hanc1 : ∀ u, net1.ancestors u = net.ancestors u :=
        ancestors_eq_of_nodes_eq (ihn.trans hfn')
      -- the popped node is processed
      have hproc_node : ProcessedBfs net1 vis node := by
        refine ⟨?_, ?_, ?_⟩
        · rcases ihf node with h' | h'
          · rw [h', hfnode]
          · exact h'
        · intro a ha
          rw [hanc1 node] at ha
          exact ihe a node (her a ha)
        · intro a ha
          rw [hanc1 node] at ha
          exact ihvm a (hmemv a ha)
      refine ⟨?_, ?_, ?_, ?_, ?_, ?_, ihn.trans hfn'⟩
      · intro v hv
        rcases List.mem_cons.1 hv with rfl | hv'
        · exact hproc_node
        · exact ihs v (hsmono v hv')
      · intro v hv
        rcases ihv v hv with h' | h'
        · rcases hvsub v h' with h'' | h''
          · exact Or.inl h''
          · rcases hsov v h'' with h3 | h3
            · exact Or.inl h3
            · exact Or.inr (ihs v h3)
        · exact Or.inr h'
      · intro x hx
        exact ihvm x (hvmono x hx)
      · intro x hx
        exact ihsm x (hkmono x hx)
      · intro i
        rcases ihf i with h' | h'
        · by_cases hi : i = node
          · subst hi
            rw [h', hfnode]
            exact Or.inr rfl
          · rw [h', hfother i hi]
            exact Or.inl rfl
        · exact Or.inr h'
      · intro x v hr
        by_cases hv : v = node
        · subst hv
          exact ihe x v (hei x hr)
        · refine ihe x v ?_
          rw [resetE, heo x v hv]
          exact hr

/-! ### The two residual searches explore the same successor relation -/

/-- The successor relation explored by the DFS of `Flow::step`. -/
def stepSucc (net : BooleanNetwork) (fl : FlowEngine) (p d : Position) :
    Prop :=
  (d ∈ FlowEngine.descendents net fl p ∧
    0 < (FlowEngine.flow_cap net fl p d).2) ∨
  (d ∈ FlowEngine.ancestors net fl p ∧
    0 < (FlowEngine.flow_cap net fl d p).1)

/-- The successor relation explored by the search of `Flow::cut`. -/
def cutSucc (net : BooleanNetwork) (fl : FlowEngine) (p d : Position) :
    Prop :=
  (d ∈ FlowEngine.descendents net fl p ∧
    FlowEngine.is_undirected_path net fl p d .Descendent = true) ∨
  (d ∈ FlowEngine.ancestors net fl p ∧
    FlowEngine.is_undirected_path net fl p d .Ancestor = true)

theorem pushChildren_complete (vis : List Position) (p : Position)
    (C : Position → Bool) :
    ∀ (l : List Position)
      (st : List (Position × Position) × List Position) (d : Position),
      d ∈ l → vis.contains d = false → C d = true →
      d ∈ (FlowEngine.pushChildren vis p C l st).2 := by
  intro l
  induction l with
  | nil => intro st d hd; exact absurd hd (List.not_mem_nil _)
  | cons a l ih =>
    intro st d hd hnc hC
    rw [pushChildren_cons]
    rcases List.mem_cons.1 hd with rfl | hd'
    · rw [if_neg (by rw [hnc]; exact Bool.false_ne_true), if_pos hC]
      exact pushChildren_mono _ _ _ _ _ d (List.mem_cons_self _ _)
    · exact ih _ d hd' hnc hC

theorem pushChildren_stack_sub (vis : List Position) (p : Position)
    (C : Position → Bool) :
    ∀ (l : List Position)
      (st : List (Position × Position) × List Position) (x : Position),
      x ∈ (FlowEngine.pushChildren vis p C l st).2 →
      x ∈ st.2 ∨ (x ∈ l ∧ vis.contains x = false ∧ C x = true) := by
  intro l
  induction l with
  | nil => intro st x hx; exact Or.inl hx
  | cons a l ih =>
    intro st x hx
    rw [pushChildren_cons] at hx
    rcases ih _ x hx with h | ⟨h1, h2⟩
    · split at h
      · exact Or.inl h
      · split at h
        · rcases List.mem_cons.1 h with rfl | h'
          · rename_i hnc hC
            exact Or.inr ⟨List.mem_cons_self _ _,
              Bool.eq_false_iff.2 hnc, hC⟩
          · exact Or.inl h'
        · exact Or.inl h
    · exact Or.inr ⟨List.mem_cons_of_mem _ h1, h2⟩

/-- A completed DFS's visited set is closed under `stepSucc`. -/
theorem stepDfs_closed {net : BooleanNetwork} {fl : FlowEngine} :
    ∀ (fuel : Nat) (visited : List Position)
      (path : List (Position × Position)) (s visF : List Position)
      (PF : List (Position × Position)),
      FlowEngine.stepDfs net fl fuel visited path s = .ok (visF, PF) →
      (∀ x ∈ visited, ∀ d, stepSucc net fl x d → d ∈ visited ∨ d ∈ s) →
      ∀ x ∈ visF, ∀ d, stepSucc net fl x d → d ∈ visF := by
  intro fuel
  induction fuel with
  | zero =>
    intro visited path s visF PF h
    rw [FlowEngine.stepDfs] at h
    exact Res.noConfusion h
  | succ n ih =>
    intro visited path s visF PF h hinv
    match s with
    | [] =>
      rw [FlowEngine.stepDfs] at h
      cases h
      intro x hx d hd
      rcases hinv x hx d hd with h' | h'
      · exact h'
      · exact absurd h' (List.not_mem_nil _)
    | p :: s =>
      rw [FlowEngine.stepDfs] at h
      split at h
      · rename_i hc
        refine ih visited path s visF PF h ?_
        intro x hx d hd
        rcases hinv x hx d hd with h' | h'
        · exact Or.inl h'
        · rcases List.mem_cons.1 h' with rfl | h''
          · exact Or.inl ((contains_iff_mem _ _).1 hc)
          · exact Or.inr h''
      · rename_i hc
        dsimp only [] at h
        refine ih _ _ _ _ _ h ?_
        intro x hx d hd
        rcases List.mem_append.1 hx with hxv | hxp
        · rcases hinv x hxv d hd with h' | h'
          · exact Or.inl (List.mem_append_left _ h')
          · rcases List.mem_cons.1 h' with rfl | h''
            · exact Or.inl (List.mem_append_right _ (List.mem_singleton.2 rfl))
            · right
              exact pushChildren_mono _ _ _ _ _ d
                (pushChildren_mono _ _ _ _ _ d h'')
        · have hxp' : x = p := List.mem_singleton.1 hxp
          subst hxp'
          by_cases hdv : d ∈ visited ++ [x]
          · exact Or.inl hdv
          · right
            have hdc : (visited ++ [x]).contains d = false :=
              Bool.eq_false_iff.2
                (fun hm => hdv ((contains_iff_mem _ _).1 hm))
            rcases hd with ⟨hmem, hcap⟩ | ⟨hmem, hflo⟩
            · exact pushChildren_mono _ _ _ _ _ d
                (pushChildren_complete _ _ _ _ _ d hmem hdc
                  (decide_eq_true hcap))
            · exact pushChildren_complete _ _ _ _ _ d hmem hdc
                (decide_eq_true hflo)

/-- A completed DFS's visited set is contained in any `stepSucc`-closed set
containing the initial visited list and stack. -/
theorem stepDfs_bounded {net : BooleanNetwork} {fl : FlowEngine}
    (W : List Position)
    (hW : ∀ x ∈ W, ∀ d, stepSucc net fl x d → d ∈ W) :
    ∀ (fuel : Nat) (visited : List Position)
      (path : List (Position × Position)) (s visF : List Position)
      (PF : List (Position × Position)),
      FlowEngine.stepDfs net fl fuel visited path s = .ok (visF, PF) →
      (∀ x ∈ visited, x ∈ W) → (∀ x ∈ s, x ∈ W) →
      ∀ x ∈ visF, x ∈ W := by
  intro fuel
  induction fuel with
  | zero =>
    intro visited path s visF PF h
    rw [FlowEngine.stepDfs] at h
    exact Res.noConfusion h
  | succ n ih =>
    intro visited path s visF PF h hv hs
    match s with
    | [] =>
      rw [FlowEngine.stepDfs] at h
      cases h
      exact hv
    | p :: s =>
      rw [FlowEngine.stepDfs] at h
      split at h
      · exact ih visited path s visF PF h hv
          (fun x hx => hs x (List.mem_cons_of_mem _ hx))
      · dsimp only [] at h
        have hpW : p ∈ W := hs p (List.mem_cons_self _ _)
        refine ih _ _ _ _ _ h ?_ ?_
        · intro x hx
          rcases List.mem_append.1 hx with h' | h'
          · exact hv x h'
          · exact (List.mem_singleton.1 h') ▸ hpW
        · intro x hx
          rcases pushChildren_stack_sub _ _ _ _ _ x hx with h' | ⟨h1, _, h2⟩
          · rcases pushChildren_stack_sub _ _ _ _ _ x h' with
              h'' | ⟨h3, _, h4⟩
            · exact hs x (List.mem_cons_of_mem _ h'')
            · exact hW p hpW x (Or.inl ⟨h3, of_decide_eq_true h4⟩)
          · exact hW p hpW x (Or.inr ⟨h1, of_decide_eq_true h2⟩)

/-- A completed DFS visits everything initially visited or stacked. -/
theorem stepDfs_absorb {net : BooleanNetwork} {fl : FlowEngine} :
    ∀ (fuel : Nat) (visited : List Position)
      (path : List (Position × Position)) (s visF : List Position)
      (PF : List (Position × Position)),
      FlowEngine.stepDfs net fl fuel visited path s = .ok (visF, PF) →
      (∀ x ∈ visited, x ∈ visF) ∧ (∀ x ∈ s, x ∈ visF) := by
  intro fuel
  induction fuel with
  | zero =>
    intro visited path s visF PF h
    rw [FlowEngine.stepDfs] at h
    exact Res.noConfusion h
  | succ n ih =>
    intro visited path s visF PF h
    match s with
    | [] =>
      rw [FlowEngine.stepDfs] at h
      cases h
      exact ⟨fun x hx => hx, fun x hx => absurd hx (List.not_mem_nil _)⟩
    | p :: s =>
      rw [FlowEngine.stepDfs] at h
      split at h
      · rename_i hc
        obtain ⟨h1, h2⟩ := ih visited path s visF PF h
        refine ⟨h1, fun x hx => ?_⟩
        rcases List.mem_cons.1 hx with rfl | h'
        · exact h1 x ((contains_iff_mem _ _).1 hc)
        · exact h2 x h'
      · dsimp only [] at h
        obtain ⟨h1, h2⟩ := ih _ _ _ _ _ h
        refine ⟨fun x hx => h1 x (List.mem_append_left _ hx), fun x hx => ?_⟩
        rcases List.mem_cons.1 hx with rfl | h'
        · exact h1 x (List.mem_append_right _ (List.mem_singleton.2 rfl))
        · exact h2 x (pushChildren_mono _ _ _ _ _ x
            (pushChildren_mono _ _ _ _ _ x h'))

theorem pushUndirected_mono (net : BooleanNetwork) (fl : FlowEngine)
    (n : Position) (dir : NetworkEdgeDirection) :
    ∀ (l acc : List Position) (x : Position), x ∈ acc →
      x ∈ FlowEngine.pushUndirected net fl n dir l acc := by
  intro l
  induction l with
  | nil => intro acc x hx; exact hx
  | cons d l ih =>
    intro acc x hx
    rw [FlowEngine.pushUndirected, List.foldl_cons]
    refine ih _ x ?_
    split
    · exact List.mem_cons_of_mem _ hx
    · exact hx

theorem pushUndirected_complete (net : BooleanNetwork) (fl : FlowEngine)
    (n : Position) (dir : NetworkEdgeDirection) :
    ∀ (l acc : List Position) (d : Position), d ∈ l →
      FlowEngine.is_undirected_path net fl n d dir = true →
      d ∈ FlowEngine.pushUndirected net fl n dir l acc := by
  intro l
  induction l with
  | nil => intro acc d hd; exact absurd hd (List.not_mem_nil _)
  | cons a l ih =>
    intro acc d hd hp
    rw [FlowEngine.pushUndirected, List.foldl_cons]
    rcases List.mem_cons.1 hd with rfl | hd'
    · rw [if_pos hp]
      exact pushUndirected_mono net fl n dir l _ d (List.mem_cons_self _ _)
    · exact ih _ d hd' hp

theorem pushUndirected_sub (net : BooleanNetwork) (fl : FlowEngine)
    (n : Position) (dir : NetworkEdgeDirection) :
    ∀ (l acc : List Position) (x : Position),
      x ∈ FlowEngine.pushUndirected net fl n dir l acc →
      x ∈ acc ∨ (x ∈ l ∧
        FlowEngine.is_undirected_path net fl n x dir = true) := by
  intro l
  induction l with
  | nil => intro acc x hx; exact Or.inl hx
  | cons a l ih =>
    intro acc x hx
    rw [FlowEngine.pushUndirected, List.foldl_cons] at hx
    rcases ih _ x hx with h | ⟨h1, h2⟩
    · split at h
      · rcases List.mem_cons.1 h with rfl | h'
        · rename_i hP
          exact Or.inr ⟨List.mem_cons_self _ _, hP⟩
        · exact Or.inl h'
      · exact Or.inl h
    · exact Or.inr ⟨List.mem_cons_of_mem _ h1, h2⟩

/-- Marking a newly visited position keeps the `reachable` list
characterising exactly the nodes with a visited position. -/
theorem markReached_iff (reachable : List Nat) (visited : List Position)
    (p : Position)
    (hr : ∀ ni : Nat, ni ∈ reachable ↔
      (Position.BeforeNode ni ∈ visited ∨ Position.AfterNode ni ∈ visited)) :
    ∀ ni : Nat, ni ∈ FlowEngine.markReached reachable p ↔
      (Position.BeforeNode ni ∈ visited ++ [p] ∨
        Position.AfterNode ni ∈ visited ++ [p]) := by
  intro ni
  rcases p with _ | _ | m | m
  · show ni ∈ reachable ↔ _
    constructor
    · intro hni
      rcases (hr ni).1 hni with h' | h'
      · exact Or.inl (List.mem_append_left _ h')
      · exact Or.inr (List.mem_append_left _ h')
    · intro hni
      refine (hr ni).2 ?_
      rcases hni with h' | h' <;> rcases List.mem_append.1 h' with h'' | h''
      · exact Or.inl h''
      · exact Position.noConfusion (List.mem_singleton.1 h'')
      · exact Or.inr h''
      · exact Position.noConfusion (List.mem_singleton.1 h'')
  · show ni ∈ reachable ↔ _
    constructor
    · intro hni
      rcases (hr ni).1 hni with h' | h'
      · exact Or.inl (List.mem_append_left _ h')
      · exact Or.inr (List.mem_append_left _ h')
    · intro hni
      refine (hr ni).2 ?_
      rcases hni with h' | h' <;> rcases List.mem_append.1 h' with h'' | h''
      · exact Or.inl h''
      · exact Position.noConfusion (List.mem_singleton.1 h'')
      · exact Or.inr h''
      · exact Position.noConfusion (List.mem_singleton.1 h'')
  · rw [FlowEngine.markReached]
    by_cases hcm : reachable.contains m
    · rw [if_pos hcm]
      constructor
      · intro hni
        rcases (hr ni).1 hni with h' | h'
        · exact Or.inl (List.mem_append_left _ h')
        · exact Or.inr (List.mem_append_left _ h')
      · intro hni
        rcases hni with h' | h' <;> rcases List.mem_append.1 h' with h'' | h''
        · exact (hr ni).2 (Or.inl h'')
        · have : ni = m :=
            Position.BeforeNode.inj (List.mem_singleton.1 h'')
          subst this
          exact (contains_iff_mem _ _).1 hcm
        · exact (hr ni).2 (Or.inr h'')
        · exact Position.noConfusion (List.mem_singleton.1 h'')
    · rw [if_neg hcm]
      constructor
      · intro hni
        rcases List.mem_append.1 hni with h' | h'
        · rcases (hr ni).1 h' with h'' | h''
          · exact Or.inl (List.mem_append_left _ h'')
          · exact Or.inr (List.mem_append_left _ h'')
        · have : ni = m := List.mem_singleton.1 h'
          subst this
          exact Or.inl (List.mem_append_right _ (List.mem_singleton.2 rfl))
      · intro hni
        rcases hni with h' | h' <;> rcases List.mem_append.1 h' with h'' | h''
        · exact List.mem_append_left _ ((hr ni).2 (Or.inl h''))
        · have : ni = m :=
            Position.BeforeNode.inj (List.mem_singleton.1 h'')
          subst this
          exact List.mem_append_right _ (List.mem_singleton.2 rfl)
        · exact List.mem_append_left _ ((hr ni).2 (Or.inr h''))
        · exact Position.noConfusion (List.mem_singleton.1 h'')
  · rw [FlowEngine.markReached]
    by_cases hcm : reachable.contains m
    · rw [if_pos hcm]
      constructor
      · intro hni
        rcases (hr ni).1 hni with h' | h'
        · exact Or.inl (List.mem_append_left _ h')
        · exact Or.inr (List.mem_append_left _ h')
      · intro hni
        rcases hni with h' | h' <;> rcases List.mem_append.1 h' with h'' | h''
        · exact (hr ni).2 (Or.inl h'')
        · exact Position.noConfusion (List.mem_singleton.1 h'')
        · exact (hr ni).2 (Or.inr h'')
        · have : ni = m :=
            Position.AfterNode.inj (List.mem_singleton.1 h'')
          subst this
          exact (contains_iff_mem _ _).1 hcm
    · rw [if_neg hcm]
      constructor
      · intro hni
        rcases List.mem_append.1 hni with h' | h'
        · rcases (hr ni).1 h' with h'' | h''
          · exact Or.inl (List.mem_append_left _ h'')
          · exact Or.inr (List.mem_append_left _ h'')
        · have : ni = m := List.mem_singleton.1 h'
          subst this
          exact Or.inr (List.mem_append_right _ (List.mem_singleton.2 rfl))
      · intro hni
        rcases hni with h' | h' <;> rcases List.mem_append.1 h' with h'' | h''
        · exact List.mem_append_left _ ((hr ni).2 (Or.inl h''))
        · exact Position.noConfusion (List.mem_singleton.1 h'')
        · exact List.mem_append_left _ ((hr ni).2 (Or.inr h''))
        · have : ni = m :=
            Position.AfterNode.inj (List.mem_singleton.1 h'')
          subst this
          exact List.mem_append_right _ (List.mem_singleton.2 rfl)

/-- The visited set of a completed `cut` search is closed under
`cutSucc`, bounded by any closed superset, absorbs its worklist, and its
`reachable` output names exactly the nodes with a visited position.  The
search also never consults or changes the network or engine state. -/
theorem cutSearch_post {net : BooleanNetwork} {fl : FlowEngine} :
    ∀ (fuel : Nat) (reachable : List Nat) (visited s : List Position)
      (reach : List Nat),
      FlowEngine.cutSearch net fl fuel reachable visited s = .ok reach →
      ∃ visF : List Position,
        (∀ x ∈ visited, x ∈ visF) ∧ (∀ x ∈ s, x ∈ visF) ∧
        ((∀ x ∈ visited, ∀ d, cutSucc net fl x d → d ∈ visited ∨ d ∈ s) →
          ∀ x ∈ visF, ∀ d, cutSucc net fl x d → d ∈ visF) ∧
        (∀ (W : List Position),
          (∀ x ∈ W, ∀ d, cutSucc net fl x d → d ∈ W) →
          (∀ x ∈ visited, x ∈ W) → (∀ x ∈ s, x ∈ W) →
          ∀ x ∈ visF, x ∈ W) ∧
        ((∀ ni : Nat, ni ∈ reachable ↔
            (Position.BeforeNode ni ∈ visited ∨
              Position.AfterNode ni ∈ visited)) →
          ∀ ni : Nat, ni ∈ reach ↔
            (Position.BeforeNode ni ∈ visF ∨
              Position.AfterNode ni ∈ visF)) := by
  intro fuel
  induction fuel with
  | zero =>
    intro reachable visited s reach h
    rw [FlowEngine.cutSearch] at h
    exact Res.noConfusion h
  | succ n ih =>
    intro reachable visited s reach h
    match s with
    | [] =>
      rw [FlowEngine.cutSearch] at h
      cases h
      refine ⟨visited, fun x hx => hx,
        fun x hx => absurd hx (List.not_mem_nil _), ?_, ?_, ?_⟩
      · intro hinv x hx d hd
        rcases hinv x hx d hd with h' | h'
        · exact h'
        · exact absurd h' (List.not_mem_nil _)
      · intro W hW hv _ x hx
        exact hv x hx
      · intro hr ni
        exact hr ni
    | p :: s =>
      rw [FlowEngine.cutSearch] at h
      split at h
      · rename_i hc
        obtain ⟨visF, ha1, ha2, hcl, hbd, hrc⟩ :=
          ih reachable visited s reach h
        refine ⟨visF, ha1, ?_, ?_, ?_, hrc⟩
        · intro x hx
          rcases List.mem_cons.1 hx with rfl | h'
          · exact ha1 x ((contains_iff_mem _ _).1 hc)
          · exact ha2 x h'
        · intro hinv
          refine hcl ?_
          intro x hx d hd
          rcases hinv x hx d hd with h' | h'
          · exact Or.inl h'
          · rcases List.mem_cons.1 h' with rfl | h''
            · exact Or.inl ((contains_iff_mem _ _).1 hc)
            · exact Or.inr h''
        · intro W hW hv hs
          exact hbd W hW hv (fun x hx => hs x (List.mem_cons_of_mem _ hx))
      · rename_i hc
        dsimp only [] at h
        obtain ⟨visF, ha1, ha2, hcl, hbd, hrc⟩ := ih _ _ _ _ h
        have hvm : ∀ x ∈ visited, x ∈ visF := fun x hx =>
          ha1 x (List.mem_append_left _ hx)
        have hpm : p ∈ visF :=
          ha1 p (List.mem_append_right _ (List.mem_singleton.2 rfl))
        have hsm : ∀ x ∈ s, x ∈ visF := fun x hx =>
          ha2 x (pushUndirected_mono _ _ _ _ _ _ x
            (pushUndirected_mono _ _ _ _ _ _ x hx))
        refine ⟨visF, hvm, ?_, ?_, ?_, ?_⟩
        · intro x hx
          rcases List.mem_cons.1 hx with rfl | h'
          · exact hpm
          · exact hsm x h'
        · intro hinv
          refine hcl ?_
          intro x hx d hd
          rcases List.mem_append.1 hx with hxv | hxp
          · rcases hinv x hxv d hd with h' | h'
            · exact Or.inl (List.mem_append_left _ h')
            · rcases List.mem_cons.1 h' with rfl | h''
              · exact Or.inl
                  (List.mem_append_right _ (List.mem_singleton.2 rfl))
              · exact Or.inr (pushUndirected_mono _ _ _ _ _ _ d
                  (pushUndirected_mono _ _ _ _ _ _ d h''))
          · have hxp' : x = p := List.mem_singleton.1 hxp
            subst hxp'
            right
            rcases hd with ⟨hmem, hpath⟩ | ⟨hmem, hpath⟩
            · exact pushUndirected_mono _ _ _ _ _ _ d
                (pushUndirected_complete _ _ _ _ _ _ d hmem hpath)
            · exact pushUndirected_complete _ _ _ _ _ _ d hmem hpath
        · intro W hW hv hs
          refine hbd W hW ?_ ?_
          · intro x hx
            rcases List.mem_append.1 hx with h' | h'
            · exact hv x h'
            · exact (List.mem_singleton.1 h') ▸ hs p (List.mem_cons_self _ _)
          · intro x hx
            have hpW : p ∈ W := hs p (List.mem_cons_self _ _)
            rcases pushUndirected_sub _ _ _ _ _ _ x hx with h' | ⟨h1, h2⟩
            · rcases pushUndirected_sub _ _ _ _ _ _ x h' with h'' | ⟨h3, h4⟩
              · exact hs x (List.mem_cons_of_mem _ h'')
              · exact hW p hpW x (Or.inl ⟨h3, h4⟩)
            · exact hW p hpW x (Or.inr ⟨h1, h2⟩)
        · intro hr
          exact hrc (markReached_iff reachable visited p hr)

theorem bne_zero_iff (x : Nat) : (x != 0) = true ↔ 0 < x := by
  simp [Nat.pos_iff_ne_zero]

/-- On the engine's own adjacency, the undirected-path test of `Flow::cut`
asks exactly the residual conditions of the DFS in `Flow::step`. -/
theorem undirected_desc_iff (net : BooleanNetwork) (fl : FlowEngine)
    (hslD : ∀ ni, ni ∉ net.descendents ni) (p d : Position)
    (hd : d ∈ FlowEngine.descendents net fl p) :
    FlowEngine.is_undirected_path net fl p d .Descendent = true ↔
      0 < (FlowEngine.flow_cap net fl p d).2 := by
  rcases p with _ | _ | n | n
  · simp only [FlowEngine.descendents, List.mem_map] at hd
    obtain ⟨e, _, he⟩ := hd
    rw [← he]
    rw [FlowEngine.is_undirected_path]
    exact bne_zero_iff _
  · simp only [FlowEngine.descendents] at hd
    exact absurd hd (List.not_mem_nil _)
  · simp only [FlowEngine.descendents, List.mem_singleton] at hd
    subst hd
    rw [FlowEngine.is_undirected_path]
    rw [if_pos (beq_self_eq_true n)]
    exact bne_zero_iff _
  · rw [FlowEngine.descendents] at hd
    split at hd
    · have hds : d = .Sink := List.mem_singleton.1 hd
      subst hds
      rw [FlowEngine.is_undirected_path]
      exact bne_zero_iff _
    · simp only [List.mem_map] at hd
      obtain ⟨w, hw, hwe⟩ := hd
      by_cases hwn : w == fl.node
      · rw [if_pos hwn] at hwe
        subst hwe
        rw [FlowEngine.is_undirected_path]
        exact bne_zero_iff _
      · rw [if_neg hwn] at hwe
        subst hwe
        rw [FlowEngine.is_undirected_path]
        rw [if_neg]
        · exact bne_zero_iff _
        · intro hbe
          have : n = w := by simpa using hbe
          exact hslD n (this ▸ hw)

theorem undirected_anc_iff (net : BooleanNetwork) (fl : FlowEngine)
    (hslA : ∀ ni, ni ∉ net.ancestors ni) (p d : Position)
    (hd : d ∈ FlowEngine.ancestors net fl p) :
    FlowEngine.is_undirected_path net fl p d .Ancestor = true ↔
      0 < (FlowEngine.flow_cap net fl d p).1 := by
  rcases p with _ | _ | n | n
  · simp only [FlowEngine.ancestors] at hd
    exact absurd hd (List.not_mem_nil _)
  · simp only [FlowEngine.ancestors, List.mem_map] at hd
    obtain ⟨e, _, he⟩ := hd
    rw [← he]
    rw [FlowEngine.is_undirected_path]
    exact bne_zero_iff _
  · simp only [FlowEngine.ancestors, List.mem_map] at hd
    obtain ⟨a, ha, hae⟩ := hd
    rw [← hae]
    rw [FlowEngine.is_undirected_path]
    rw [if_neg]
    · exact bne_zero_iff _
    · intro hbe
      have : n = a := by simpa using hbe
      exact hslA n (this ▸ ha)
  · simp only [FlowEngine.ancestors, List.mem_singleton] at hd
    subst hd
    rw [FlowEngine.is_undirected_path]
    rw [if_pos (beq_self_eq_true n)]
    exact bne_zero_iff _

theorem cutSucc_iff_stepSucc (net : BooleanNetwork) (fl : FlowEngine)
    (hslA : ∀ ni, ni ∉ net.ancestors ni)
    (hslD : ∀ ni, ni ∉ net.descendents ni) (p d : Position) :
    cutSucc net fl p d ↔ stepSucc net fl p d := by
  constructor
  · intro h
    rcases h with ⟨hm, hp⟩ | ⟨hm, hp⟩
    · exact Or.inl ⟨hm, (undirected_desc_iff net fl hslD p d hm).1 hp⟩
    · exact Or.inr ⟨hm, (undirected_anc_iff net fl hslA p d hm).1 hp⟩
  · intro h
    rcases h with ⟨hm, hp⟩ | ⟨hm, hp⟩
    · exact Or.inl ⟨hm, (undirected_desc_iff net fl hslD p d hm).2 hp⟩
    · exact Or.inr ⟨hm, (undirected_anc_iff net fl hslA p d hm).2 hp⟩

/-! ### Two more DFS postconditions: recorded conditions and rootedness -/

theorem pushChildren_lookup_isSome_mono (vis : List Position) (p : Position)
    (C : Position → Bool) :
    ∀ (l : List Position)
      (st : List (Position × Position) × List Position) (q : Position),
      (st.1.lookup q).isSome = true →
      ((FlowEngine.pushChildren vis p C l st).1.lookup q).isSome = true := by
  intro l
  induction l with
  | nil => intro st q hq; exact hq
  | cons a l ih =>
    intro st q hq
    rw [pushChildren_cons]
    refine ih _ q ?_
    split
    · exact hq
    · split
      · by_cases hqa : q = a
        · subst hqa
          simp [List.lookup]
        · rw [List.lookup, beq_false_of_ne hqa]
          exact hq
      · exact hq

theorem pushChildren_lookup_pushed (vis : List Position) (p : Position)
    (C : Position → Bool) :
    ∀ (l : List Position)
      (st : List (Position × Position) × List Position) (d : Position),
      d ∈ l → vis.contains d = false → C d = true →
      (((FlowEngine.pushChildren vis p C l st).1.lookup d)).isSome = true := by
  intro l
  induction l with
  | nil => intro st d hd; exact absurd hd (List.not_mem_nil _)
  | cons a l ih =>
    intro st d hd hnc hC
    rw [pushChildren_cons]
    rcases List.mem_cons.1 hd with rfl | hd'
    · rw [if_neg (by rw [hnc]; exact Bool.false_ne_true), if_pos hC]
      refine pushChildren_lookup_isSome_mono _ _ _ _ _ d ?_
      simp [List.lookup]
    · exact ih _ d hd' hnc hC

/-- Every parent-map entry of a completed DFS records a residual edge that
was present at the (unchanged) search state. -/
theorem stepDfs_ok_conds {net : BooleanNetwork} {fl : FlowEngine} :
    ∀ (fuel : Nat) (visited : List Position)
      (path : List (Position × Position)) (s visF : List Position)
      (PF : List (Position × Position)),
      FlowEngine.stepDfs net fl fuel visited path s = .ok (visF, PF) →
      (∀ q r, path.lookup q = some r → stepSucc net fl r q) →
      ∀ q r, PF.lookup q = some r → stepSucc net fl r q := by
  intro fuel
  induction fuel with
  | zero =>
    intro visited path s visF PF h
    rw [FlowEngine.stepDfs] at h
    exact Res.noConfusion h
  | succ n ih =>
    intro visited path s visF PF h hinv
    match s with
    | [] =>
      rw [FlowEngine.stepDfs] at h
      cases h
      exact hinv
    | p :: s =>
      rw [FlowEngine.stepDfs] at h
      split at h
      · exact ih visited path s visF PF h hinv
      · dsimp only [] at h
        refine ih _ _ _ _ _ h ?_
        intro q r hqr
        rcases pushChildren_lookup _ _ _ _ _ q r hqr with
          ⟨hr, _, hC, hm, _⟩ | hold2
        · exact hr ▸ Or.inr ⟨hm, of_decide_eq_true hC⟩
        · rcases pushChildren_lookup _ _ _ _ _ q r hold2 with
            ⟨hr, _, hC, hm, _⟩ | hold1
          · exact hr ▸ Or.inl ⟨hm, of_decide_eq_true hC⟩
          · exact hinv q r hold1

/-- In a completed DFS every visited position other than `Source` has a
recorded parent. -/
theorem stepDfs_ok_rooted {net : BooleanNetwork} {fl : FlowEngine} :
    ∀ (fuel : Nat) (visited : List Position)
      (path : List (Position × Position)) (s visF : List Position)
      (PF : List (Position × Position)),
      FlowEngine.stepDfs net fl fuel visited path s = .ok (visF, PF) →
      (∀ q, q ∈ visited ∨ q ∈ s →
        q = .Source ∨ (path.lookup q).isSome = true) →
      ∀ q ∈ visF, q = .Source ∨ (PF.lookup q).isSome = true := by
  intro fuel
  induction fuel with
  | zero =>
    intro visited path s visF PF h
    rw [FlowEngine.stepDfs] at h
    exact Res.noConfusion h
  | succ n ih =>
    intro visited path s visF PF h hinv
    match s with
    | [] =>
      rw [FlowEngine.stepDfs] at h
      cases h
      exact fun q hq => hinv q (Or.inl hq)
    | p :: s =>
      rw [FlowEngine.stepDfs] at h
      split at h
      · refine ih visited path s visF PF h ?_
        intro q hq
        rcases hq with h' | h'
        · exact hinv q (Or.inl h')
        · exact hinv q (Or.inr (List.mem_cons_of_mem _ h'))
      · dsimp only [] at h
        refine ih _ _ _ _ _ h ?_
        intro q hq
        have hsome : ∀ q, (path.lookup q).isSome = true →
            (((FlowEngine.pushChildren (visited ++ [p]) p
              (fun a => 0 < (FlowEngine.flow_cap net fl a p).1)
              (FlowEngine.ancestors net fl p)
              (FlowEngine.pushChildren (visited ++ [p]) p
                (fun d => 0 < (FlowEngine.flow_cap net fl p d).2)
                (FlowEngine.descendents net fl p) (path, s))).1.lookup
                  q).isSome) = true := by
          intro q hq
          exact pushChildren_lookup_isSome_mono _ _ _ _ _ q
            (pushChildren_lookup_isSome_mono _ _ _ _ _ q hq)
        rcases hq with h' | h'
        · rcases List.mem_append.1 h' with h'' | h''
          · rcases hinv q (Or.inl h'') with h3 | h3
            · exact Or.inl h3
            · exact Or.inr (hsome q h3)
          · have : q = p := List.mem_singleton.1 h''
            subst this
            rcases hinv q (Or.inr (List.mem_cons_self _ _)) with h3 | h3
            · exact Or.inl h3
            · exact Or.inr (hsome q h3)
        · rcases pushChildren_stack_sub _ _ _ _ _ q h' with
            h'' | ⟨h1, h2, h3⟩
          · rcases pushChildren_stack_sub _ _ _ _ _ q h'' with
              h4 | ⟨h5, h6, h7⟩
            · rcases hinv q (Or.inr (List.mem_cons_of_mem _ h4)) with
                h8 | h8
              · exact Or.inl h8
              · exact Or.inr (hsome q h8)
            · exact Or.inr (pushChildren_lookup_isSome_mono _ _ _ _ _ q
                (pushChildren_lookup_pushed _ _ _ _ _ q h5 h6 h7))
          · exact Or.inr (pushChildren_lookup_pushed _ _ _ _ _ q h1 h2 h3)

/-! ### §17 C1: the signed flow across a position cut -/

theorem sum_map_congr {α : Type} (f g : α → Int) :
    ∀ (l : List α), (∀ x ∈ l, g x = f x) → (l.map g).sum = (l.map f).sum := by
  intro l
  induction l with
  | nil => intro _; rfl
  | cons a l ih =>
    intro h
    simp only [List.map_cons, List.sum_cons]
    rw [h a (List.mem_cons_self _ _),
      ih (fun x hx => h x (List.mem_cons_of_mem _ hx))]

theorem sum_map_update {α : Type} (f g : α → Int) :
    ∀ (l : List α) (n : α), l.Nodup → n ∈ l →
      (∀ x ∈ l, x ≠ n → g x = f x) →
      (l.map g).sum = (l.map f).sum + (g n - f n) := by
  intro l
  induction l with
  | nil => intro n _ h; exact absurd h (List.not_mem_nil _)
  | cons a l ih =>
    intro n hnd hm hoth
    rcases List.mem_cons.1 hm with rfl | hm'
    · simp only [List.map_cons, List.sum_cons]
      rw [sum_map_congr f g l (fun x hx => hoth x (List.mem_cons_of_mem _ hx)
        (fun he => (List.nodup_cons.1 hnd).1 (he ▸ hx)))]
      ring
    · have hna : a ≠ n := fun h => (List.nodup_cons.1 hnd).1 (h ▸ hm')
      simp only [List.map_cons, List.sum_cons]
      rw [hoth a (List.mem_cons_self _ _) hna,
        ih n (List.nodup_cons.1 hnd).2 hm'
          (fun x hx hxn => hoth x (List.mem_cons_of_mem _ hx) hxn)]
      ring

theorem sum_map_nonneg {α : Type} (f : α → Int) :
    ∀ (l : List α), (∀ x ∈ l, 0 ≤ f x) → 0 ≤ (l.map f).sum := by
  intro l
  induction l with
  | nil => intro _; exact le_refl 0
  | cons a l ih =>
    intro h
    simp only [List.map_cons, List.sum_cons]
    have h1 := h a (List.mem_cons_self _ _)
    have h2 := ih (fun x hx => h x (List.mem_cons_of_mem _ hx))
    omega

/-- Signed sum of the source-leg flows across the cut `χ`. -/
def srcSum (χ : Position → Int) (legs : List (Nat × Nat)) : Int :=
  (legs.map (fun e => (e.2 : Int) * (χ .Source - χ (.BeforeNode e.1)))).sum

/-- Signed sum of the sink-leg flows across the cut `χ`. -/
def snkSum (χ : Position → Int) (legs : List (Nat × Nat)) : Int :=
  (legs.map (fun e => (e.2 : Int) * (χ (.AfterNode e.1) - χ .Sink))).sum

/-- Signed sum of the node-split flows across the cut `χ`. -/
def splitSum (χ : Position → Int) (net : BooleanNetwork) : Int :=
  ((List.range net.node_count).map (fun n =>
    (((net.node_value n).flow : Int)) *
      (χ (.BeforeNode n) - χ (.AfterNode n)))).sum

/-- Signed sum of the original-edge flows across the cut `χ`. -/
def e3Sum (χ : Position → Int) (net : BooleanNetwork) : Int :=
  ((List.range net.node_count).map (fun b =>
    (((net.ancestors b).dedup).map (fun a =>
      (((net.edge_value a b).1 : Int)) *
        (χ (.AfterNode a) - χ (.BeforeNode b)))).sum)).sum

/-- Total signed flow leaving the position set `χ` (as a 0/1 indicator). -/
def crossSum (χ : Position → Int) (net : BooleanNetwork) (fl : FlowEngine) :
    Int :=
  splitSum χ net + e3Sum χ net + srcSum χ fl.source + snkSum χ fl.sink

theorem updateFirst_keys (l : List (Nat × Nat)) (ni : Nat) (f : Nat → Nat) :
    (FlowEngine.updateFirst l ni f).map Prod.fst = l.map Prod.fst := by
  induction l with
  | nil => rfl
  | cons e l ih =>
    obtain ⟨n2, fl2⟩ := e
    rw [FlowEngine.updateFirst]
    split
    · rfl
    · simp only [List.map_cons]
      rw [ih]

theorem updateAll_keys (l : List (Nat × Nat)) (ni : Nat) (f : Nat → Nat) :
    (FlowEngine.updateAll l ni f).map Prod.fst = l.map Prod.fst := by
  rw [FlowEngine.updateAll]
  induction l with
  | nil => rfl
  | cons e l ih =>
    obtain ⟨n2, fl2⟩ := e
    simp only [List.map_cons]
    rw [ih]
    split <;> rfl

/-- A `+1` on the first matching source leg adds one crossing coefficient. -/
theorem srcSum_updateFirst (χ : Position → Int) (s : Nat) :
    ∀ (legs : List (Nat × Nat)), s ∈ legs.map Prod.fst →
      srcSum χ (FlowEngine.updateFirst legs s (fun x => x + 1)) =
        srcSum χ legs + (χ .Source - χ (.BeforeNode s)) := by
  intro legs
  induction legs with
  | nil => intro h; exact absurd h (List.not_mem_nil _)
  | cons e legs ih =>
    intro hm
    obtain ⟨n2, f2⟩ := e
    rw [FlowEngine.updateFirst]
    split
    · rename_i hbe
      have hns : n2 = s := by simpa using hbe
      subst hns
      rw [srcSum, srcSum]
      simp only [List.map_cons, List.sum_cons]
      push_cast
      ring
    · rename_i hbe
      have hns : n2 ≠ s := by simpa using hbe
      rw [srcSum, srcSum]
      simp only [List.map_cons, List.sum_cons]
      have hm' : s ∈ legs.map Prod.fst := by
        rcases List.mem_cons.1 hm with h' | h'
        · exact absurd h'.symm hns
        · exact h'
      have := ih hm'
      rw [srcSum, srcSum] at this
      rw [this]
      ring

/-- Updating sink legs whose crossing coefficient is zero leaves the sum. -/
theorem snkSum_updateAll_zero (χ : Position → Int) (s : Nat)
    (f : Nat → Nat) (hz : χ (.AfterNode s) - χ .Sink = 0)
    (legs : List (Nat × Nat)) :
    snkSum χ (FlowEngine.updateAll legs s f) = snkSum χ legs := by
  rw [snkSum, snkSum, FlowEngine.updateAll, List.map_map]
  apply sum_map_congr
  intro e he
  obtain ⟨n2, f2⟩ := e
  dsimp only [Function.comp]
  split
  · rename_i hbe
    have hns : n2 = s := by simpa using hbe
    subst hns
    dsimp only []
    rw [hz]
    ring
  · rfl

theorem e3Sum_set_node_value (χ : Position → Int) (net : BooleanNetwork)
    (n : Nat) (f : NodeValue → NodeValue) :
    e3Sum χ (net.set_node_value n f) = e3Sum χ net := rfl

theorem splitSum_set_edge_value (χ : Position → Int) (net : BooleanNetwork)
    (a b : Nat) (v : Nat × Nat) :
    splitSum χ (net.set_edge_value a b v) = splitSum χ net := rfl

/-- Changing one node's flow shifts `splitSum` by the flow delta times the
crossing coefficient. -/
theorem splitSum_set (χ : Position → Int) (net : BooleanNetwork) (n : Nat)
    (g : Nat → Nat) (hn : n < net.node_count)
    (hlen : net.node_count ≤ net.node_values.length) :
    splitSum χ (net.set_node_value n
        (fun nv => { nv with flow := g nv.flow })) =
      splitSum χ net +
        ((g (net.node_value n).flow : Int) - ((net.node_value n).flow : Int)) *
          (χ (.BeforeNode n) - χ (.AfterNode n)) := by
  rw [splitSum, splitSum]
  have hcnt : (net.set_node_value n
      (fun nv => { nv with flow := g nv.flow })).node_count =
      net.node_count := rfl
  rw [hcnt]
  rw [sum_map_update
    (fun m => (((net.node_value m).flow : Int)) *
      (χ (.BeforeNode m) - χ (.AfterNode m)))
    (fun m => ((((net.set_node_value n
        (fun nv => { nv with flow := g nv.flow })).node_value m).flow : Int)) *
      (χ (.BeforeNode m) - χ (.AfterNode m)))
    (List.range net.node_count) n (List.nodup_range _)
    (List.mem_range.2 hn) ?_]
  · rw [node_value_set_self_of_lt _ _ _ (Nat.lt_of_lt_of_le hn hlen)]
    ring
  · intro x _ hxn
    simp only []
    rw [BooleanNetwork.node_value_set_node_value_ne _ _ _ _ hxn]

/-- Changing one existing edge's value shifts `e3Sum` by the flow delta
times the crossing coefficient. -/
theorem e3Sum_set (χ : Position → Int) (net : BooleanNetwork) (a b : Nat)
    (v : Nat × Nat) (hb : b < net.node_count) (hmem : a ∈ net.ancestors b)
    (hEA : ∀ u, (net.edge_values.getD u []).length =
      (net.ancestors u).length) :
    e3Sum χ (net.set_edge_value a b v) =
      e3Sum χ net +
        ((v.1 : Int) - ((net.edge_value a b).1 : Int)) *
          (χ (.AfterNode a) - χ (.BeforeNode b)) := by
  rw [e3Sum, e3Sum]
  have hcnt : (net.set_edge_value a b v).node_count = net.node_count := rfl
  have hanc : ∀ u, (net.set_edge_value a b v).ancestors u =
      net.ancestors u := fun u => rfl
  rw [hcnt]
  rw [sum_map_update
    (fun b2 => (((net.ancestors b2).dedup).map (fun a2 =>
      (((net.edge_value a2 b2).1 : Int)) *
        (χ (.AfterNode a2) - χ (.BeforeNode b2)))).sum)
    (fun b2 => ((((net.set_edge_value a b v).ancestors b2).dedup).map
      (fun a2 =>
        ((((net.set_edge_value a b v).edge_value a2 b2).1 : Int)) *
          (χ (.AfterNode a2) - χ (.BeforeNode b2)))).sum)
    (List.range net.node_count) b (List.nodup_range _)
    (List.mem_range.2 hb) ?_]
  · rw [hanc b]
    rw [sum_map_update
      (fun a2 => (((net.edge_value a2 b).1 : Int)) *
        (χ (.AfterNode a2) - χ (.BeforeNode b)))
      (fun a2 => ((((net.set_edge_value a b v).edge_value a2 b).1 : Int)) *
        (χ (.AfterNode a2) - χ (.BeforeNode b)))
      ((net.ancestors b).dedup) a (List.nodup_dedup _)
      (List.mem_dedup.2 hmem) ?_]
    · rw [BooleanNetwork.edge_value_set_self net a b v hmem
        (Nat.le_of_eq (hEA b).symm)]
      ring
    · intro x _ hxa
      simp only []
      rcases BooleanNetwork.edge_value_set_cases net a b x b v
        (Nat.le_of_eq (hEA b)) with h | ⟨h, _⟩
      · rw [h]
      · exact absurd h hxa
  · intro x _ hxb
    simp only []
    rw [hanc x]
    apply sum_map_congr
    intro a2 _
    rw [edge_value_set_ne_target _ _ _ _ _ _ hxb]

theorem crossSum_aug_split_plus (χ : Position → Int) (net : BooleanNetwork)
    (fl : FlowEngine) (n : Nat) (hn : n < net.node_count)
    (hlen : net.node_count ≤ net.node_values.length) :
    crossSum χ (FlowEngine.augment net fl (.BeforeNode n) (.AfterNode n) 1).1
        (FlowEngine.augment net fl (.BeforeNode n) (.AfterNode n) 1).2 =
      crossSum χ net fl + (χ (.BeforeNode n) - χ (.AfterNode n)) := by
  have haug : FlowEngine.augment net fl (.BeforeNode n) (.AfterNode n) 1 =
      (net.set_node_value n (fun nv => { nv with flow := nv.flow + 1 }),
        fl) := by
    rw [FlowEngine.augment, if_pos (beq_self_eq_true n)]
  rw [haug, crossSum, crossSum]
  rw [splitSum_set χ net n (fun x => x + 1) hn hlen, e3Sum_set_node_value]
  push_cast
  ring

theorem crossSum_aug_split_minus (χ : Position → Int) (net : BooleanNetwork)
    (fl : FlowEngine) (n : Nat) (hn : n < net.node_count)
    (hlen : net.node_count ≤ net.node_values.length)
    (hflow : 1 ≤ (net.node_value n).flow) :
    crossSum χ (FlowEngine.augment net fl (.AfterNode n) (.BeforeNode n) 1).1
        (FlowEngine.augment net fl (.AfterNode n) (.BeforeNode n) 1).2 =
      crossSum χ net fl + (χ (.AfterNode n) - χ (.BeforeNode n)) := by
  have haug : FlowEngine.augment net fl (.AfterNode n) (.BeforeNode n) 1 =
      (net.set_node_value n (fun nv => { nv with flow := nv.flow - 1 }),
        fl) := by
    rw [FlowEngine.augment, if_pos (beq_self_eq_true n)]
  rw [haug, crossSum, crossSum]
  rw [splitSum_set χ net n (fun x => x - 1) hn hlen, e3Sum_set_node_value]
  rw [Nat.cast_sub hflow]
  push_cast
  ring

theorem crossSum_aug_e3_plus (χ : Position → Int) (net : BooleanNetwork)
    (fl : FlowEngine) (a b : Nat) (hab : a ≠ b) (hb : b < net.node_count)
    (hmem : a ∈ net.ancestors b)
    (hEA : ∀ u, (net.edge_values.getD u []).length =
      (net.ancestors u).length) :
    crossSum χ (FlowEngine.augment net fl (.AfterNode a) (.BeforeNode b) 1).1
        (FlowEngine.augment net fl (.AfterNode a) (.BeforeNode b) 1).2 =
      crossSum χ net fl + (χ (.AfterNode a) - χ (.BeforeNode b)) := by
  have haug : FlowEngine.augment net fl (.AfterNode a) (.BeforeNode b) 1 =
      (net.set_edge_value a b
        ((net.edge_value a b).1 + 1, (net.edge_value a b).2 - 1), fl) := by
    rw [FlowEngine.augment, if_neg (by simpa using hab)]
  rw [haug, crossSum, crossSum]
  rw [e3Sum_set χ net a b _ hb hmem hEA, splitSum_set_edge_value]
  push_cast
  ring

theorem crossSum_aug_e3_minus (χ : Position → Int) (net : BooleanNetwork)
    (fl : FlowEngine) (a b : Nat) (hab : a ≠ b) (hb : b < net.node_count)
    (hmem : a ∈ net.ancestors b)
    (hEA : ∀ u, (net.edge_values.getD u []).length =
      (net.ancestors u).length)
    (hflow : 1 ≤ (net.edge_value a b).1) :
    crossSum χ (FlowEngine.augment net fl (.BeforeNode b) (.AfterNode a) 1).1
        (FlowEngine.augment net fl (.BeforeNode b) (.AfterNode a) 1).2 =
      crossSum χ net fl + (χ (.BeforeNode b) - χ (.AfterNode a)) := by
  have haug : FlowEngine.augment net fl (.BeforeNode b) (.AfterNode a) 1 =
      (net.set_edge_value a b
        ((net.edge_value a b).1 - 1, (net.edge_value a b).2 + 1), fl) := by
    rw [FlowEngine.augment, if_neg (by simpa using fun h => hab h.symm)]
  rw [haug, crossSum, crossSum]
  rw [e3Sum_set χ net a b _ hb hmem hEA, splitSum_set_edge_value]
  rw [show ((((net.edge_value a b).1 - 1 : Nat), (net.edge_value a b).2 + 1).1
    : Int) = ((net.edge_value a b).1 : Int) - 1 from by
      dsimp only []
      rw [Nat.cast_sub hflow]
      rfl]
  ring

theorem crossSum_aug_src (χ : Position → Int) (net : BooleanNetwork)
    (fl : FlowEngine) (s : Nat) (hs : s ∈ fl.source.map Prod.fst) :
    crossSum χ (FlowEngine.augment net fl .Source (.BeforeNode s) 1).1
        (FlowEngine.augment net fl .Source (.BeforeNode s) 1).2 =
      crossSum χ net fl + (χ .Source - χ (.BeforeNode s)) := by
  have haug : FlowEngine.augment net fl .Source (.BeforeNode s) 1 =
      (net, { fl with source :=
        FlowEngine.updateFirst fl.source s (fun x => x + 1) }) := by
    rw [FlowEngine.augment]
  rw [haug, crossSum, crossSum]
  dsimp only []
  rw [srcSum_updateFirst χ s fl.source hs]
  ring

theorem crossSum_aug_snk_plus (χ : Position → Int) (net : BooleanNetwork)
    (fl : FlowEngine) (s : Nat) (hz : χ (.AfterNode s) - χ .Sink = 0) :
    crossSum χ (FlowEngine.augment net fl (.AfterNode s) .Sink 1).1
        (FlowEngine.augment net fl (.AfterNode s) .Sink 1).2 =
      crossSum χ net fl + (χ (.AfterNode s) - χ .Sink) := by
  have haug : FlowEngine.augment net fl (.AfterNode s) .Sink 1 =
      (net, { fl with sink :=
        FlowEngine.updateAll fl.sink s (fun x => x + 1) }) := by
    rw [FlowEngine.augment]
  rw [haug, crossSum, crossSum]
  dsimp only []
  rw [snkSum_updateAll_zero χ s _ hz fl.sink, hz]
  ring

theorem crossSum_aug_snk_minus (χ : Position → Int) (net : BooleanNetwork)
    (fl : FlowEngine) (s : Nat) (hz : χ (.AfterNode s) - χ .Sink = 0) :
    crossSum χ (FlowEngine.augment net fl .Sink (.AfterNode s) 1).1
        (FlowEngine.augment net fl .Sink (.AfterNode s) 1).2 =
      crossSum χ net fl + (χ .Sink - χ (.AfterNode s)) := by
  have haug : FlowEngine.augment net fl .Sink (.AfterNode s) 1 =
      (net, { fl with sink :=
        FlowEngine.updateAll fl.sink s (fun x => x - 1) }) := by
    rw [FlowEngine.augment]
  rw [haug, crossSum, crossSum]
  dsimp only []
  rw [snkSum_updateAll_zero χ s _ hz fl.sink]
  have : χ .Sink - χ (.AfterNode s) = 0 := by omega
  rw [this]
  ring

theorem augment_keys (net : BooleanNetwork) (fl : FlowEngine)
    (p q : Position) (f : Nat) :
    (FlowEngine.augment net fl p q f).2.source.map Prod.fst =
        fl.source.map Prod.fst ∧
      (FlowEngine.augment net fl p q f).2.sink.map Prod.fst =
        fl.sink.map Prod.fst ∧
      (FlowEngine.augment net fl p q f).2.node = fl.node := by
  rcases p with _ | _ | n1 | n1 <;> rcases q with _ | _ | n2 | n2 <;>
    simp only [FlowEngine.augment] <;>
    try exact ⟨by trivial, by trivial, by trivial⟩
  all_goals first
    | exact ⟨updateFirst_keys _ _ _, by trivial, by trivial⟩
    | exact ⟨by trivial, updateAll_keys _ _ _, by trivial⟩
    | (split <;> exact ⟨by trivial, by trivial, by trivial⟩)

/-- The possible shapes of a recorded DFS edge. -/
theorem stepSucc_shapes {net : BooleanNetwork} {fl : FlowEngine}
    {p q : Position}
    (hslA : ∀ ni, ni ∉ net.ancestors ni)
    (hslD : ∀ ni, ni ∉ net.descendents ni)
    (h : stepSucc net fl p q) :
    (∃ s, p = .Source ∧ q = .BeforeNode s ∧ s ∈ fl.source.map Prod.fst) ∨
    (∃ n, p = .BeforeNode n ∧ q = .AfterNode n) ∨
    (∃ a b, p = .BeforeNode b ∧ q = .AfterNode a ∧ a ≠ b ∧
      a ∈ net.ancestors b ∧ 0 < (net.edge_value a b).1) ∨
    (∃ n, p = .AfterNode n ∧ q = .BeforeNode n ∧
      0 < (net.node_value n).flow) ∨
    (∃ a b, p = .AfterNode a ∧ q = .BeforeNode b ∧ a ≠ b ∧
      b ∈ net.descendents a ∧ 0 < (net.edge_value a b).2) ∨
    (∃ s, p = .AfterNode s ∧ q = .Sink ∧ s ∈ fl.sink.map Prod.fst) ∨
    (∃ s, p = .Sink ∧ q = .AfterNode s ∧ s ∈ fl.sink.map Prod.fst) := by
  rcases h with ⟨hm, hc⟩ | ⟨hm, hc⟩
  · rcases p with _ | _ | n | n
    · simp only [FlowEngine.descendents, List.mem_map] at hm
      obtain ⟨e, he, heq⟩ := hm
      exact Or.inl ⟨e.1, rfl, heq.symm,
        List.mem_map.2 ⟨e, he, rfl⟩⟩
    · simp only [FlowEngine.descendents] at hm
      exact absurd hm (List.not_mem_nil _)
    · simp only [FlowEngine.descendents, List.mem_singleton] at hm
      exact Or.inr (Or.inl ⟨n, rfl, hm⟩)
    · rw [FlowEngine.descendents] at hm
      split at hm
      · rename_i hany
        have hq : q = .Sink := List.mem_singleton.1 hm
        subst hq
        refine Or.inr (Or.inr (Or.inr (Or.inr (Or.inr (Or.inl
          ⟨n, rfl, rfl, ?_⟩)))))
        simp only [List.any_eq_true] at hany
        obtain ⟨e, he, heq⟩ := hany
        exact List.mem_map.2 ⟨e, he, by simpa using heq⟩
      · rename_i hany
        simp only [List.mem_map] at hm
        obtain ⟨w, hw, hweq⟩ := hm
        by_cases hwn : w == fl.node
        · rw [if_pos hwn] at hweq
          subst hweq
          exfalso
          rw [FlowEngine.flow_cap] at hc
          have hfind : fl.sink.find? (fun e => e.1 == n) = none := by
            rw [List.find?_eq_none]
            intro e he
            simp only [List.any_eq_true] at hany
            intro hbe
            exact hany ⟨e, he, hbe⟩
          rw [hfind] at hc
          exact absurd hc (by decide)
        · rw [if_neg hwn] at hweq
          subst hweq
          refine Or.inr (Or.inr (Or.inr (Or.inr (Or.inl
            ⟨n, w, rfl, rfl, ?_, hw, ?_⟩))))
          · intro he
            exact hslD n (he ▸ hw)
          · rw [FlowEngine.flow_cap] at hc
            exact hc
  · rcases p with _ | _ | n | n
    · simp only [FlowEngine.ancestors] at hm
      exact absurd hm (List.not_mem_nil _)
    · simp only [FlowEngine.ancestors, List.mem_map] at hm
      obtain ⟨e, he, heq⟩ := hm
      exact Or.inr (Or.inr (Or.inr (Or.inr (Or.inr (Or.inr
        ⟨e.1, rfl, heq.symm, List.mem_map.2 ⟨e, he, rfl⟩⟩)))))
    · simp only [FlowEngine.ancestors, List.mem_map] at hm
      obtain ⟨a, ha, haeq⟩ := hm
      subst haeq
      by_cases han : a = n
      · subst han
        exact Or.inr (Or.inl ⟨a, rfl, rfl⟩)
      · refine Or.inr (Or.inr (Or.inl ⟨a, n, rfl, rfl, han, ha, ?_⟩))
        rw [FlowEngine.flow_cap] at hc
        exact hc
    · simp only [FlowEngine.ancestors, List.mem_singleton] at hm
      subst hm
      refine Or.inr (Or.inr (Or.inr (Or.inl ⟨n, rfl, rfl, ?_⟩)))
      rw [FlowEngine.flow_cap] at hc
      rw [if_pos (beq_self_eq_true n)] at hc
      exact hc

/-- The stored flow value consulted by a backward walk hop with parent `p`
and child `x` (node-split flows and original-edge flows). -/
def hopStoreB (net : BooleanNetwork) : Position → Position → Nat × Nat
  | .BeforeNode n1, .AfterNode n2 =>
    if n1 = n2 then ((net.node_value n1).flow, 0) else net.edge_value n2 n1
  | .AfterNode n1, .BeforeNode n2 =>
    if n1 = n2 then ((net.node_value n1).flow, 0) else net.edge_value n1 n2
  | _, _ => (0, 0)

/-- What one `augment` call does to the network component. -/
theorem augment_net_char (net : BooleanNetwork) (fl : FlowEngine)
    (p q : Position) (f : Nat) :
    (FlowEngine.augment net fl p q f).1 = net ∨
    (∃ n, p = .BeforeNode n ∧ q = .AfterNode n ∧
      (FlowEngine.augment net fl p q f).1 =
        net.set_node_value n (fun nv => { nv with flow := nv.flow + f })) ∨
    (∃ n, p = .AfterNode n ∧ q = .BeforeNode n ∧
      (FlowEngine.augment net fl p q f).1 =
        net.set_node_value n (fun nv => { nv with flow := nv.flow - f })) ∨
    (∃ n1 n2, n1 ≠ n2 ∧ p = .BeforeNode n1 ∧ q = .AfterNode n2 ∧
      (FlowEngine.augment net fl p q f).1 =
        net.set_edge_value n2 n1
          ((net.edge_value n2 n1).1 - f, (net.edge_value n2 n1).2 + f)) ∨
    (∃ n1 n2, n1 ≠ n2 ∧ p = .AfterNode n1 ∧ q = .BeforeNode n2 ∧
      (FlowEngine.augment net fl p q f).1 =
        net.set_edge_value n1 n2
          ((net.edge_value n1 n2).1 + f, (net.edge_value n1 n2).2 - f)) := by
  rcases p with _ | _ | n1 | n1 <;> rcases q with _ | _ | n2 | n2 <;>
    simp only [FlowEngine.augment] <;> try exact Or.inl (by trivial)
  · by_cases he : n1 = n2
    · subst he
      rw [if_pos (beq_self_eq_true n1)]
      exact Or.inr (Or.inl ⟨n1, rfl, rfl, rfl⟩)
    · rw [if_neg (by simpa using he)]
      exact Or.inr (Or.inr (Or.inr (Or.inl ⟨n1, n2, he, rfl, rfl, rfl⟩)))
  · by_cases he : n1 = n2
    · subst he
      rw [if_pos (beq_self_eq_true n1)]
      exact Or.inr (Or.inr (Or.inl ⟨n1, rfl, rfl, rfl⟩))
    · rw [if_neg (by simpa using he)]
      exact Or.inr (Or.inr (Or.inr (Or.inr ⟨n1, n2, he, rfl, rfl, rfl⟩)))

theorem hopStoreB_BA (net : BooleanNetwork) (m m' : Nat) :
    hopStoreB net (.BeforeNode m) (.AfterNode m') =
      if m = m' then ((net.node_value m).flow, 0)
      else net.edge_value m' m := rfl

theorem hopStoreB_AB (net : BooleanNetwork) (m m' : Nat) :
    hopStoreB net (.AfterNode m) (.BeforeNode m') =
      if m = m' then ((net.node_value m).flow, 0)
      else net.edge_value m m' := rfl

theorem hopStoreB_set_node_value (net : BooleanNetwork) (n : Nat)
    (f : NodeValue → NodeValue) (q x : Position)
    (h1 : ¬(q = .BeforeNode n ∧ x = .AfterNode n))
    (h2 : ¬(q = .AfterNode n ∧ x = .BeforeNode n)) :
    hopStoreB (net.set_node_value n f) q x = hopStoreB net q x := by
  rcases q with _ | _ | m | m <;> rcases x with _ | _ | m' | m' <;> try rfl
  · rw [hopStoreB_BA, hopStoreB_BA]
    by_cases he : m = m'
    · subst he
      rw [if_pos rfl, if_pos rfl]
      have hmn : m ≠ n := fun h => h1 ⟨h ▸ rfl, h ▸ rfl⟩
      rw [BooleanNetwork.node_value_set_node_value_ne _ _ _ _ hmn]
    · rw [if_neg he, if_neg he]
      rfl
  · rw [hopStoreB_AB, hopStoreB_AB]
    by_cases he : m = m'
    · subst he
      rw [if_pos rfl, if_pos rfl]
      have hmn : m ≠ n := fun h => h2 ⟨h ▸ rfl, h ▸ rfl⟩
      rw [BooleanNetwork.node_value_set_node_value_ne _ _ _ _ hmn]
    · rw [if_neg he, if_neg he]
      rfl

theorem hopStoreB_set_edge_value (net : BooleanNetwork) (a b : Nat)
    (v : Nat × Nat) (q x : Position)
    (hEA : ∀ u, (net.edge_values.getD u []).length =
      (net.ancestors u).length)
    (h1 : ¬(q = .AfterNode a ∧ x = .BeforeNode b))
    (h2 : ¬(q = .BeforeNode b ∧ x = .AfterNode a)) :
    hopStoreB (net.set_edge_value a b v) q x = hopStoreB net q x := by
  rcases q with _ | _ | m | m <;> rcases x with _ | _ | m' | m' <;> try rfl
  · rw [hopStoreB_BA, hopStoreB_BA]
    by_cases he : m = m'
    · rw [if_pos he, if_pos he]
      rfl
    · rw [if_neg he, if_neg he]
      rcases BooleanNetwork.edge_value_set_cases net a b m' m v
        (Nat.le_of_eq (hEA b)) with h | ⟨ha', hb'⟩
      · exact h
      · exact absurd ⟨hb' ▸ rfl, ha' ▸ rfl⟩ h2
  · rw [hopStoreB_AB, hopStoreB_AB]
    by_cases he : m = m'
    · rw [if_pos he, if_pos he]
      rfl
    · rw [if_neg he, if_neg he]
      rcases BooleanNetwork.edge_value_set_cases net a b m m' v
        (Nat.le_of_eq (hEA b)) with h | ⟨ha', hb'⟩
      · exact h
      · exact absurd ⟨ha' ▸ rfl, hb' ▸ rfl⟩ h1

/-- One hop leaves every other pending hop's stored flow alone. -/
theorem hopStoreB_augment (net : BooleanNetwork) (fl : FlowEngine)
    (p q x p' : Position)
    (hEA : ∀ u, (net.edge_values.getD u []).length =
      (net.ancestors u).length)
    (hxq : x ≠ q) (hnpx : ¬(x = p ∧ p' = q)) :
    hopStoreB (FlowEngine.augment net fl p q 1).1 p' x =
      hopStoreB net p' x := by
  rcases augment_net_char net fl p q 1 with h | ⟨n, hp, hq, h⟩ |
    ⟨n, hp, hq, h⟩ | ⟨n1, n2, hne, hp, hq, h⟩ | ⟨n1, n2, hne, hp, hq, h⟩
  · rw [h]
  · rw [h]
    refine hopStoreB_set_node_value net n _ p' x ?_ ?_
    · intro ⟨h1, h2⟩
      exact hxq (h2.trans hq.symm)
    · intro ⟨h1, h2⟩
      exact hnpx ⟨h2.trans hp.symm, h1.trans hq.symm⟩
  · rw [h]
    refine hopStoreB_set_node_value net n _ p' x ?_ ?_
    · intro ⟨h1, h2⟩
      exact hnpx ⟨h2.trans hp.symm, h1.trans hq.symm⟩
    · intro ⟨h1, h2⟩
      exact hxq (h2.trans hq.symm)
  · rw [h]
    refine hopStoreB_set_edge_value net n2 n1 _ p' x hEA ?_ ?_
    · intro ⟨h1, h2⟩
      exact hnpx ⟨h2.trans hp.symm, h1.trans hq.symm⟩
    · intro ⟨h1, h2⟩
      exact hxq (h2.trans hq.symm)
  · rw [h]
    refine hopStoreB_set_edge_value net n1 n2 _ p' x hEA ?_ ?_
    · intro ⟨h1, h2⟩
      exact hxq (h2.trans hq.symm)
    · intro ⟨h1, h2⟩
      exact hnpx ⟨h2.trans hp.symm, h1.trans hq.symm⟩

/-! ### Bounded positions and uniform facts about one `augment` call -/

/-- A position whose node index (if any) is below `nc`. -/
def BoundedPos (nc : Nat) : Position → Prop
  | .BeforeNode n => n < nc
  | .AfterNode n => n < nc
  | _ => True

/-- The list of all bounded positions, for use with `stepDfs_bounded`. -/
def boundedPosList (nc : Nat) : List Position :=
  .Source :: .Sink ::
    (List.range nc).flatMap (fun n => [.BeforeNode n, .AfterNode n])

theorem mem_boundedPosList {nc : Nat} {x : Position} :
    x ∈ boundedPosList nc ↔ BoundedPos nc x := by
  rcases x with _ | _ | n | n <;>
    simp [boundedPosList, List.mem_flatMap, BoundedPos]

/-- The DFS successor relation stays inside the bounded positions, given
range facts about the adjacency and the engine legs. -/
theorem stepSucc_bounded (net : BooleanNetwork) (fl : FlowEngine) (nc : Nat)
    (hAR : ∀ v a, a ∈ net.ancestors v → a < nc)
    (hDR : ∀ v d, d ∈ net.descendents v → d < nc)
    (hsrcB : ∀ s ∈ fl.source.map Prod.fst, s < nc)
    (hsnkB : ∀ s ∈ fl.sink.map Prod.fst, s < nc)
    (x d : Position) (hx : BoundedPos nc x) (h : stepSucc net fl x d) :
    BoundedPos nc d := by
  rcases h with ⟨hm, _⟩ | ⟨hm, _⟩
  · rcases x with _ | _ | n | n
    · simp only [FlowEngine.descendents, List.mem_map] at hm
      obtain ⟨e, he, heq⟩ := hm
      rw [← heq]
      exact hsrcB e.1 (List.mem_map.2 ⟨e, he, rfl⟩)
    · exact absurd hm (List.not_mem_nil _)
    · rw [List.mem_singleton.1 hm]
      exact hx
    · rw [FlowEngine.descendents] at hm
      split at hm
      · rw [List.mem_singleton.1 hm]
        trivial
      · simp only [List.mem_map] at hm
        obtain ⟨w, hw, hweq⟩ := hm
        rw [← hweq]
        split
        · trivial
        · exact hDR n w hw
  · rcases x with _ | _ | n | n
    · exact absurd hm (List.not_mem_nil _)
    · simp only [FlowEngine.ancestors, List.mem_map] at hm
      obtain ⟨e, he, heq⟩ := hm
      rw [← heq]
      exact hsnkB e.1 (List.mem_map.2 ⟨e, he, rfl⟩)
    · simp only [FlowEngine.ancestors, List.mem_map] at hm
      obtain ⟨a, ha, haeq⟩ := hm
      rw [← haeq]
      exact hAR n a ha
    · rw [List.mem_singleton.1 hm]
      exact hx

/-- The flow plus remaining capacity stored on an original edge. -/
def pairSum (net : BooleanNetwork) (a b : Nat) : Nat :=
  (net.edge_value a b).1 + (net.edge_value a b).2

/-- One `augment` call preserves the network frame: adjacency, index bound,
payload-vector lengths. -/
theorem augment_preserves (net : BooleanNetwork) (fl : FlowEngine)
    (p q : Position) (f : Nat)
    (hEA : ∀ u, (net.edge_values.getD u []).length =
      (net.ancestors u).length) :
    (FlowEngine.augment net fl p q f).1.nodes = net.nodes ∧
    (FlowEngine.augment net fl p q f).1.max_node_index = net.max_node_index ∧
    (FlowEngine.augment net fl p q f).1.node_values.length =
      net.node_values.length ∧
    (∀ u, ((FlowEngine.augment net fl p q f).1.edge_values.getD u []).length =
      ((FlowEngine.augment net fl p q f).1.ancestors u).length) := by
  rcases augment_net_char net fl p q f with h | ⟨n, _, _, h⟩ |
    ⟨n, _, _, h⟩ | ⟨n1, n2, _, _, _, h⟩ | ⟨n1, n2, _, _, _, h⟩
  · rw [h]
    exact ⟨rfl, rfl, rfl, hEA⟩
  · rw [h]
    exact ⟨rfl, rfl, List.length_set _ _ _, hEA⟩
  · rw [h]
    exact ⟨rfl, rfl, List.length_set _ _ _, hEA⟩
  · rw [h]
    refine ⟨rfl, rfl, rfl, fun u => ?_⟩
    rw [length_edge_values_set,
      ancestors_eq_of_nodes_eq (BooleanNetwork.nodes_set_edge_value _ _ _ _) u]
    exact hEA u
  · rw [h]
    refine ⟨rfl, rfl, rfl, fun u => ?_⟩
    rw [length_edge_values_set,
      ancestors_eq_of_nodes_eq (BooleanNetwork.nodes_set_edge_value _ _ _ _) u]
    exact hEA u

/-- One unit `augment` call along a residual edge with remaining room keeps
every original edge's flow-plus-capacity sum. -/
theorem augment_pairSum (net : BooleanNetwork) (fl : FlowEngine)
    (p q : Position)
    (hEA : ∀ u, (net.edge_values.getD u []).length =
      (net.ancestors u).length)
    (h3 : ∀ a b, p = .BeforeNode b → q = .AfterNode a → a ≠ b →
      a ∈ net.ancestors b ∧ 1 ≤ (net.edge_value a b).1)
    (h5 : ∀ a b, p = .AfterNode a → q = .BeforeNode b → a ≠ b →
      a ∈ net.ancestors b ∧ 1 ≤ (net.edge_value a b).2) :
    ∀ a b, pairSum (FlowEngine.augment net fl p q 1).1 a b =
      pairSum net a b := by
  intro a b
  rcases augment_net_char net fl p q 1 with h | ⟨n, _, _, h⟩ |
    ⟨n, _, _, h⟩ | ⟨n1, n2, hne, hp, hq, h⟩ | ⟨n1, n2, hne, hp, hq, h⟩
  · rw [h]
  · rw [h]
    unfold pairSum
    rw [edge_value_set_node_value]
  · rw [h]
    unfold pairSum
    rw [edge_value_set_node_value]
  · rw [h]
    obtain ⟨hmem, hflo⟩ := h3 n2 n1 hp hq (fun he => hne he.symm)
    unfold pairSum
    rcases BooleanNetwork.edge_value_set_cases net n2 n1 a b _
      (Nat.le_of_eq (hEA n1)) with h' | ⟨ha', hb'⟩
    · rw [h']
    · subst ha'
      subst hb'
      rw [BooleanNetwork.edge_value_set_self net _ _ _ hmem
        (Nat.le_of_eq (hEA _).symm)]
      dsimp only []
      omega
  · rw [h]
    obtain ⟨hmem, hcap⟩ := h5 n1 n2 hp hq hne
    unfold pairSum
    rcases BooleanNetwork.edge_value_set_cases net n1 n2 a b _
      (Nat.le_of_eq (hEA n2)) with h' | ⟨ha', hb'⟩
    · rw [h']
    · subst ha'
      subst hb'
      rw [BooleanNetwork.edge_value_set_self net _ _ _ hmem
        (Nat.le_of_eq (hEA _).symm)]
      dsimp only []
      omega

/-- Walking the augmenting path of `Flow::step` climbs the recorded parent
chain to `Source`, raising the signed cross-sum by exactly
`χ Source - χ q`, and preserving the network frame, the engine's leg keys,
and every original edge's flow-plus-capacity sum. -/
theorem walkAugment_crossSum (χ : Position → Int)
    (net0 : BooleanNetwork) (fl0 : FlowEngine)
    (P : List (Position × Position)) (rk : Position → Nat)
    (hrank : ∀ q p, P.lookup q = some p → rk p < rk q)
    (hconds : ∀ q p, P.lookup q = some p → stepSucc net0 fl0 p q)
    (hrooted : ∀ q p, P.lookup q = some p →
      p = .Source ∨ (P.lookup p).isSome = true)
    (hBP : ∀ q p, P.lookup q = some p →
      BoundedPos net0.node_count p ∧ BoundedPos net0.node_count q)
    (hslA : ∀ ni, ni ∉ net0.ancestors ni)
    (hslD : ∀ ni, ni ∉ net0.descendents ni)
    (hsym : ∀ a b, b ∈ net0.descendents a → a ∈ net0.ancestors b)
    (hχs : ∀ s ∈ fl0.sink.map Prod.fst, χ (.AfterNode s) - χ .Sink = 0) :
    ∀ (fuel : Nat) (net : BooleanNetwork) (fl : FlowEngine) (q : Position)
      (net' : BooleanNetwork) (fl' : FlowEngine),
      FlowEngine.walkAugment P fuel net fl q = .ok (net', fl') →
      net.nodes = net0.nodes →
      net.max_node_index = net0.max_node_index →
      net0.node_count ≤ net.node_values.length →
      (∀ u, (net.edge_values.getD u []).length = (net.ancestors u).length) →
      fl.source.map Prod.fst = fl0.source.map Prod.fst →
      fl.sink.map Prod.fst = fl0.sink.map Prod.fst →
      (q = .Source ∨ (P.lookup q).isSome = true) →
      (∀ x p2, P.lookup x = some p2 → rk x ≤ rk q →
        hopStoreB net p2 x = hopStoreB net0 p2 x) →
      crossSum χ net' fl' = crossSum χ net fl + (χ .Source - χ q) ∧
      net'.nodes = net.nodes ∧
      net'.max_node_index = net.max_node_index ∧
      net'.node_values.length = net.node_values.length ∧
      (∀ u, (net'.edge_values.getD u []).length =
        (net'.ancestors u).length) ∧
      fl'.source.map Prod.fst = fl.source.map Prod.fst ∧
      fl'.sink.map Prod.fst = fl.sink.map Prod.fst ∧
      fl'.node = fl.node ∧
      (∀ a b, pairSum net' a b = pairSum net a b) := by
  intro fuel
  induction fuel with
  | zero =>
    intro net fl q net' fl' h
    rw [FlowEngine.walkAugment] at h
    exact Res.noConfusion h
  | succ n ih =>
    intro net fl q net' fl' h hnodes hmax hnv hEA hks hkk hroot hpack
    rw [FlowEngine.walkAugment] at h
    rcases hl : P.lookup q with _ | p <;> rw [hl] at h
    · cases h
      have hq : q = .Source := by
        rcases hroot with h' | h'
        · exact h'
        · rw [hl] at h'
          exact Bool.noConfusion h'
      refine ⟨?_, rfl, rfl, rfl, hEA, rfl, rfl, rfl, fun a b => rfl⟩
      rw [hq]
      ring
    · dsimp only [] at h
      rcases haug : FlowEngine.augment net fl p q 1 with ⟨net1, fl1⟩
      rw [haug] at h
      dsimp only [] at h
      have hstep := hconds q p hl
      have hBPq := hBP q p hl
      have hrk := hrank q p hl
      have hkeys := augment_keys net fl p q 1
      have hpres := augment_preserves net fl p q 1 hEA
      rw [haug] at hkeys hpres
      have h1nodes : net1.nodes = net.nodes := hpres.1
      have h1max : net1.max_node_index = net.max_node_index := hpres.2.1
      have h1len : net1.node_values.length = net.node_values.length :=
        hpres.2.2.1
      have h1EA : ∀ u, (net1.edge_values.getD u []).length =
          (net1.ancestors u).length := hpres.2.2.2
      have h1src : fl1.source.map Prod.fst = fl.source.map Prod.fst :=
        hkeys.1
      have h1snk : fl1.sink.map Prod.fst = fl.sink.map Prod.fst :=
        hkeys.2.1
      have h1node : fl1.node = fl.node := hkeys.2.2
      have hpack1 : ∀ x p2, P.lookup x = some p2 → rk x ≤ rk p →
          hopStoreB net1 p2 x = hopStoreB net0 p2 x := by
        intro x p2 hx hle
        have hxq : x ≠ q := fun he => by
          subst he
          exact absurd (Nat.lt_of_le_of_lt hle hrk) (Nat.lt_irrefl _)
        have hnpx : ¬(x = p ∧ p2 = q) := by
          intro ⟨he1, he2⟩
          rw [he1, he2] at hx
          exact absurd (hrank p q hx) (Nat.lt_asymm hrk)
        have h' := hopStoreB_augment net fl p q x p2 hEA hxq hnpx
        rw [haug] at h'
        have h'' : hopStoreB net1 p2 x = hopStoreB net p2 x := h'
        exact h''.trans (hpack x p2 hx (Nat.le_trans hle (Nat.le_of_lt hrk)))
      obtain ⟨hcs, hnds, hmx, hlen, hEA1, hsk, hkk1, hnode1, hps⟩ :=
        ih net1 fl1 p net' fl' h (h1nodes.trans hnodes) (h1max.trans hmax)
          (by rw [h1len]; exact hnv) h1EA (h1src.trans hks)
          (h1snk.trans hkk) (hrooted q p hl) hpack1
      have hncEq : net.node_count = net0.node_count := by
        unfold BooleanNetwork.node_count
        rw [hmax]
      have hlenv : net.node_count ≤ net.node_values.length := by
        rw [hncEq]
        exact hnv
      have hsb := hpack q p hl (Nat.le_refl _)
      rcases stepSucc_shapes hslA hslD hstep with
        ⟨s, hp, hq, hsmem⟩ | ⟨m, hp, hq⟩ |
        ⟨a, b, hp, hq, hab, hmem, hflo⟩ | ⟨m, hp, hq, hflo⟩ |
        ⟨a, b, hp, hq, hab, hmem, hcap⟩ | ⟨s, hp, hq, hsmem⟩ |
        ⟨s, hp, hq, hsmem⟩
      · subst hp
        subst hq
        have hs' : s ∈ fl.source.map Prod.fst := by
          rw [hks]
          exact hsmem
        have hΔ : crossSum χ net1 fl1 = crossSum χ net fl +
            (χ .Source - χ (.BeforeNode s)) := by
          have h' := crossSum_aug_src χ net fl s hs'
          rw [haug] at h'
          exact h'
        have hpair : ∀ a2 b2, pairSum net1 a2 b2 = pairSum net a2 b2 := by
          have h' := augment_pairSum net fl .Source (.BeforeNode s) hEA
            (fun a2 b2 hpp hqq hne => Position.noConfusion hpp)
            (fun a2 b2 hpp hqq hne => Position.noConfusion hpp)
          rw [haug] at h'
          exact h'
        refine ⟨?_, hnds.trans h1nodes, hmx.trans h1max, hlen.trans h1len,
          hEA1, hsk.trans h1src, hkk1.trans h1snk, hnode1.trans h1node,
          fun a2 b2 => (hps a2 b2).trans (hpair a2 b2)⟩
        rw [hcs, hΔ]
        ring
      · subst hp
        subst hq
        have hm : m < net.node_count := by
          rw [hncEq]
          exact hBPq.1
        have hΔ : crossSum χ net1 fl1 = crossSum χ net fl +
            (χ (.BeforeNode m) - χ (.AfterNode m)) := by
          have h' := crossSum_aug_split_plus χ net fl m hm hlenv
          rw [haug] at h'
          exact h'
        have hpair : ∀ a2 b2, pairSum net1 a2 b2 = pairSum net a2 b2 := by
          have h' := augment_pairSum net fl (.BeforeNode m) (.AfterNode m) hEA
            (fun a2 b2 hpp hqq hne => absurd
              (((Position.AfterNode.inj hqq).symm.trans
                (Position.BeforeNode.inj hpp)) : a2 = b2) hne)
            (fun a2 b2 hpp hqq hne => Position.noConfusion hpp)
          rw [haug] at h'
          exact h'
        refine ⟨?_, hnds.trans h1nodes, hmx.trans h1max, hlen.trans h1len,
          hEA1, hsk.trans h1src, hkk1.trans h1snk, hnode1.trans h1node,
          fun a2 b2 => (hps a2 b2).trans (hpair a2 b2)⟩
        rw [hcs, hΔ]
        ring
      · subst hp
        subst hq
        have hb : b < net.node_count := by
          rw [hncEq]
          exact hBPq.1
        have hmem' : a ∈ net.ancestors b := by
          rw [ancestors_eq_of_nodes_eq hnodes]
          exact hmem
        rw [hopStoreB_BA, hopStoreB_BA,
          if_neg (fun he => hab he.symm),
          if_neg (fun he => hab he.symm)] at hsb
        have hflo' : 1 ≤ (net.edge_value a b).1 := by
          rw [hsb]
          omega
        have hΔ : crossSum χ net1 fl1 = crossSum χ net fl +
            (χ (.BeforeNode b) - χ (.AfterNode a)) := by
          have h' := crossSum_aug_e3_minus χ net fl a b hab hb hmem' hEA hflo'
          rw [haug] at h'
          exact h'
        have hpair : ∀ a2 b2, pairSum net1 a2 b2 = pairSum net a2 b2 := by
          have h' := augment_pairSum net fl (.BeforeNode b) (.AfterNode a) hEA
            (fun a2 b2 hpp hqq hne => by
              obtain rfl : b2 = b := (Position.BeforeNode.inj hpp).symm
              obtain rfl : a2 = a := (Position.AfterNode.inj hqq).symm
              exact ⟨hmem', hflo'⟩)
            (fun a2 b2 hpp hqq hne => Position.noConfusion hpp)
          rw [haug] at h'
          exact h'
        refine ⟨?_, hnds.trans h1nodes, hmx.trans h1max, hlen.trans h1len,
          hEA1, hsk.trans h1src, hkk1.trans h1snk, hnode1.trans h1node,
          fun a2 b2 => (hps a2 b2).trans (hpair a2 b2)⟩
        rw [hcs, hΔ]
        ring
      · subst hp
        subst hq
        have hm : m < net.node_count := by
          rw [hncEq]
          exact hBPq.1
        rw [hopStoreB_AB, hopStoreB_AB, if_pos rfl, if_pos rfl] at hsb
        have hfl1 := congrArg Prod.fst hsb
        have hflo' : 1 ≤ (net.node_value m).flow := by
          dsimp only [] at hfl1
          rw [hfl1]
          omega
        have hΔ : crossSum χ net1 fl1 = crossSum χ net fl +
            (χ (.AfterNode m) - χ (.BeforeNode m)) := by
          have h' := crossSum_aug_split_minus χ net fl m hm hlenv hflo'
          rw [haug] at h'
          exact h'
        have hpair : ∀ a2 b2, pairSum net1 a2 b2 = pairSum net a2 b2 := by
          have h' := augment_pairSum net fl (.AfterNode m) (.BeforeNode m) hEA
            (fun a2 b2 hpp hqq hne => Position.noConfusion hpp)
            (fun a2 b2 hpp hqq hne => absurd
              (((Position.AfterNode.inj hpp).symm.trans
                (Position.BeforeNode.inj hqq)) : a2 = b2) hne)
          rw [haug] at h'
          exact h'
        refine ⟨?_, hnds.trans h1nodes, hmx.trans h1max, hlen.trans h1len,
          hEA1, hsk.trans h1src, hkk1.trans h1snk, hnode1.trans h1node,
          fun a2 b2 => (hps a2 b2).trans (hpair a2 b2)⟩
        rw [hcs, hΔ]
        ring
      · subst hp
        subst hq
        have hb : b < net.node_count := by
          rw [hncEq]
          exact hBPq.2
        have hmem' : a ∈ net.ancestors b := by
          rw [ancestors_eq_of_nodes_eq hnodes]
          exact hsym a b hmem
        rw [hopStoreB_AB, hopStoreB_AB, if_neg hab, if_neg hab] at hsb
        have hcp1 := congrArg Prod.snd hsb
        have hcap' : 1 ≤ (net.edge_value a b).2 := by
          rw [hcp1]
          omega
        have hΔ : crossSum χ net1 fl1 = crossSum χ net fl +
            (χ (.AfterNode a) - χ (.BeforeNode b)) := by
          have h' := crossSum_aug_e3_plus χ net fl a b hab hb hmem' hEA
          rw [haug] at h'
          exact h'
        have hpair : ∀ a2 b2, pairSum net1 a2 b2 = pairSum net a2 b2 := by
          have h' := augment_pairSum net fl (.AfterNode a) (.BeforeNode b) hEA
            (fun a2 b2 hpp hqq hne => Position.noConfusion hpp)
            (fun a2 b2 hpp hqq hne => by
              obtain rfl : a2 = a := (Position.AfterNode.inj hpp).symm
              obtain rfl : b2 = b := (Position.BeforeNode.inj hqq).symm
              exact ⟨hmem', hcap'⟩)
          rw [haug] at h'
          exact h'
        refine ⟨?_, hnds.trans h1nodes, hmx.trans h1max, hlen.trans h1len,
          hEA1, hsk.trans h1src, hkk1.trans h1snk, hnode1.trans h1node,
          fun a2 b2 => (hps a2 b2).trans (hpair a2 b2)⟩
        rw [hcs, hΔ]
        ring
      · subst hp
        subst hq
        have hz := hχs s hsmem
        have hΔ : crossSum χ net1 fl1 = crossSum χ net fl +
            (χ (.AfterNode s) - χ .Sink) := by
          have h' := crossSum_aug_snk_plus χ net fl s hz
          rw [haug] at h'
          exact h'
        have hpair : ∀ a2 b2, pairSum net1 a2 b2 = pairSum net a2 b2 := by
          have h' := augment_pairSum net fl (.AfterNode s) .Sink hEA
            (fun a2 b2 hpp hqq hne => Position.noConfusion hpp)
            (fun a2 b2 hpp hqq hne => Position.noConfusion hqq)
          rw [haug] at h'
          exact h'
        refine ⟨?_, hnds.trans h1nodes, hmx.trans h1max, hlen.trans h1len,
          hEA1, hsk.trans h1src, hkk1.trans h1snk, hnode1.trans h1node,
          fun a2 b2 => (hps a2 b2).trans (hpair a2 b2)⟩
        rw [hcs, hΔ]
        ring
      · subst hp
        subst hq
        have hz := hχs s hsmem
        have hΔ : crossSum χ net1 fl1 = crossSum χ net fl +
            (χ .Sink - χ (.AfterNode s)) := by
          have h' := crossSum_aug_snk_minus χ net fl s hz
          rw [haug] at h'
          exact h'
        have hpair : ∀ a2 b2, pairSum net1 a2 b2 = pairSum net a2 b2 := by
          have h' := augment_pairSum net fl .Sink (.AfterNode s) hEA
            (fun a2 b2 hpp hqq hne => Position.noConfusion hpp)
            (fun a2 b2 hpp hqq hne => Position.noConfusion hpp)
          rw [haug] at h'
          exact h'
        refine ⟨?_, hnds.trans h1nodes, hmx.trans h1max, hlen.trans h1len,
          hEA1, hsk.trans h1src, hkk1.trans h1snk, hnode1.trans h1node,
          fun a2 b2 => (hps a2 b2).trans (hpair a2 b2)⟩
        rw [hcs, hΔ]
        ring

/-- One `augment` call never touches the adjacency or the index bound. -/
theorem augment_nodes (net : BooleanNetwork) (fl : FlowEngine)
    (p q : Position) (f : Nat) :
    (FlowEngine.augment net fl p q f).1.nodes = net.nodes ∧
    (FlowEngine.augment net fl p q f).1.max_node_index =
      net.max_node_index := by
  rcases augment_net_char net fl p q f with h | ⟨n, _, _, h⟩ |
    ⟨n, _, _, h⟩ | ⟨n1, n2, _, _, _, h⟩ | ⟨n1, n2, _, _, _, h⟩ <;>
    rw [h] <;> exact ⟨rfl, rfl⟩

/-- The augmenting walk never touches the adjacency or the index bound. -/
theorem walkAugment_nodes (P : List (Position × Position)) :
    ∀ (fuel : Nat) (net : BooleanNetwork) (fl : FlowEngine) (q : Position)
      (net' : BooleanNetwork) (fl' : FlowEngine),
      FlowEngine.walkAugment P fuel net fl q = .ok (net', fl') →
      net'.nodes = net.nodes ∧
      net'.max_node_index = net.max_node_index := by
  intro fuel
  induction fuel with
  | zero =>
    intro net fl q net' fl' h
    rw [FlowEngine.walkAugment] at h
    exact Res.noConfusion h
  | succ n ih =>
    intro net fl q net' fl' h
    rw [FlowEngine.walkAugment] at h
    rcases hl : P.lookup q with _ | p <;> rw [hl] at h
    · cases h
      exact ⟨rfl, rfl⟩
    · dsimp only [] at h
      rcases haug : FlowEngine.augment net fl p q 1 with ⟨net1, fl1⟩
      rw [haug] at h
      dsimp only [] at h
      have hn := augment_nodes net fl p q 1
      rw [haug] at hn
      obtain ⟨h1, h2⟩ := ih net1 fl1 p net' fl' h
      exact ⟨h1.trans hn.1, h2.trans hn.2⟩

/-- A `Flow::step` that reports no augmenting path leaves the state
untouched, and its DFS did not reach the sink. -/
theorem step_false (net : BooleanNetwork) (fl : FlowEngine) (fuel : Nat)
    (net' : BooleanNetwork) (fl' : FlowEngine)
    (h : FlowEngine.step net fl fuel = .ok (net', fl', false)) :
    net' = net ∧ fl' = fl ∧
    ∃ V P, FlowEngine.stepDfs net fl fuel [] [] [.Source] = .ok (V, P) ∧
      V.contains .Sink = false := by
  rw [FlowEngine.step] at h
  split at h
  · exact Res.noConfusion h
  · exact Res.noConfusion h
  · rename_i visF PF hdfs
    split at h
    · rename_i hc
      cases h
      refine ⟨rfl, rfl, visF, PF, hdfs, ?_⟩
      rcases hcc : visF.contains Position.Sink with _ | _
      · rfl
      · rw [hcc] at hc
        exact Bool.noConfusion hc
    · split at h
      · exact Res.noConfusion h
      · exact Res.noConfusion h
      · simp at h

/-- A `Flow::step` never touches the adjacency or the index bound. -/
theorem step_nodes (net : BooleanNetwork) (fl : FlowEngine) (fuel : Nat)
    (net' : BooleanNetwork) (fl' : FlowEngine) (b : Bool)
    (h : FlowEngine.step net fl fuel = .ok (net', fl', b)) :
    net'.nodes = net.nodes ∧ net'.max_node_index = net.max_node_index := by
  rw [FlowEngine.step] at h
  split at h
  · exact Res.noConfusion h
  · exact Res.noConfusion h
  · split at h
    · cases h
      exact ⟨rfl, rfl⟩
    · split at h
      · exact Res.noConfusion h
      · exact Res.noConfusion h
      · rename_i net1 fl1 hw
        cases h
        exact walkAugment_nodes _ _ _ _ _ _ _ hw

/-- The `while flow.step()` loop keeps every node flow at most 1. -/
theorem runSteps_flows_le_one (dfsFuel : Nat) :
    ∀ (fuel : Nat) (net : BooleanNetwork) (fl : FlowEngine)
      (net' : BooleanNetwork) (fl' : FlowEngine) (m : Nat),
      FlowEngine.runSteps dfsFuel fuel net fl = .ok (net', fl', m) →
      (∀ ni, ni ∉ net.ancestors ni) →
      (∀ i, (net.node_value i).flow ≤ 1) →
      ∀ i, (net'.node_value i).flow ≤ 1 := by
  intro fuel
  induction fuel with
  | zero =>
    intro net fl net' fl' m h
    rw [FlowEngine.runSteps] at h
    exact Res.noConfusion h
  | succ n ih =>
    intro net fl net' fl' m h hsl hA
    rw [FlowEngine.runSteps] at h
    split at h
    · exact Res.noConfusion h
    · exact Res.noConfusion h
    · rename_i net1 fl1 hstep
      cases h
      obtain ⟨he1, he2, _⟩ := step_false net fl dfsFuel _ _ hstep
      rw [he1]
      exact hA
    · rename_i net1 fl1 hstep
      split at h
      · exact Res.noConfusion h
      · exact Res.noConfusion h
      · rename_i net2 fl2 m2 hrun
        cases h
        have h1 := step_flows_le_one net fl dfsFuel net1 fl1 true hsl hA hstep
        have hnd := step_nodes net fl dfsFuel net1 fl1 true hstep
        refine ih net1 fl1 _ _ _ hrun ?_ h1
        intro ni
        rw [ancestors_eq_of_nodes_eq hnd.1 ni]
        exact hsl ni

/-- A successful `Flow::step` that found an augmenting path raises the
signed cross-sum by `χ Source - χ Sink` and preserves the frame. -/
theorem step_crossSum (χ : Position → Int) (net : BooleanNetwork)
    (fl : FlowEngine) (fuel : Nat) (net' : BooleanNetwork) (fl' : FlowEngine)
    (hslA : ∀ ni, ni ∉ net.ancestors ni)
    (hslD : ∀ ni, ni ∉ net.descendents ni)
    (hsym : ∀ a b, b ∈ net.descendents a → a ∈ net.ancestors b)
    (hAR : ∀ v a, a ∈ net.ancestors v → a < net.node_count)
    (hDR : ∀ v d, d ∈ net.descendents v → d < net.node_count)
    (hsrcB : ∀ s ∈ fl.source.map Prod.fst, s < net.node_count)
    (hsnkB : ∀ s ∈ fl.sink.map Prod.fst, s < net.node_count)
    (hnv : net.node_count ≤ net.node_values.length)
    (hEA : ∀ u, (net.edge_values.getD u []).length =
      (net.ancestors u).length)
    (hχs : ∀ s ∈ fl.sink.map Prod.fst, χ (.AfterNode s) - χ .Sink = 0)
    (h : FlowEngine.step net fl fuel = .ok (net', fl', true)) :
    crossSum χ net' fl' = crossSum χ net fl + (χ .Source - χ .Sink) ∧
    net'.nodes = net.nodes ∧
    net'.max_node_index = net.max_node_index ∧
    net'.node_values.length = net.node_values.length ∧
    (∀ u, (net'.edge_values.getD u []).length =
      (net'.ancestors u).length) ∧
    fl'.source.map Prod.fst = fl.source.map Prod.fst ∧
    fl'.sink.map Prod.fst = fl.sink.map Prod.fst ∧
    fl'.node = fl.node ∧
    (∀ a b, pairSum net' a b = pairSum net a b) := by
  rw [FlowEngine.step] at h
  split at h
  · exact Res.noConfusion h
  · exact Res.noConfusion h
  · rename_i visF PF hdfs
    split at h
    · simp at h
    · rename_i hc
      have hsink : Position.Sink ∈ visF := by
        rcases hcc : visF.contains Position.Sink with _ | _
        · rw [hcc] at hc
          exact absurd rfl hc
        · exact (contains_iff_mem _ _).1 hcc
      split at h
      · exact Res.noConfusion h
      · exact Res.noConfusion h
      · rename_i net1 fl1 hw
        cases h
        have hinv := stepDfs_ok_inv hslA fuel [] [] [.Source] visF PF hdfs
          (dfsInv_init net)
        have hconds := stepDfs_ok_conds fuel [] [] [.Source] visF PF hdfs
          (fun q r hqr => Option.noConfusion hqr)
        have hrooted := stepDfs_ok_rooted fuel [] [] [.Source] visF PF hdfs
          (fun q hq => by
            rcases hq with h' | h'
            · exact absurd h' (List.not_mem_nil _)
            · exact Or.inl (List.mem_singleton.1 h'))
        have hWcl : ∀ x ∈ boundedPosList net.node_count, ∀ d,
            stepSucc net fl x d → d ∈ boundedPosList net.node_count := by
          intro x hx d hd
          exact mem_boundedPosList.2
            (stepSucc_bounded net fl net.node_count hAR hDR hsrcB hsnkB x d
              (mem_boundedPosList.1 hx) hd)
        have hbnd := stepDfs_bounded (boundedPosList net.node_count) hWcl
          fuel [] [] [.Source] visF PF hdfs
          (fun x hx => absurd hx (List.not_mem_nil _))
          (fun x hx => by
            rw [List.mem_singleton.1 hx]
            exact List.mem_cons_self _ _)
        have hmemF : ∀ q p, PF.lookup q = some p → p ∈ visF ∧ q ∈ visF := by
          intro q p hl
          obtain ⟨h1, _, h3⟩ := hinv.1 q p hl
          refine ⟨h1, ?_⟩
          by_cases hq : q ∈ visF
          · exact hq
          · exact absurd (h3 hq) (List.not_mem_nil _)
        have hres := walkAugment_crossSum χ net fl PF
          (fun x => visF.indexOf x)
          (fun q p hl => by
            obtain ⟨h1, h2, h3⟩ := hinv.1 q p hl
            by_cases hq : q ∈ visF
            · exact h2 hq
            · exact absurd (h3 hq) (List.not_mem_nil _))
          hconds
          (fun q p hl => hrooted p (hmemF q p hl).1)
          (fun q p hl => ⟨mem_boundedPosList.1 (hbnd p (hmemF q p hl).1),
            mem_boundedPosList.1 (hbnd q (hmemF q p hl).2)⟩)
          hslA hslD hsym hχs fuel net fl .Sink _ _ hw rfl rfl hnv hEA
          rfl rfl
          (by
            rcases hrooted .Sink hsink with h' | h'
            · exact Or.inr (absurd h' (by simp))
            · exact Or.inr h')
          (fun x p2 hx hle => rfl)
        exact hres

/-- The `while flow.step()` loop raises the signed cross-sum by exactly one
`χ Source - χ Sink` per augmenting path, preserves the frame, and ends in a
state whose `step` finds no augmenting path and changes nothing. -/
theorem runSteps_crossSum (χ : Position → Int) (dfsFuel : Nat) :
    ∀ (fuel : Nat) (net : BooleanNetwork) (fl : FlowEngine)
      (net' : BooleanNetwork) (fl' : FlowEngine) (m : Nat),
      FlowEngine.runSteps dfsFuel fuel net fl = .ok (net', fl', m) →
      (∀ ni, ni ∉ net.ancestors ni) →
      (∀ ni, ni ∉ net.descendents ni) →
      (∀ a b, b ∈ net.descendents a → a ∈ net.ancestors b) →
      (∀ v a, a ∈ net.ancestors v → a < net.node_count) →
      (∀ v d, d ∈ net.descendents v → d < net.node_count) →
      (∀ s ∈ fl.source.map Prod.fst, s < net.node_count) →
      (∀ s ∈ fl.sink.map Prod.fst, s < net.node_count) →
      net.node_count ≤ net.node_values.length →
      (∀ u, (net.edge_values.getD u []).length =
        (net.ancestors u).length) →
      (∀ s ∈ fl.sink.map Prod.fst, χ (.AfterNode s) - χ .Sink = 0) →
      crossSum χ net' fl' = crossSum χ net fl +
        (m : Int) * (χ .Source - χ .Sink) ∧
      net'.nodes = net.nodes ∧
      net'.max_node_index = net.max_node_index ∧
      net'.node_values.length = net.node_values.length ∧
      (∀ u, (net'.edge_values.getD u []).length =
        (net'.ancestors u).length) ∧
      fl'.source.map Prod.fst = fl.source.map Prod.fst ∧
      fl'.sink.map Prod.fst = fl.sink.map Prod.fst ∧
      fl'.node = fl.node ∧
      (∀ a b, pairSum net' a b = pairSum net a b) ∧
      FlowEngine.step net' fl' dfsFuel = .ok (net', fl', false) := by
  intro fuel
  induction fuel with
  | zero =>
    intro net fl net' fl' m h
    rw [FlowEngine.runSteps] at h
    exact Res.noConfusion h
  | succ n ih =>
    intro net fl net' fl' m h hslA hslD hsym hAR hDR hsrcB hsnkB hnv hEA hχs
    rw [FlowEngine.runSteps] at h
    split at h
    · exact Res.noConfusion h
    · exact Res.noConfusion h
    · rename_i net1 fl1 hstep
      cases h
      obtain ⟨he1, he2, _⟩ := step_false net fl dfsFuel _ _ hstep
      subst he1
      subst he2
      refine ⟨by push_cast; ring, rfl, rfl, rfl, hEA, rfl, rfl, rfl,
        fun a b => rfl, hstep⟩
    · rename_i net1 fl1 hstep
      split at h
      · exact Res.noConfusion h
      · exact Res.noConfusion h
      · rename_i net2 fl2 m2 hrun
        cases h
        obtain ⟨hΔ, h1nodes, h1max, h1len, h1EA, h1src, h1snk, h1node,
          h1pair⟩ := step_crossSum χ net fl dfsFuel net1 fl1 hslA hslD hsym
            hAR hDR hsrcB hsnkB hnv hEA hχs hstep
        have h1nc : net1.node_count = net.node_count := by
          unfold BooleanNetwork.node_count
          rw [h1max]
        obtain ⟨hΔ2, h2nodes, h2max, h2len, h2EA, h2src, h2snk, h2node,
          h2pair, hfin⟩ := ih net1 fl1 _ _ _ hrun
          (fun ni => by
            rw [ancestors_eq_of_nodes_eq h1nodes ni]
            exact hslA ni)
          (fun ni => by
            rw [descendents_eq_of_nodes_eq h1nodes ni]
            exact hslD ni)
          (fun a b hb => by
            rw [ancestors_eq_of_nodes_eq h1nodes b]
            refine hsym a b ?_
            rw [← descendents_eq_of_nodes_eq h1nodes a]
            exact hb)
          (fun v a ha => by
            rw [h1nc]
            refine hAR v a ?_
            rw [← ancestors_eq_of_nodes_eq h1nodes v]
            exact ha)
          (fun v d hd => by
            rw [h1nc]
            refine hDR v d ?_
            rw [← descendents_eq_of_nodes_eq h1nodes v]
            exact hd)
          (fun s hs => by
            rw [h1nc]
            refine hsrcB s ?_
            rw [← h1src]
            exact hs)
          (fun s hs => by
            rw [h1nc]
            refine hsnkB s ?_
            rw [← h1snk]
            exact hs)
          (by
            rw [h1nc, h1len]
            exact hnv)
          h1EA
          (fun s hs => hχs s (by rw [← h1snk]; exact hs))
        refine ⟨?_, h2nodes.trans h1nodes, h2max.trans h1max,
          h2len.trans h1len, h2EA, h2src.trans h1src, h2snk.trans h1snk,
          h2node.trans h1node,
          fun a b => (h2pair a b).trans (h1pair a b), hfin⟩
        rw [hΔ2, hΔ]
        push_cast
        ring

/-! ### Membership characterizations of the subnetwork builder's outputs -/

theorem dedup_append_foldl_sub (l : List Nat) :
    ∀ (acc : List Nat) (x : Nat),
      x ∈ l.foldl (fun sk a2 => if sk.contains a2 then sk else sk ++ [a2])
        acc →
      x ∈ acc ∨ x ∈ l := by
  induction l with
  | nil => intro acc x hx; exact Or.inl hx
  | cons a l ih =>
    intro acc x hx
    simp only [List.foldl] at hx
    rcases ih _ x hx with h | h
    · split at h
      · exact Or.inl h
      · rcases List.mem_append.1 h with h' | h'
        · exact Or.inl h'
        · exact Or.inr ((List.mem_singleton.1 h') ▸ List.mem_cons_self _ _)
    · exact Or.inr (List.mem_cons_of_mem _ h)

theorem bfsStep_source_sub (node p : Nat) (net : BooleanNetwork)
    (source sink visited s : List Nat) (a : Nat) (x : Nat)
    (hx : x ∈ (bfsStep node p (net, source, sink, visited, s) a).2.1) :
    x ∈ source ∨ x = a := by
  rw [bfsStep] at hx
  dsimp only [] at hx
  split at hx <;> [skip; exact Or.inl hx]
  split at hx
  · exact Or.inl hx
  · split at hx
    · rcases List.mem_append.1 hx with h | h
      · exact Or.inl h
      · exact Or.inr (List.mem_singleton.1 h)
    · exact Or.inl hx

theorem bfsStep_snk_sub (node p : Nat) (net : BooleanNetwork)
    (source sink visited s : List Nat) (a : Nat) (x : Nat)
    (hx : x ∈ (bfsStep node p (net, source, sink, visited, s) a).2.2.1) :
    x ∈ sink ∨ x ∈ net.ancestors a := by
  rw [bfsStep] at hx
  dsimp only [] at hx
  split at hx <;> [skip; exact Or.inl hx]
  split at hx
  · exact dedup_append_foldl_sub _ _ x hx
  · split at hx
    · exact Or.inl hx
    · exact Or.inl hx

theorem bfsFold_source_sub (node p : Nat) :
    ∀ (l : List Nat)
      (st : BooleanNetwork × List Nat × List Nat × List Nat × List Nat)
      (x : Nat), x ∈ (bfsFold node p l st).2.1 →
      x ∈ st.2.1 ∨ x ∈ l := by
  intro l
  induction l with
  | nil => intro st x hx; exact Or.inl hx
  | cons a l ih =>
    intro st x hx
    obtain ⟨net, source, sink, visited, s⟩ := st
    rw [bfsFold_cons] at hx
    rcases ih _ x hx with h | h
    · rcases bfsStep_source_sub node p net source sink visited s a x h with
        h' | h'
      · exact Or.inl h'
      · exact Or.inr (h' ▸ List.mem_cons_self _ _)
    · exact Or.inr (List.mem_cons_of_mem _ h)

theorem bfsFold_snk_sub (node p : Nat) :
    ∀ (l : List Nat)
      (st : BooleanNetwork × List Nat × List Nat × List Nat × List Nat)
      (x : Nat), x ∈ (bfsFold node p l st).2.2.1 →
      x ∈ st.2.2.1 ∨ ∃ a, x ∈ st.1.ancestors a := by
  intro l
  induction l with
  | nil => intro st x hx; exact Or.inl hx
  | cons a l ih =>
    intro st x hx
    obtain ⟨net, source, sink, visited, s⟩ := st
    rw [bfsFold_cons] at hx
    rcases ih _ x hx with h | h
    · rcases bfsStep_snk_sub node p net source sink visited s a x h with
        h' | h'
      · exact Or.inl h'
      · exact Or.inr ⟨a, h'⟩
    · obtain ⟨a2, ha2⟩ := h
      refine Or.inr ⟨a2, ?_⟩
      rw [← ancestors_eq_of_nodes_eq
        (bfsStep_nodes node p net source sink visited s a) a2]
      exact ha2

/-- Every node in the outputs of the subnetwork builder was there initially
or is an ancestor of some node. -/
theorem labelBfs_members (p : Nat) :
    ∀ (fuel : Nat) (net : BooleanNetwork) (source sink visited s : List Nat)
      (net1 : BooleanNetwork) (src snk vis : List Nat),
      labelBfs p fuel net source sink visited s = .ok (net1, src, snk, vis) →
      (∀ x ∈ src, x ∈ source ∨ ∃ v, x ∈ net.ancestors v) ∧
      (∀ x ∈ snk, x ∈ sink ∨ ∃ v, x ∈ net.ancestors v) ∧
      (∀ x ∈ vis, x ∈ visited ∨ ∃ v, x ∈ net.ancestors v) := by
  intro fuel
  induction fuel with
  | zero =>
    intro net source sink visited s net1 src snk vis h
    rw [labelBfs] at h
    exact Res.noConfusion h
  | succ n ih =>
    intro net source sink visited s net1 src snk vis h
    match s with
    | [] =>
      rw [labelBfs] at h
      cases h
      exact ⟨fun x hx => Or.inl hx, fun x hx => Or.inl hx,
        fun x hx => Or.inl hx⟩
    | node :: s =>
      rw [labelBfs] at h
      obtain ⟨h1, h2, h3⟩ := ih _ _ _ _ _ _ _ _ _ h
      set net' := net.set_node_value node (fun nv => { nv with flow := 0 })
        with hnet'
      have hanc' : ∀ v, (bfsFold node p (net.ancestors node)
          (net', source, sink, visited, s)).1.ancestors v =
          net.ancestors v := by
        intro v
        rw [ancestors_eq_of_nodes_eq
          ((bfsFold_struct node p (net.ancestors node)
            (net', source, sink, visited, s)).1) v]
        rfl
      refine ⟨fun x hx => ?_, fun x hx => ?_, fun x hx => ?_⟩
      · rcases h1 x hx with h' | ⟨v, hv⟩
        · rcases bfsFold_source_sub node p (net.ancestors node) _ x h' with
            h'' | h''
          · exact Or.inl h''
          · exact Or.inr ⟨node, h''⟩
        · rw [hanc' v] at hv
          exact Or.inr ⟨v, hv⟩
      · rcases h2 x hx with h' | ⟨v, hv⟩
        · rcases bfsFold_snk_sub node p (net.ancestors node) _ x h' with
            h'' | ⟨a, ha⟩
          · exact Or.inl h''
          · refine Or.inr ⟨a, ?_⟩
            have : (net' : BooleanNetwork).ancestors a = net.ancestors a := rfl
            rw [← this]
            exact ha
        · rw [hanc' v] at hv
          exact Or.inr ⟨v, hv⟩
      · rcases h3 x hx with h' | ⟨v, hv⟩
        · rcases bfsFold_visited_sub node p (net.ancestors node) _ x h' with
            h'' | h''
          · exact Or.inl h''
          · exact Or.inr ⟨node, h''⟩
        · rw [hanc' v] at hv
          exact Or.inr ⟨v, hv⟩

/-! ### The input frontier `inputs` of `src/flowmap/map.rs` -/

/-- The inner fold of `inputs`: append each member of `l` that is outside
`xb` and not yet collected. -/
def inpInner (xb l acc : List Nat) : List Nat :=
  l.foldl
    (fun acc ancestor =>
      if !(xb.contains ancestor) && !(acc.contains ancestor) then
        acc ++ [ancestor]
      else acc) acc

theorem inputs_eq_foldl (net : BooleanNetwork) (xb : List Nat) :
    inputs net xb =
      xb.foldl (fun acc n => inpInner xb (net.ancestors n) acc) [] := rfl

theorem inpInner_mono (xb : List Nat) :
    ∀ (l acc : List Nat) (x : Nat), x ∈ acc → x ∈ inpInner xb l acc := by
  intro l
  induction l with
  | nil => intro acc x hx; exact hx
  | cons a l ih =>
    intro acc x hx
    show x ∈ inpInner xb l
      (if !(xb.contains a) && !(acc.contains a) then acc ++ [a] else acc)
    split
    · exact ih _ x (List.mem_append_left _ hx)
    · exact ih _ x hx

theorem inpInner_sub (xb : List Nat) :
    ∀ (l acc : List Nat) (x : Nat), x ∈ inpInner xb l acc →
      x ∈ acc ∨ (x ∈ l ∧ x ∉ xb) := by
  intro l
  induction l with
  | nil => intro acc x hx; exact Or.inl hx
  | cons a l ih =>
    intro acc x hx
    have hx' : x ∈ inpInner xb l (if !(xb.contains a) && !(acc.contains a)
        then acc ++ [a] else acc) := hx
    rcases ih _ x hx' with h | ⟨h1, h2⟩
    · split at h
      · rcases List.mem_append.1 h with h' | h'
        · exact Or.inl h'
        · rename_i hg
          rw [Bool.and_eq_true, Bool.not_eq_true', Bool.not_eq_true'] at hg
          refine Or.inr ⟨(List.mem_singleton.1 h') ▸ List.mem_cons_self _ _,
            fun hm => ?_⟩
          rw [List.mem_singleton.1 h'] at hm
          rw [(contains_iff_mem _ _).2 hm] at hg
          exact Bool.noConfusion hg.1
      · exact Or.inl h
    · exact Or.inr ⟨List.mem_cons_of_mem _ h1, h2⟩

theorem inpInner_complete (xb : List Nat) :
    ∀ (l acc : List Nat) (x : Nat), x ∈ l → x ∉ xb →
      x ∈ inpInner xb l acc := by
  intro l
  induction l with
  | nil => intro acc x hx; exact absurd hx (List.not_mem_nil _)
  | cons a l ih =>
    intro acc x hx hnb
    rcases List.mem_cons.1 hx with rfl | hx'
    · show x ∈ inpInner xb l
        (if !(xb.contains x) && !(acc.contains x) then acc ++ [x] else acc)
      split
      · exact inpInner_mono xb l _ x
          (List.mem_append_right _ (List.mem_singleton.2 rfl))
      · rename_i hg
        rw [Bool.and_eq_true, not_and_or] at hg
        rcases hg with hg | hg
        · exfalso
          rw [Bool.not_eq_true', Bool.not_eq_false] at hg
          exact hnb ((contains_iff_mem _ _).1 hg)
        · rw [Bool.not_eq_true', Bool.not_eq_false] at hg
          exact inpInner_mono xb l _ x ((contains_iff_mem _ _).1 hg)
    · show x ∈ inpInner xb l
        (if !(xb.contains a) && !(acc.contains a) then acc ++ [a] else acc)
      exact ih _ x hx' hnb

theorem inpInner_nodup (xb : List Nat) :
    ∀ (l acc : List Nat), acc.Nodup → (inpInner xb l acc).Nodup := by
  intro l
  induction l with
  | nil => intro acc h; exact h
  | cons a l ih =>
    intro acc h
    show (inpInner xb l
      (if !(xb.contains a) && !(acc.contains a) then acc ++ [a]
        else acc)).Nodup
    split
    · rename_i hg
      rw [Bool.and_eq_true, Bool.not_eq_true', Bool.not_eq_true'] at hg
      refine ih _ ?_
      rw [List.nodup_append]
      refine ⟨h, List.nodup_singleton _, fun x hx hmem => ?_⟩
      have hxa : x = a := List.mem_singleton.1 hmem
      rw [hxa] at hx
      rw [(contains_iff_mem _ _).2 hx] at hg
      exact Bool.noConfusion hg.2
    · exact ih _ h

theorem inpInner_len (xb : List Nat) :
    ∀ (l acc : List Nat),
      (inpInner xb l acc).length ≤ acc.length + l.length := by
  intro l
  induction l with
  | nil => intro acc; exact Nat.le_refl _
  | cons a l ih =>
    intro acc
    show (inpInner xb l
      (if !(xb.contains a) && !(acc.contains a) then acc ++ [a]
        else acc)).length ≤ acc.length + (a :: l).length
    split
    · refine Nat.le_trans (ih _) ?_
      simp only [List.length_append, List.length_cons, List.length_nil]
      omega
    · refine Nat.le_trans (ih _) ?_
      simp only [List.length_cons]
      omega

theorem inputs_fold_mono (net : BooleanNetwork) (xb : List Nat) :
    ∀ (m acc : List Nat) (x : Nat), x ∈ acc →
      x ∈ m.foldl (fun acc n => inpInner xb (net.ancestors n) acc) acc := by
  intro m
  induction m with
  | nil => intro acc x hx; exact hx
  | cons v m ih =>
    intro acc x hx
    exact ih _ x (inpInner_mono xb _ acc x hx)

theorem inputs_fold_sub (net : BooleanNetwork) (xb : List Nat) :
    ∀ (m acc : List Nat) (x : Nat),
      x ∈ m.foldl (fun acc n => inpInner xb (net.ancestors n) acc) acc →
      x ∈ acc ∨ ∃ v ∈ m, x ∈ net.ancestors v ∧ x ∉ xb := by
  intro m
  induction m with
  | nil => intro acc x hx; exact Or.inl hx
  | cons v m ih =>
    intro acc x hx
    rcases ih _ x hx with h | ⟨v2, hv2, h1, h2⟩
    · rcases inpInner_sub xb _ acc x h with h' | ⟨h1, h2⟩
      · exact Or.inl h'
      · exact Or.inr ⟨v, List.mem_cons_self _ _, h1, h2⟩
    · exact Or.inr ⟨v2, List.mem_cons_of_mem _ hv2, h1, h2⟩

theorem inputs_fold_complete (net : BooleanNetwork) (xb : List Nat) :
    ∀ (m acc : List Nat) (x v : Nat), v ∈ m → x ∈ net.ancestors v →
      x ∉ xb →
      x ∈ m.foldl (fun acc n => inpInner xb (net.ancestors n) acc) acc := by
  intro m
  induction m with
  | nil => intro acc x v hv; exact absurd hv (List.not_mem_nil _)
  | cons v2 m ih =>
    intro acc x v hv hanc hnb
    rcases List.mem_cons.1 hv with rfl | hv'
    · exact inputs_fold_mono net xb m _ x (inpInner_complete xb _ acc x hanc hnb)
    · exact ih _ x v hv' hanc hnb

theorem inputs_fold_nodup (net : BooleanNetwork) (xb : List Nat) :
    ∀ (m acc : List Nat), acc.Nodup →
      (m.foldl (fun acc n => inpInner xb (net.ancestors n) acc) acc).Nodup := by
  intro m
  induction m with
  | nil => intro acc h; exact h
  | cons v m ih =>
    intro acc h
    exact ih _ (inpInner_nodup xb _ acc h)

/-- Membership characterization of `inputs`: exactly the nodes outside
`x_bar` with an edge into `x_bar`. -/
theorem inputs_mem (net : BooleanNetwork) (xb : List Nat) (u : Nat) :
    u ∈ inputs net xb ↔ (u ∉ xb ∧ ∃ v ∈ xb, u ∈ net.ancestors v) := by
  rw [inputs_eq_foldl]
  constructor
  · intro h
    rcases inputs_fold_sub net xb xb [] u h with h' | ⟨v, hv, h1, h2⟩
    · exact absurd h' (List.not_mem_nil _)
    · exact ⟨h2, v, hv, h1⟩
  · intro ⟨h1, v, hv, h2⟩
    exact inputs_fold_complete net xb xb [] u v hv h2 h1

theorem inputs_nodup (net : BooleanNetwork) (xb : List Nat) :
    (inputs net xb).Nodup := by
  rw [inputs_eq_foldl]
  exact inputs_fold_nodup net xb xb [] List.nodup_nil

theorem foldl_fun_congr {α β : Type} (f g : β → α → β)
    (h : ∀ b a, f b a = g b a) :
    ∀ (l : List α) (b : β), l.foldl f b = l.foldl g b := by
  intro l
  induction l with
  | nil => intro b; rfl
  | cons a l ih =>
    intro b
    simp only [List.foldl]
    rw [h b a]
    exact ih _

/-- `inputs` depends only on the adjacency structure. -/
theorem inputs_nodes_congr {a b : BooleanNetwork} (h : a.nodes = b.nodes)
    (xb : List Nat) : inputs a xb = inputs b xb := by
  rw [inputs_eq_foldl, inputs_eq_foldl]
  refine foldl_fun_congr _ _ (fun acc n => ?_) xb []
  rw [ancestors_eq_of_nodes_eq h n]

/-- The frontier of the singleton cut is contained in the ancestor list. -/
theorem inputs_singleton_le (net : BooleanNetwork) (n : Nat) :
    (inputs net [n]).length ≤ (net.ancestors n).length := by
  rw [inputs_eq_foldl]
  show ((inpInner [n] (net.ancestors n) [] : List Nat)).length ≤ _
  have := inpInner_len [n] (net.ancestors n) []
  simpa using this

/-! ### Sum arithmetic for the counting argument -/

theorem sum_map_sub {α : Type} (f g : α → Int) :
    ∀ (l : List α),
      (l.map f).sum - (l.map g).sum = (l.map (fun x => f x - g x)).sum := by
  intro l
  induction l with
  | nil => rfl
  | cons a l ih =>
    simp only [List.map_cons, List.sum_cons]
    rw [← ih]
    ring

theorem sum_map_bound {α : Type} [DecidableEq α] (g : α → Int) :
    ∀ (l U : List α), U.Nodup → (∀ u ∈ U, u ∈ l) →
      (∀ x ∈ l, 0 ≤ g x) → (∀ u ∈ U, 1 ≤ g u) →
      (U.length : Int) ≤ (l.map g).sum := by
  intro l
  induction l with
  | nil =>
    intro U _ hsub _ _
    match U with
    | [] => exact le_refl 0
    | u :: _ =>
      exact absurd (hsub u (List.mem_cons_self _ _)) (List.not_mem_nil _)
  | cons a l ih =>
    intro U hU hsub h0 h1
    simp only [List.map_cons, List.sum_cons]
    by_cases ha : a ∈ U
    · have hlen : (U.erase a).length = U.length - 1 :=
        List.length_erase_of_mem ha
      have hpos : 1 ≤ U.length := List.length_pos.2
        (fun he => absurd (he ▸ ha) (List.not_mem_nil _))
      have hih := ih (U.erase a) (hU.erase a)
        (fun u hu => by
          have hmem := (List.Nodup.mem_erase_iff hU).1 hu
          rcases List.mem_cons.1 (hsub u hmem.2) with rfl | h'
          · exact absurd rfl hmem.1
          · exact h')
        (fun x hx => h0 x (List.mem_cons_of_mem _ hx))
        (fun u hu => h1 u ((List.Nodup.mem_erase_iff hU).1 hu).2)
      have hga := h1 a ha
      rw [hlen] at hih
      have : ((U.length - 1 : Nat) : Int) = (U.length : Int) - 1 := by
        omega
      rw [this] at hih
      omega
    · have hih := ih U hU
        (fun u hu => by
          rcases List.mem_cons.1 (hsub u hu) with rfl | h'
          · exact absurd hu ha
          · exact h')
        (fun x hx => h0 x (List.mem_cons_of_mem _ hx)) h1
      have hga := h0 a (List.mem_cons_self _ _)
      omega

theorem sum_map_flatMap {α β : Type} (F : α → List β) (g : β → Int) :
    ∀ (L : List α),
      ((L.flatMap F).map g).sum =
        (L.map (fun b => ((F b).map g).sum)).sum := by
  intro L
  induction L with
  | nil => rfl
  | cons a L ih =>
    rw [List.flatMap_cons, List.map_append, List.sum_append, List.map_cons,
      List.sum_cons, ih]

theorem nodup_pairs (F : Nat → List Nat) :
    ∀ (L : List Nat), L.Nodup → (∀ b, (F b).Nodup) →
      (L.flatMap (fun b => (F b).map (fun a => (a, b)))).Nodup := by
  intro L
  induction L with
  | nil => intro _ _; exact List.nodup_nil
  | cons b L ih =>
    intro hL hF
    rw [List.flatMap_cons, List.nodup_append]
    refine ⟨List.Nodup.map (fun x y hxy => congrArg Prod.fst hxy) (hF b),
      ih (List.nodup_cons.1 hL).2 hF, ?_⟩
    intro x hx1 hx2
    obtain ⟨a1, _, heq1⟩ := List.mem_map.1 hx1
    obtain ⟨b2, hb2, hmem⟩ := List.mem_flatMap.1 hx2
    obtain ⟨a2, _, heq2⟩ := List.mem_map.1 hmem
    have hbb : b2 = b := by
      have h' := (heq2.trans heq1.symm)
      exact congrArg Prod.snd h'
    exact (List.nodup_cons.1 hL).1 (hbb ▸ hb2)

theorem length_filter_partition {α : Type} (p : α → Bool) :
    ∀ (l : List α), l.length =
      (l.filter p).length + (l.filter (fun x => !(p x))).length := by
  intro l
  induction l with
  | nil => rfl
  | cons a l ih =>
    by_cases hp : p a = true
    · rw [List.filter_cons_of_pos hp,
        List.filter_cons_of_neg (by simp [hp])]
      simp only [List.length_cons]
      omega
    · rw [List.filter_cons_of_neg hp,
        List.filter_cons_of_pos (by simp [Bool.eq_false_iff.2 hp])]
      simp only [List.length_cons]
      omega

/-- Fresh legs carry no flow across any cut. -/
theorem srcSum_new (χ : Position → Int) (l : List Nat) :
    srcSum χ (l.map (fun ni => (ni, 0))) = 0 := by
  rw [srcSum, List.map_map]
  apply List.sum_eq_zero
  intro x hx
  obtain ⟨ni, _, hni⟩ := List.mem_map.1 hx
  rw [← hni]
  simp

theorem snkSum_new (χ : Position → Int) (l : List Nat) :
    snkSum χ (l.map (fun ni => (ni, 0))) = 0 := by
  rw [snkSum, List.map_map]
  apply List.sum_eq_zero
  intro x hx
  obtain ⟨ni, _, hni⟩ := List.mem_map.1 hx
  rw [← hni]
  simp

theorem srcSum_nonneg (χ : Position → Int)
    (hχ : ∀ pos, χ pos = 0 ∨ χ pos = 1) (hS : χ .Source = 1)
    (legs : List (Nat × Nat)) : 0 ≤ srcSum χ legs := by
  apply sum_map_nonneg
  intro e _
  rcases hχ (.BeforeNode e.1) with h | h <;> rw [hS, h] <;> simp

theorem snkSum_zero (χ : Position → Int) (legs : List (Nat × Nat))
    (h : ∀ e ∈ legs, χ (.AfterNode e.1) = 0) (hSink : χ .Sink = 0) :
    snkSum χ legs = 0 := by
  rw [snkSum]
  apply List.sum_eq_zero
  intro x hx
  obtain ⟨e, he, heq⟩ := List.mem_map.1 hx
  rw [← heq, h e he, hSink]
  ring

/-! ### Residual closure facts of a failed search's visited set -/

theorem closedV_split_flow (net : BooleanNetwork) (fl : FlowEngine)
    (V : List Position)
    (hcl : ∀ x ∈ V, ∀ d, stepSucc net fl x d → d ∈ V) (n : Nat)
    (hB : Position.BeforeNode n ∈ V) (hA : Position.AfterNode n ∉ V) :
    1 ≤ (net.node_value n).flow := by
  by_cases h0 : (net.node_value n).flow = 0
  · exfalso
    refine hA (hcl _ hB (.AfterNode n) (Or.inl ⟨?_, ?_⟩))
    · rw [FlowEngine.descendents]
      exact List.mem_singleton.2 rfl
    · rw [FlowEngine.flow_cap, if_pos (beq_self_eq_true n), h0]
      decide
  · omega

theorem closedV_split_zero (net : BooleanNetwork) (fl : FlowEngine)
    (V : List Position)
    (hcl : ∀ x ∈ V, ∀ d, stepSucc net fl x d → d ∈ V) (n : Nat)
    (hA : Position.AfterNode n ∈ V) (hB : Position.BeforeNode n ∉ V) :
    (net.node_value n).flow = 0 := by
  by_cases h0 : (net.node_value n).flow = 0
  · exact h0
  · exfalso
    refine hB (hcl _ hA (.BeforeNode n) (Or.inr ⟨?_, ?_⟩))
    · rw [FlowEngine.ancestors]
      exact List.mem_singleton.2 rfl
    · rw [FlowEngine.flow_cap, if_pos (beq_self_eq_true n)]
      show 0 < (net.node_value n).flow
      omega

theorem closedV_edge_zero (net : BooleanNetwork) (fl : FlowEngine)
    (V : List Position)
    (hcl : ∀ x ∈ V, ∀ d, stepSucc net fl x d → d ∈ V) (a b : Nat)
    (hmem : a ∈ net.ancestors b)
    (hB : Position.BeforeNode b ∈ V) (hA : Position.AfterNode a ∉ V) :
    (net.edge_value a b).1 = 0 := by
  by_cases h0 : (net.edge_value a b).1 = 0
  · exact h0
  · exfalso
    refine hA (hcl _ hB (.AfterNode a) (Or.inr ⟨?_, ?_⟩))
    · rw [FlowEngine.ancestors]
      exact List.mem_map.2 ⟨a, hmem, rfl⟩
    · rw [FlowEngine.flow_cap]
      omega

theorem closedV_sink_notmem (net : BooleanNetwork) (fl : FlowEngine)
    (V : List Position)
    (hcl : ∀ x ∈ V, ∀ d, stepSucc net fl x d → d ∈ V)
    (hSink : Position.Sink ∉ V) (s : Nat)
    (hs : s ∈ fl.sink.map Prod.fst) : Position.AfterNode s ∉ V := by
  intro hA
  obtain ⟨e, he, heq⟩ := List.mem_map.1 hs
  have hany : (fl.sink.any (fun e2 => e2.1 == s)) = true :=
    List.any_eq_true.2 ⟨e, he, by rw [heq]; exact beq_self_eq_true s⟩
  refine hSink (hcl _ hA .Sink (Or.inl ⟨?_, ?_⟩))
  · rw [FlowEngine.descendents, if_pos hany]
    exact List.mem_singleton.2 rfl
  · rw [FlowEngine.flow_cap]
    rcases hf : fl.sink.find? (fun e2 => e2.1 == s) with _ | e2
    · exfalso
      have := List.find?_eq_none.1 hf e he
      rw [heq] at this
      exact this (beq_self_eq_true s)
    · rw [hf]
      show 0 < (1000 : Nat)
      decide

theorem closedV_edge_cap_zero (net : BooleanNetwork) (fl : FlowEngine)
    (V : List Position)
    (hcl : ∀ x ∈ V, ∀ d, stepSucc net fl x d → d ∈ V)
    (hSink : Position.Sink ∉ V) (a b : Nat)
    (hdesc : b ∈ net.descendents a) (hbn : b ≠ fl.node)
    (hA : Position.AfterNode a ∈ V) (hB : Position.BeforeNode b ∉ V) :
    (net.edge_value a b).2 = 0 := by
  by_cases h0 : (net.edge_value a b).2 = 0
  · exact h0
  · exfalso
    have hnota : a ∉ fl.sink.map Prod.fst := fun hm =>
      closedV_sink_notmem net fl V hcl hSink a hm hA
    have hany : (fl.sink.any (fun e2 => e2.1 == a)) = false := by
      rcases hany : fl.sink.any (fun e2 => e2.1 == a) with _ | _
      · rfl
      · exfalso
        obtain ⟨e, he, heq⟩ := List.any_eq_true.1 hany
        exact hnota (List.mem_map.2 ⟨e, he, by simpa using heq⟩)
    refine hB (hcl _ hA (.BeforeNode b) (Or.inl ⟨?_, ?_⟩))
    · rw [FlowEngine.descendents, if_neg (by rw [hany]; exact
        Bool.false_ne_true)]
      refine List.mem_map.2 ⟨b, hdesc, ?_⟩
      rw [if_neg (by simpa using hbn)]
    · rw [FlowEngine.flow_cap]
      omega

/-! ### The counting argument: inputs of the cut set against `max_flow` -/

/-- Per-node difference term of the cross-sum between two states. -/
def gSplit (netF netB : BooleanNetwork) (χ : Position → Int) (n : Nat) : Int :=
  (((netF.node_value n).flow : Int) - ((netB.node_value n).flow : Int)) *
    (χ (.BeforeNode n) - χ (.AfterNode n))

/-- Per-edge difference term of the cross-sum between two states. -/
def gEdge (netF netB : BooleanNetwork) (χ : Position → Int) :
    Nat × Nat → Int
  | (a, b) =>
    (((netF.edge_value a b).1 : Int) - ((netB.edge_value a b).1 : Int)) *
      (χ (.AfterNode a) - χ (.BeforeNode b))

/-- The index list of the nested edge sum, flattened. -/
def edgePairs (net : BooleanNetwork) : List (Nat × Nat) :=
  (List.range net.node_count).flatMap (fun b =>
    ((net.ancestors b).dedup.map (fun a => (a, b))))

/-- A node of `x_bar` witnessing that `u` is an input of the cut. -/
def pickv (net : BooleanNetwork) (x_bar : List Nat) (u : Nat) : Nat :=
  (x_bar.find? (fun v => (net.ancestors v).contains u)).getD 0

theorem edgePairs_nodup (net : BooleanNetwork) : (edgePairs net).Nodup :=
  nodup_pairs (fun b => (net.ancestors b).dedup) (List.range net.node_count)
    (List.nodup_range _) (fun b => List.nodup_dedup _)

theorem pickv_spec (net : BooleanNetwork) (x_bar : List Nat) (u : Nat)
    (h : ∃ v ∈ x_bar, u ∈ net.ancestors v) :
    pickv net x_bar u ∈ x_bar ∧ u ∈ net.ancestors (pickv net x_bar u) := by
  obtain ⟨v, hvx, hva⟩ := h
  rw [pickv]
  rcases hf : x_bar.find? (fun v2 => (net.ancestors v2).contains u) with _ | w
  · exfalso
    have := List.find?_eq_none.1 hf v hvx
    exact this ((contains_iff_mem _ _).2 hva)
  · have h1 := List.find?_some hf
    have h2 := List.mem_of_find?_eq_some hf
    exact ⟨h2, (contains_iff_mem _ _).1 h1⟩

/-- The heart of the FlowMap cut bound: after the flow loop ends with value
`m` and a failed search visiting `V`, every input of the returned cut set
charges a distinct nonnegative difference term of the cross-sum, whose
total is exactly `m`. -/
theorem cut_counting_core
    (netB netF : BooleanNetwork) (flB flF : FlowEngine)
    (V : List Position) (χ : Position → Int) (m : Nat)
    (reach cone x_bar : List Nat)
    (hχ1 : ∀ pos ∈ V, χ pos = 1)
    (hχ0 : ∀ pos, pos ∉ V → χ pos = 0)
    (hclV : ∀ x ∈ V, ∀ d, stepSucc netF flF x d → d ∈ V)
    (hSrcV : Position.Source ∈ V)
    (hSinkN : Position.Sink ∉ V)
    (hnodesF : netF.nodes = netB.nodes)
    (hncF : netF.node_count = netB.node_count)
    (hnodeF : flF.node = flB.node)
    (hsnkKeys : flF.sink.map Prod.fst = flB.sink.map Prod.fst)
    (hpairs : ∀ a b, pairSum netF a b = pairSum netB a b)
    (hcs : crossSum χ netF flF = crossSum χ netB flB +
      (m : Int) * (χ .Source - χ .Sink))
    (hsrc0 : ∀ e ∈ flB.source, e.2 = 0)
    (hsnk0 : ∀ e ∈ flB.sink, e.2 = 0)
    (hcnt : ∀ a v, (netB.ancestors v).count a = (netB.descendents a).count v)
    (hflow1 : ∀ i, (netB.node_value i).flow ≤ 1)
    (hconeFlow : ∀ v ∈ cone, (netB.node_value v).flow = 0)
    (hconeEdge : ∀ v ∈ cone, ∀ a ∈ netB.ancestors v, resetE netB a v)
    (hconeAnc : ∀ v ∈ cone, ∀ a ∈ netB.ancestors v, a ∈ cone)
    (hconeLt : ∀ v ∈ cone, v < netB.node_count)
    (hnodeCone : flB.node ∈ cone)
    (hsnkAnc : ∀ a ∈ netB.ancestors flB.node, a ∈ flB.sink.map Prod.fst)
    (hreach : ∀ ni, ni ∈ reach ↔
      (Position.BeforeNode ni ∈ V ∨ Position.AfterNode ni ∈ V))
    (hxbar : x_bar = cone.filter (fun x => !(reach.contains x))) :
    (inputs netB x_bar).length ≤ m := by
  have hχS : χ .Source = 1 := hχ1 _ hSrcV
  have hχSink : χ .Sink = 0 := hχ0 _ hSinkN
  have hχ01 : ∀ pos, χ pos = 0 ∨ χ pos = 1 := fun pos => by
    by_cases h : pos ∈ V
    · exact Or.inr (hχ1 _ h)
    · exact Or.inl (hχ0 _ h)
  have hancF : ∀ i, netF.ancestors i = netB.ancestors i :=
    ancestors_eq_of_nodes_eq hnodesF
  have hdescF : ∀ i, netF.descendents i = netB.descendents i :=
    descendents_eq_of_nodes_eq hnodesF
  have hsym2 : ∀ a v, a ∈ netB.ancestors v → v ∈ netB.descendents a := by
    intro a v h
    have hc := hcnt a v
    have hpos : 0 < (netB.ancestors v).count a := List.count_pos_iff_mem.2 h
    rw [hc] at hpos
    exact List.count_pos_iff_mem.1 hpos
  have hxsub : ∀ v ∈ x_bar, v ∈ cone := by
    rw [hxbar]
    intro v hv
    exact (List.mem_filter.1 hv).1
  have hxV : ∀ v ∈ x_bar, Position.BeforeNode v ∉ V ∧
      Position.AfterNode v ∉ V := by
    intro v hv
    rw [hxbar] at hv
    have hnr : v ∉ reach := by
      intro hm
      have := (List.mem_filter.1 hv).2
      rw [(contains_iff_mem _ _).2 hm] at this
      exact Bool.noConfusion this
    exact ⟨fun h => hnr ((hreach v).2 (Or.inl h)),
      fun h => hnr ((hreach v).2 (Or.inr h))⟩
  have hinpCone : ∀ u ∈ inputs netB x_bar, u ∈ cone := by
    intro u hu
    obtain ⟨_, v, hvx, hva⟩ := (inputs_mem netB x_bar u).1 hu
    exact hconeAnc v (hxsub v hvx) u hva
  have hinpV : ∀ u ∈ inputs netB x_bar,
      Position.BeforeNode u ∈ V ∨ Position.AfterNode u ∈ V := by
    intro u hu
    obtain ⟨hnx, _⟩ := (inputs_mem netB x_bar u).1 hu
    refine (hreach u).1 ?_
    by_contra hnr
    refine hnx ?_
    rw [hxbar]
    refine List.mem_filter.2 ⟨hinpCone u hu, ?_⟩
    rcases hc : reach.contains u with _ | _
    · rfl
    · exact absurd ((contains_iff_mem _ _).1 hc) hnr
  have hsplitD : splitSum χ netF - splitSum χ netB =
      ((List.range netB.node_count).map (gSplit netF netB χ)).sum := by
    rw [splitSum, splitSum, hncF, sum_map_sub]
    apply sum_map_congr
    intro n _
    rw [gSplit]
    ring
  have he3D : e3Sum χ netF - e3Sum χ netB =
      ((edgePairs netB).map (gEdge netF netB χ)).sum := by
    rw [e3Sum, e3Sum, hncF]
    simp only [hancF]
    rw [sum_map_sub, edgePairs, sum_map_flatMap]
    apply sum_map_congr
    intro b _
    rw [sum_map_sub, List.map_map]
    apply sum_map_congr
    intro a _
    dsimp only [Function.comp]
    rw [gEdge]
    ring
  have hsB : srcSum χ flB.source = 0 := by
    rw [srcSum]
    apply List.sum_eq_zero
    intro x hx
    obtain ⟨e, he, heq⟩ := List.mem_map.1 hx
    rw [← heq, hsrc0 e he]
    simp
  have hkB : snkSum χ flB.sink = 0 := by
    rw [snkSum]
    apply List.sum_eq_zero
    intro x hx
    obtain ⟨e, he, heq⟩ := List.mem_map.1 hx
    rw [← heq, hsnk0 e he]
    simp
  have hsF : 0 ≤ srcSum χ flF.source := srcSum_nonneg χ hχ01 hχS _
  have hkF : snkSum χ flF.sink = 0 := by
    refine snkSum_zero χ _ (fun e he => ?_) hχSink
    exact hχ0 _ (closedV_sink_notmem netF flF V hclV hSinkN e.1
      (by rw [hsnkKeys]; rw [← hsnkKeys]; exact List.mem_map.2 ⟨e, he, rfl⟩))
  have hkey : ((List.range netB.node_count).map (gSplit netF netB χ)).sum +
      ((edgePairs netB).map (gEdge netF netB χ)).sum ≤ (m : Int) := by
    have h1 := hcs
    rw [crossSum, crossSum, hχS, hχSink] at h1
    simp only [sub_zero, mul_one] at h1
    linarith [hsplitD, he3D]
  have hAbound : (((inputs netB x_bar).filter
      (fun u => !(V.contains (.AfterNode u)))).length : Int) ≤
      ((List.range netB.node_count).map (gSplit netF netB χ)).sum := by
    refine sum_map_bound (gSplit netF netB χ) (List.range netB.node_count)
      _ ((inputs_nodup netB x_bar).filter _) ?_ ?_ ?_
    · intro u hu
      exact List.mem_range.2
        (hconeLt u (hinpCone u (List.mem_of_mem_filter hu)))
    · intro n _
      rw [gSplit]
      by_cases hBn : (Position.BeforeNode n) ∈ V <;>
        by_cases hAn : (Position.AfterNode n) ∈ V
      · rw [hχ1 _ hBn, hχ1 _ hAn]
        simp
      · rw [hχ1 _ hBn, hχ0 _ hAn]
        have hF := closedV_split_flow netF flF V hclV n hBn hAn
        have hB1 := hflow1 n
        rw [show (1:Int) - 0 = 1 from by ring, mul_one]
        omega
      · rw [hχ0 _ hBn, hχ1 _ hAn]
        have hF := closedV_split_zero netF flF V hclV n hAn hBn
        rw [hF]
        rw [show (((0:Nat) : Int) - ((netB.node_value n).flow : Int)) *
          ((0:Int) - 1) = ((netB.node_value n).flow : Int) from by
            push_cast
            ring]
        omega
      · rw [hχ0 _ hBn, hχ0 _ hAn]
        simp
    · intro u hu
      have humem := List.mem_of_mem_filter hu
      have hpA := (List.mem_filter.1 hu).2
      rw [Bool.not_eq_true'] at hpA
      have hAn : (Position.AfterNode u) ∉ V := fun hm => by
        rw [(contains_iff_mem _ _).2 hm] at hpA
        exact Bool.noConfusion hpA
      have hBn : (Position.BeforeNode u) ∈ V := by
        rcases hinpV u humem with h | h
        · exact h
        · exact absurd h hAn
      have hF := closedV_split_flow netF flF V hclV u hBn hAn
      have hB0 := hconeFlow u (hinpCone u humem)
      rw [gSplit, hχ1 _ hBn, hχ0 _ hAn, hB0]
      rw [show (1:Int) - 0 = 1 from by ring, mul_one]
      omega
  have hpick : ∀ u ∈ inputs netB x_bar,
      pickv netB x_bar u ∈ x_bar ∧
        u ∈ netB.ancestors (pickv netB x_bar u) := by
    intro u hu
    obtain ⟨_, v, hvx, hva⟩ := (inputs_mem netB x_bar u).1 hu
    exact pickv_spec netB x_bar u ⟨v, hvx, hva⟩
  have hBbound : ((((inputs netB x_bar).filter
      (fun u => V.contains (.AfterNode u))).map
        (fun u => (u, pickv netB x_bar u))).length : Int) ≤
      ((edgePairs netB).map (gEdge netF netB χ)).sum := by
    refine sum_map_bound (gEdge netF netB χ) (edgePairs netB) _
      (List.Nodup.map (fun a b h => congrArg Prod.fst h)
        ((inputs_nodup netB x_bar).filter _)) ?_ ?_ ?_
    · intro pr hpr
      obtain ⟨u, hu, rfl⟩ := List.mem_map.1 hpr
      have humem := List.mem_of_mem_filter hu
      obtain ⟨hvx, hva⟩ := hpick u humem
      rw [edgePairs]
      refine List.mem_flatMap.2 ⟨pickv netB x_bar u,
        List.mem_range.2 (hconeLt _ (hxsub _ hvx)),
        List.mem_map.2 ⟨u, List.mem_dedup.2 hva, rfl⟩⟩
    · intro pr hpr
      rw [edgePairs] at hpr
      obtain ⟨b, hb, hpr2⟩ := List.mem_flatMap.1 hpr
      obtain ⟨a, ha, rfl⟩ := List.mem_map.1 hpr2
      have hab : a ∈ netB.ancestors b := List.mem_dedup.1 ha
      rw [gEdge]
      by_cases hAa : (Position.AfterNode a) ∈ V <;>
        by_cases hBb : (Position.BeforeNode b) ∈ V
      · rw [hχ1 _ hAa, hχ1 _ hBb]
        simp
      · rw [hχ1 _ hAa, hχ0 _ hBb]
        have hge : (netB.edge_value a b).1 ≤ (netF.edge_value a b).1 := by
          by_cases hbc : b ∈ cone
          · have hres := hconeEdge b hbc a hab
            have hB0 : (netB.edge_value a b).1 = 0 := by
              rcases hres with h | h <;> rw [h]
            omega
          · have hbn : b ≠ flF.node := by
              rw [hnodeF]
              intro he
              exact hbc (he ▸ hnodeCone)
            have hdesc : b ∈ netF.descendents a := by
              rw [hdescF a]
              exact hsym2 a b hab
            have hcap := closedV_edge_cap_zero netF flF V hclV hSinkN a b
              hdesc hbn hAa hBb
            have hps := hpairs a b
            rw [pairSum, pairSum, hcap] at hps
            omega
        rw [show (1:Int) - 0 = 1 from by ring, mul_one]
        omega
      · rw [hχ0 _ hAa, hχ1 _ hBb]
        have hF0 := closedV_edge_zero netF flF V hclV a b
          (by rw [hancF b]; exact hab) hBb hAa
        rw [hF0]
        rw [show (((0:Nat) : Int) - ((netB.edge_value a b).1 : Int)) *
          ((0:Int) - 1) = ((netB.edge_value a b).1 : Int) from by
            push_cast
            ring]
        omega
      · rw [hχ0 _ hAa, hχ0 _ hBb]
        simp
    · intro pr hpr
      obtain ⟨u, hu, rfl⟩ := List.mem_map.1 hpr
      have humem := List.mem_of_mem_filter hu
      have hAu : (Position.AfterNode u) ∈ V :=
        (contains_iff_mem _ _).1 (List.mem_filter.1 hu).2
      obtain ⟨hvx, hva⟩ := hpick u humem
      have hxv := hxV _ hvx
      have hres := hconeEdge _ (hxsub _ hvx) u hva
      have hB0 : (netB.edge_value u (pickv netB x_bar u)).1 = 0 ∧
          1 ≤ (netB.edge_value u (pickv netB x_bar u)).2 := by
        rcases hres with h | h <;> rw [h] <;> exact ⟨rfl, by decide⟩
      have hvnode : pickv netB x_bar u ≠ flF.node := by
        rw [hnodeF]
        intro he
        refine closedV_sink_notmem netF flF V hclV hSinkN u ?_ hAu
        rw [hsnkKeys]
        exact hsnkAnc u (he ▸ hva)
      have hdesc : pickv netB x_bar u ∈ netF.descendents u := by
        rw [hdescF u]
        exact hsym2 u _ hva
      have hcap := closedV_edge_cap_zero netF flF V hclV hSinkN u _ hdesc
        hvnode hAu hxv.1
      have hps := hpairs u (pickv netB x_bar u)
      rw [pairSum, pairSum, hcap, hB0.1] at hps
      rw [gEdge, hχ1 _ hAu, hχ0 _ hxv.1, hB0.1]
      rw [show (1:Int) - 0 = 1 from by ring, mul_one]
      have h2 := hB0.2
      omega
  have hlen := length_filter_partition
    (fun u => V.contains (.AfterNode u)) (inputs netB x_bar)
  have hmap : (((inputs netB x_bar).filter
      (fun u => V.contains (.AfterNode u))).map
        (fun u => (u, pickv netB x_bar u))).length =
      ((inputs netB x_bar).filter
        (fun u => V.contains (.AfterNode u))).length :=
    List.length_map _ _
  have hfinal : ((inputs netB x_bar).length : Int) ≤ (m : Int) := by
    rw [hmap] at hBbound
    push_cast [hlen]
    push_cast [hlen] at hAbound hBbound hkey
    linarith
  exact_mod_cast hfinal

/-- Running the flow loop to completion and cutting at the failed search's
reachable set yields a cut whose input frontier has at most `max_flow`
members. -/
theorem flow_cut_bound
    (netB : BooleanNetwork) (flB : FlowEngine)
    (netF : BooleanNetwork) (flF : FlowEngine) (m : Nat)
    (dfsF stepsF cutF : Nat) (cone x_bar : List Nat)
    (hslA : ∀ ni, ni ∉ netB.ancestors ni)
    (hslD : ∀ ni, ni ∉ netB.descendents ni)
    (hcnt : ∀ a v, (netB.ancestors v).count a = (netB.descendents a).count v)
    (hAR : ∀ v a, a ∈ netB.ancestors v → a < netB.node_count)
    (hDR : ∀ v d, d ∈ netB.descendents v → d < netB.node_count)
    (hsrcB : ∀ s ∈ flB.source.map Prod.fst, s < netB.node_count)
    (hsnkB : ∀ s ∈ flB.sink.map Prod.fst, s < netB.node_count)
    (hnv : netB.node_count ≤ netB.node_values.length)
    (hEA : ∀ u, (netB.edge_values.getD u []).length =
      (netB.ancestors u).length)
    (hsrc0 : ∀ e ∈ flB.source, e.2 = 0)
    (hsnk0 : ∀ e ∈ flB.sink, e.2 = 0)
    (hflow1 : ∀ i, (netB.node_value i).flow ≤ 1)
    (hconeFlow : ∀ v ∈ cone, (netB.node_value v).flow = 0)
    (hconeEdge : ∀ v ∈ cone, ∀ a ∈ netB.ancestors v, resetE netB a v)
    (hconeAnc : ∀ v ∈ cone, ∀ a ∈ netB.ancestors v, a ∈ cone)
    (hconeLt : ∀ v ∈ cone, v < netB.node_count)
    (hnodeCone : flB.node ∈ cone)
    (hsnkAnc : ∀ a ∈ netB.ancestors flB.node, a ∈ flB.sink.map Prod.fst)
    (hrun : FlowEngine.runSteps dfsF stepsF netB flB = .ok (netF, flF, m))
    (hcut : FlowEngine.cut netF flF cone cutF = .ok x_bar) :
    (inputs netB x_bar).length ≤ m := by
  have hsymD : ∀ a b, b ∈ netB.descendents a → a ∈ netB.ancestors b := by
    intro a b h
    have hc := hcnt a b
    have hpos : 0 < (netB.descendents a).count b := List.count_pos_iff_mem.2 h
    rw [← hc] at hpos
    exact List.count_pos_iff_mem.1 hpos
  obtain ⟨_, hFnodes, hFmax, hFlen, hFEA, hFsrc, hFsnk, hFnode, hFpairs,
    hfin⟩ := runSteps_crossSum (fun _ => 0) dfsF stepsF netB flB netF flF m
      hrun hslA hslD hsymD hAR hDR hsrcB hsnkB hnv hEA
      (fun s _ => by ring)
  obtain ⟨_, _, V, P, hdfs, hncS⟩ := step_false netF flF dfsF netF flF hfin
  have hSinkN : Position.Sink ∉ V := fun hm => by
    rw [(contains_iff_mem _ _).2 hm] at hncS
    exact Bool.noConfusion hncS
  have hclV := stepDfs_closed dfsF [] [] [.Source] V P hdfs
    (fun x hx => absurd hx (List.not_mem_nil _))
  have hSrcV : Position.Source ∈ V :=
    (stepDfs_absorb dfsF [] [] [.Source] V P hdfs).2 .Source
      (List.mem_singleton.2 rfl)
  have hχ1 : ∀ pos ∈ V, (if pos ∈ V then (1:Int) else 0) = 1 :=
    fun pos h => if_pos h
  have hχ0 : ∀ pos, pos ∉ V → (if pos ∈ V then (1:Int) else 0) = 0 :=
    fun pos h => if_neg h
  have hχs : ∀ s ∈ flB.sink.map Prod.fst,
      (if (Position.AfterNode s) ∈ V then (1:Int) else 0) -
        (if (Position.Sink) ∈ V then (1:Int) else 0) = 0 := by
    intro s hs
    have hs' : s ∈ flF.sink.map Prod.fst := by
      rw [hFsnk]
      exact hs
    rw [if_neg (closedV_sink_notmem netF flF V hclV hSinkN s hs'),
      if_neg hSinkN]
    ring
  obtain ⟨hcs, _, _, _, _, _, _, _, _, _⟩ :=
    runSteps_crossSum (fun pos => if pos ∈ V then (1:Int) else 0) dfsF
      stepsF netB flB netF flF m hrun hslA hslD hsymD hAR hDR hsrcB hsnkB
      hnv hEA hχs
  have hFancs : ∀ i, netF.ancestors i = netB.ancestors i :=
    ancestors_eq_of_nodes_eq hFnodes
  have hFdescs : ∀ i, netF.descendents i = netB.descendents i :=
    descendents_eq_of_nodes_eq hFnodes
  have hslAF : ∀ ni, ni ∉ netF.ancestors ni := by
    intro ni
    rw [hFancs ni]
    exact hslA ni
  have hslDF : ∀ ni, ni ∉ netF.descendents ni := by
    intro ni
    rw [hFdescs ni]
    exact hslD ni
  rw [FlowEngine.cut] at hcut
  split at hcut
  · exact Res.noConfusion hcut
  · exact Res.noConfusion hcut
  · rename_i reach hsearch
    cases hcut
    obtain ⟨Vc, habs1, habs2, hclC, hbdC, hrc⟩ :=
      cutSearch_post cutF [] [] [.Source] reach hsearch
    have hclCC : ∀ x ∈ Vc, ∀ d, cutSucc netF flF x d → d ∈ Vc :=
      hclC (fun x hx => absurd hx (List.not_mem_nil _))
    have hVcsub : ∀ x ∈ Vc, x ∈ V :=
      hbdC V
        (fun x hx d hd =>
          hclV x hx d ((cutSucc_iff_stepSucc netF flF hslAF hslDF x d).1 hd))
        (fun x hx => absurd hx (List.not_mem_nil _))
        (fun x hx => (List.mem_singleton.1 hx) ▸ hSrcV)
    have hVsub : ∀ x ∈ V, x ∈ Vc :=
      stepDfs_bounded Vc
        (fun x hx d hd =>
          hclCC x hx d ((cutSucc_iff_stepSucc netF flF hslAF hslDF x d).2 hd))
        dfsF [] [] [.Source] V P hdfs
        (fun x hx => absurd hx (List.not_mem_nil _))
        (fun x hx => (List.mem_singleton.1 hx) ▸
          habs2 .Source (List.mem_singleton.2 rfl))
    have hreach0 := hrc (fun ni => Iff.intro
      (fun h => absurd h (List.not_mem_nil _))
      (fun h => by
        rcases h with h | h <;> exact absurd h (List.not_mem_nil _)))
    have hreach : ∀ ni, ni ∈ reach ↔
        (Position.BeforeNode ni ∈ V ∨ Position.AfterNode ni ∈ V) := by
      intro ni
      rw [hreach0 ni]
      constructor
      · intro h
        rcases h with h | h
        · exact Or.inl (hVcsub _ h)
        · exact Or.inr (hVcsub _ h)
      · intro h
        rcases h with h | h
        · exact Or.inl (hVsub _ h)
        · exact Or.inr (hVsub _ h)
    have hncFx : netF.node_count = netB.node_count := by
      unfold BooleanNetwork.node_count
      rw [hFmax]
    exact cut_counting_core netB netF flB flF V
      (fun pos => if pos ∈ V then (1:Int) else 0) m reach cone _
      hχ1 hχ0 hclV hSrcV hSinkN hFnodes hncFx hFnode hFsnk hFpairs hcs
      hsrc0 hsnk0 hcnt hflow1 hconeFlow hconeEdge hconeAnc hconeLt
      hnodeCone hsnkAnc hreach rfl

theorem map_fst_new_legs (l : List Nat) :
    ((l.map (fun ni => (ni, 0))).map Prod.fst) = l := by
  induction l with
  | nil => rfl
  | cons a l ih =>
    simp only [List.map_cons, ih]

/-- `label_node` returns a cut set whose input frontier has at most `k`
members, preserves the network frame, and keeps node flows at most 1. -/
theorem label_node_inputs_bound
    (net : BooleanNetwork) (node k : Nat)
    (net' : BooleanNetwork) (lab : Nat) (x_bar : List Nat)
    (hslA : ∀ ni, ni ∉ net.ancestors ni)
    (hslD : ∀ ni, ni ∉ net.descendents ni)
    (hcnt : ∀ a v, (net.ancestors v).count a = (net.descendents a).count v)
    (hAR : ∀ v a, a ∈ net.ancestors v → a < net.node_count)
    (hDR : ∀ v d, d ∈ net.descendents v → d < net.node_count)
    (hnv : net.node_values.length = net.node_count)
    (hEA : ∀ u, (net.edge_values.getD u []).length =
      (net.ancestors u).length)
    (hflow1 : ∀ i, (net.node_value i).flow ≤ 1)
    (hfan : ∀ v, (net.ancestors v).length ≤ 2)
    (hk : 2 ≤ k)
    (hnode : node < net.node_count)
    (h : label_node net node k = .ok (net', lab, x_bar)) :
    (inputs net x_bar).length ≤ k ∧ NVPreserved net net' ∧
    (∀ i, (net'.node_value i).flow ≤ 1) := by
  have hsingle : (inputs net [node]).length ≤ k :=
    Nat.le_trans (inputs_singleton_le net node)
      (Nat.le_trans (hfan node) hk)
  rw [label_node] at h
  split at h
  · exact Res.noConfusion h
  · exact Res.noConfusion h
  · exact Res.noConfusion h
  · rename_i l ls
    dsimp only [] at h
    split at h
    · cases h
      exact ⟨hsingle, NVPreserved.refl net, hflow1⟩
    · split at h
      · exact Res.noConfusion h
      · exact Res.noConfusion h
      · rename_i net1 source snk vis hbfs
        split at h
        · exact Res.noConfusion h
        · exact Res.noConfusion h
        · rename_i net2 fl2 mf hrun
          have hnv1 := NVPreserved.of_labelBfs _ _ _ _ _ _ _ _ _ _ _ hbfs
          have h1nodes : net1.nodes = net.nodes := hnv1.1
          have hnc1 : net1.node_count = net.node_count := by
            unfold BooleanNetwork.node_count
            rw [hnv1.2.1]
          have h1anc : ∀ i, net1.ancestors i = net.ancestors i :=
            ancestors_eq_of_nodes_eq h1nodes
          have h1desc : ∀ i, net1.descendents i = net.descendents i :=
            descendents_eq_of_nodes_eq h1nodes
          have hslA1 : ∀ ni, ni ∉ net1.ancestors ni := fun ni => by
            rw [h1anc ni]
            exact hslA ni
          have hflowB : ∀ i, (net1.node_value i).flow ≤ 1 := by
            obtain ⟨_, _, _, _, hflowd, _, _⟩ :=
              labelBfs_processed _ _ net [] (net.ancestors node) [] [node]
                net1 source snk vis hbfs hEA
                (fun v hv => by
                  rw [List.mem_singleton.1 hv]
                  exact hnode)
                (fun v hv => absurd hv (List.not_mem_nil _))
                (fun v a ha => hAR v a ha)
                (Nat.le_of_eq hnv.symm)
            intro i
            rcases hflowd i with h' | h' <;> rw [h']
            · exact hflow1 i
            · exact Nat.zero_le _
          have hflowF : ∀ i, (net2.node_value i).flow ≤ 1 :=
            runSteps_flows_le_one _ _ net1 _ net2 fl2 mf hrun hslA1 hflowB
          have hframe : NVPreserved net net2 :=
            hnv1.trans (NVPreserved.runSteps _ _ _ _ _ _ _ hrun)
          split at h
          · rename_i hmk
            split at h
            · exact Res.noConfusion h
            · exact Res.noConfusion h
            · rename_i xb hcut
              cases h
              obtain ⟨hPs, hPvis, _, hsnkmono, hflowd, _, _⟩ :=
                labelBfs_processed _ _ net [] (net.ancestors node) [] [node]
                  net1 source snk vis hbfs hEA
                  (fun v hv => by
                    rw [List.mem_singleton.1 hv]
                    exact hnode)
                  (fun v hv => absurd hv (List.not_mem_nil _))
                  (fun v a ha => hAR v a ha)
                  (Nat.le_of_eq hnv.symm)
              obtain ⟨hsrcM, hsnkM, hvisM⟩ :=
                labelBfs_members _ _ net [] (net.ancestors node) [] [node]
                  net1 source snk vis hbfs
              have hProc : ∀ v ∈ vis ++ [node], ProcessedBfs net1 vis v := by
                intro v hv
                rcases List.mem_append.1 hv with h' | h'
                · rcases hPvis v h' with h'' | h''
                  · exact absurd h'' (List.not_mem_nil _)
                  · exact h''
                · rw [List.mem_singleton.1 h']
                  exact hPs node (List.mem_singleton.2 rfl)
              have hbound : (inputs net1 x_bar).length ≤ mf := by
                refine flow_cut_bound net1 (FlowEngine.new node source snk)
                  net' fl2 mf _ _ _ (vis ++ [node]) x_bar
                  hslA1
                  (fun ni => by
                    rw [h1desc ni]
                    exact hslD ni)
                  (fun a v => by
                    rw [h1anc v, h1desc a]
                    exact hcnt a v)
                  (fun v a ha => by
                    rw [hnc1]
                    exact hAR v a (by rw [← h1anc v]; exact ha))
                  (fun v d hd => by
                    rw [hnc1]
                    exact hDR v d (by rw [← h1desc v]; exact hd))
                  ?_ ?_ ?_ ?_ ?_ ?_ hflowB ?_ ?_ ?_ ?_ ?_ ?_ hrun hcut
                · intro s hs
                  rw [FlowEngine.new] at hs
                  rw [map_fst_new_legs] at hs
                  rw [hnc1]
                  rcases hsrcM s hs with h' | ⟨v, hv⟩
                  · exact absurd h' (List.not_mem_nil _)
                  · exact hAR v s hv
                · intro s hs
                  rw [FlowEngine.new] at hs
                  rw [map_fst_new_legs] at hs
                  rw [hnc1]
                  rcases hsnkM s hs with h' | ⟨v, hv⟩
                  · exact hAR node s h'
                  · exact hAR v s hv
                · rw [hnc1, hnv1.2.2.2.1, hnv]
                · intro u
                  rw [hnv1.2.2.2.2 u, hEA u, ← h1anc u]
                · intro e he
                  rw [FlowEngine.new] at he
                  obtain ⟨ni, _, heq⟩ := List.mem_map.1 he
                  rw [← heq]
                · intro e he
                  rw [FlowEngine.new] at he
                  obtain ⟨ni, _, heq⟩ := List.mem_map.1 he
                  rw [← heq]
                · intro v hv
                  exact (hProc v hv).1
                · intro v hv
                  exact (hProc v hv).2.1
                · intro v hv a ha
                  exact List.mem_append_left _ ((hProc v hv).2.2 a ha)
                · intro v hv
                  rw [hnc1]
                  rcases List.mem_append.1 hv with h' | h'
                  · rcases hvisM v h' with h'' | ⟨w, hw⟩
                    · exact absurd h'' (List.not_mem_nil _)
                    · exact hAR w v hw
                  · rw [List.mem_singleton.1 h']
                    exact hnode
                · show node ∈ vis ++ [node]
                  exact List.mem_append_right _ (List.mem_singleton.2 rfl)
                · intro a ha
                  show a ∈ (snk.map (fun ni => (ni, 0))).map Prod.fst
                  rw [map_fst_new_legs]
                  refine hsnkmono a ?_
                  rw [← h1anc node]
                  exact ha
              rw [inputs_nodes_congr h1nodes x_bar] at hbound
              exact ⟨Nat.le_trans hbound hmk, hframe, hflowF⟩
          · cases h
            exact ⟨hsingle, hframe, hflowF⟩

/-! ### The topological worklist: pushes, pops and completeness -/

theorem topo_next_none (t : TopologicalOrder) (net : BooleanNetwork)
    (t' : TopologicalOrder) (h : t.next net = (none, t')) : t.s = [] := by
  rw [TopologicalOrder.next] at h
  match hs : t.s with
  | [] => rfl
  | m :: rest =>
    rw [hs] at h
    exact Option.noConfusion (congrArg Prod.fst h)

theorem topo_next_some (t : TopologicalOrder) (net : BooleanNetwork)
    (n : Nat) (t' : TopologicalOrder) (h : t.next net = (some n, t')) :
    ∃ rest, t.s = n :: rest ∧
      t'.visited = t.visited ++ [n] ∧
      t'.s = (net.descendents n).foldl
        (fun acc d =>
          if ((net.ancestors d).filter
              (fun ni => !((t.visited ++ [n]).contains ni))).length == 0 then
            d :: acc
          else acc) rest := by
  rw [TopologicalOrder.next] at h
  match hs : t.s with
  | [] =>
    rw [hs] at h
    exact Option.noConfusion (congrArg Prod.fst h)
  | m :: rest =>
    rw [hs] at h
    have h' : ((some m : Option Nat),
        ({ s := (net.descendents m).foldl
              (fun acc d =>
                if ((net.ancestors d).filter
                    (fun ni => !((t.visited ++ [m]).contains ni))).length == 0 then
                  d :: acc
                else acc) rest,
           visited := t.visited ++ [m] } : TopologicalOrder)) = (some n, t') := h
    injection h' with hA hB
    have h1 : m = n := Option.some.inj hA
    subst h1
    subst hB
    exact ⟨rest, rfl, rfl, rfl⟩

theorem foldl_push_mono_simple (C : Nat → Bool) :
    ∀ (l acc : List Nat) (x : Nat), x ∈ acc →
      x ∈ l.foldl (fun acc d => if C d then d :: acc else acc) acc := by
  intro l
  induction l with
  | nil => intro acc x hx; exact hx
  | cons a l ih =>
    intro acc x hx
    show x ∈ l.foldl _ (if C a then a :: acc else acc)
    refine ih _ x ?_
    split
    · exact List.mem_cons_of_mem _ hx
    · exact hx

theorem foldl_push_complete_simple (C : Nat → Bool) :
    ∀ (l acc : List Nat) (d : Nat), d ∈ l → C d = true →
      d ∈ l.foldl (fun acc d2 => if C d2 then d2 :: acc else acc) acc := by
  intro l
  induction l with
  | nil => intro acc d hd; exact absurd hd (List.not_mem_nil _)
  | cons a l ih =>
    intro acc d hd hC
    rcases List.mem_cons.1 hd with rfl | hd'
    · show d ∈ l.foldl _ (if C d then d :: acc else acc)
      rw [if_pos hC]
      exact foldl_push_mono_simple C l _ d (List.mem_cons_self _ _)
    · exact ih _ d hd' hC

theorem foldl_push_sub_simple (C : Nat → Bool) :
    ∀ (l acc : List Nat) (x : Nat),
      x ∈ l.foldl (fun acc d => if C d then d :: acc else acc) acc →
      x ∈ acc ∨ x ∈ l := by
  intro l
  induction l with
  | nil => intro acc x hx; exact Or.inl hx
  | cons a l ih =>
    intro acc x hx
    have hx' : x ∈ l.foldl _ (if C a then a :: acc else acc) := hx
    rcases ih _ x hx' with h | h
    · split at h
      · rcases List.mem_cons.1 h with rfl | h'
        · exact Or.inr (List.mem_cons_self _ _)
        · exact Or.inl h'
      · exact Or.inl h
    · exact Or.inr (List.mem_cons_of_mem _ h)

theorem filter_eq_nil_of {α : Type} (p : α → Bool) :
    ∀ (l : List α), (∀ a ∈ l, p a = false) → l.filter p = [] := by
  intro l
  induction l with
  | nil => intro _; rfl
  | cons a l ih =>
    intro h
    rw [List.filter_cons_of_neg
      (by rw [h a (List.mem_cons_self _ _)]; exact Bool.false_ne_true)]
    exact ih (fun x hx => h x (List.mem_cons_of_mem _ hx))

/-- The labelling loop: threads the structural frame, the 0/1 flow bound,
the per-visited-node input bound, and worklist completeness through
`labelLoop`, producing a final visited set that is closed under "all
ancestors present" and on which every non-PI node's `x_bar` has at most
`k` inputs. -/
theorem labelLoop_master (k : Nat) (net0 : BooleanNetwork)
    (hslA0 : ∀ ni, ni ∉ net0.ancestors ni)
    (hslD0 : ∀ ni, ni ∉ net0.descendents ni)
    (hcnt0 : ∀ a v, (net0.ancestors v).count a = (net0.descendents a).count v)
    (hAR0 : ∀ v a, a ∈ net0.ancestors v → a < net0.node_count)
    (hDR0 : ∀ v d, d ∈ net0.descendents v → d < net0.node_count)
    (hnv0 : net0.node_values.length = net0.node_count)
    (hEA0 : ∀ u, (net0.edge_values.getD u []).length =
      (net0.ancestors u).length)
    (hfan0 : ∀ v, (net0.ancestors v).length ≤ 2)
    (hk : 2 ≤ k) :
    ∀ (fuel : Nat) (net : BooleanNetwork) (topo : TopologicalOrder)
      (net'' : BooleanNetwork),
      labelLoop k fuel net topo = .ok net'' →
      net.nodes = net0.nodes →
      net.max_node_index = net0.max_node_index →
      net.node_values.length = net0.node_values.length →
      (∀ u, (net.edge_values.getD u []).length =
        (net0.edge_values.getD u []).length) →
      (∀ i, (net.node_value i).is_pi = (net0.node_value i).is_pi) →
      (∀ i, (net.node_value i).flow ≤ 1) →
      (∀ x, x ∈ topo.s → x < net0.node_count) →
      (∀ v, v < net0.node_count → (net.node_value v).is_pi = false →
        v ∈ topo.visited →
        (inputs net0 ((net.node_value v).x_bar)).length ≤ k) →
      (∀ v, v < net0.node_count →
        (∀ a, a ∈ net0.ancestors v → a ∈ topo.visited) →
        v ∈ topo.visited ∨ v ∈ topo.s) →
      net''.nodes = net0.nodes ∧
      net''.node_values.length = net0.node_values.length ∧
      (∀ i, (net''.node_value i).is_pi = (net0.node_value i).is_pi) ∧
      ∃ visF : List Nat,
        (∀ v, v < net0.node_count →
          (∀ a, a ∈ net0.ancestors v → a ∈ visF) → v ∈ visF) ∧
        (∀ v, v < net0.node_count → (net''.node_value v).is_pi = false →
          v ∈ visF →
          (inputs net0 ((net''.node_value v).x_bar)).length ≤ k) := by
  intro fuel
  induction fuel with
  | zero =>
    intro _ _ _ h
    exact absurd h (by simp [labelLoop])
  | succ n ih =>
    intro net topo net'' h Hn Hm Hl He Hp Hf Hs HG HI
    rw [labelLoop] at h
    split at h
    · rename_i t' hnext
      cases h
      have hsnil : topo.s = [] := topo_next_none topo net t' hnext
      refine ⟨Hn, Hl, Hp, topo.visited, ?_, ?_⟩
      · intro v hv hall
        rcases HI v hv hall with h' | h'
        · exact h'
        · rw [hsnil] at h'
          exact absurd h' (List.not_mem_nil _)
      · exact HG
    · rename_i ni topo' hnext
      obtain ⟨rest, hs_eq, hvis', hs'⟩ := topo_next_some topo net ni topo' hnext
      have hni_lt : ni < net0.node_count :=
        Hs ni (hs_eq ▸ List.mem_cons_self _ _)
      have hanc : ∀ i, net.ancestors i = net0.ancestors i :=
        ancestors_eq_of_nodes_eq Hn
      have hdesc : ∀ i, net.descendents i = net0.descendents i :=
        descendents_eq_of_nodes_eq Hn
      have hnc : net.node_count = net0.node_count := by
        show net.max_node_index + 1 = net0.max_node_index + 1
        rw [Hm]
      have Hs' : ∀ x, x ∈ topo'.s → x < net0.node_count := by
        intro x hx
        rw [hs'] at hx
        rcases foldl_push_sub_simple _ _ _ _ hx with hx' | hx'
        · exact Hs x (hs_eq ▸ List.mem_cons_of_mem _ hx')
        · rw [hdesc] at hx'
          exact hDR0 ni x hx'
      have HI' : ∀ v, v < net0.node_count →
          (∀ a, a ∈ net0.ancestors v → a ∈ topo'.visited) →
          v ∈ topo'.visited ∨ v ∈ topo'.s := by
        intro v hv hall
        by_cases hvvis : v ∈ topo.visited
        · left
          rw [hvis']
          exact List.mem_append_left _ hvvis
        · by_cases hvni : v = ni
          · left
            rw [hvis', hvni]
            exact List.mem_append_right _ (List.mem_singleton.2 rfl)
          · by_cases hall0 : ∀ a, a ∈ net0.ancestors v → a ∈ topo.visited
            · rcases HI v hv hall0 with h' | h'
              · exact absurd h' hvvis
              · right
                rw [hs']
                refine foldl_push_mono_simple _ _ _ _ ?_
                rw [hs_eq] at h'
                rcases List.mem_cons.1 h' with h'' | h''
                · exact absurd h'' hvni
                · exact h''
            · push_neg at hall0
              obtain ⟨a, ha, hanv⟩ := hall0
              have hav' : a ∈ topo'.visited := hall a ha
              rw [hvis'] at hav'
              have haeq : a = ni := by
                rcases List.mem_append.1 hav' with h'' | h''
                · exact absurd h'' hanv
                · exact List.mem_singleton.1 h''
              subst haeq
              right
              rw [hs']
              have hvdesc : v ∈ net.descendents a := by
                rw [hdesc]
                have h1 : 0 < (net0.ancestors v).count a :=
                  List.count_pos_iff_mem.2 ha
                rw [hcnt0 a v] at h1
                exact List.count_pos_iff_mem.1 h1
              refine foldl_push_complete_simple _ _ _ _ hvdesc ?_
              have hnil : (net.ancestors v).filter
                  (fun x => !((topo.visited ++ [a]).contains x)) = [] := by
                refine filter_eq_nil_of _ _ (fun x hx => ?_)
                have hxv : x ∈ topo.visited ++ [a] := by
                  have hx0 : x ∈ net0.ancestors v := by
                    rw [← hanc]
                    exact hx
                  have := hall x hx0
                  rw [hvis'] at this
                  exact this
                rw [(contains_iff_mem _ _).2 hxv]
                rfl
              rw [hnil]
              rfl
      split at h
      · rename_i hpi
        have HG' : ∀ v, v < net0.node_count →
            (net.node_value v).is_pi = false → v ∈ topo'.visited →
            (inputs net0 ((net.node_value v).x_bar)).length ≤ k := by
          intro v hv hpiF hvv
          rw [hvis'] at hvv
          rcases List.mem_append.1 hvv with h' | h'
          · exact HG v hv hpiF h'
          · have hvni : v = ni := List.mem_singleton.1 h'
            rw [hvni] at hpiF
            rw [hpiF] at hpi
            exact absurd hpi (by simp)
        exact ih net topo' net'' h Hn Hm Hl He Hp Hf Hs' HG' HI'
      · rename_i hpi
        split at h
        · exact Res.noConfusion h
        · exact Res.noConfusion h
        · rename_i net1 lbl xb hln
          dsimp only [] at h
          have hslA' : ∀ m, m ∉ net.ancestors m := by
            intro m hm
            rw [hanc m] at hm
            exact hslA0 m hm
          have hslD' : ∀ m, m ∉ net.descendents m := by
            intro m hm
            rw [hdesc m] at hm
            exact hslD0 m hm
          have hcnt' : ∀ a v, (net.ancestors v).count a =
              (net.descendents a).count v := by
            intro a v
            rw [hanc, hdesc]
            exact hcnt0 a v
          have hAR' : ∀ v a, a ∈ net.ancestors v → a < net.node_count := by
            intro v a ha
            rw [hanc] at ha
            rw [hnc]
            exact hAR0 v a ha
          have hDR' : ∀ v d, d ∈ net.descendents v → d < net.node_count := by
            intro v d hd
            rw [hdesc] at hd
            rw [hnc]
            exact hDR0 v d hd
          have hnv' : net.node_values.length = net.node_count := by
            rw [Hl, hnv0, hnc]
          have hEA' : ∀ u, (net.edge_values.getD u []).length =
              (net.ancestors u).length := by
            intro u
            rw [He, hEA0, hanc]
          have hfan' : ∀ v, (net.ancestors v).length ≤ 2 := by
            intro v
            rw [hanc]
            exact hfan0 v
          have hnode' : ni < net.node_count := by
            rw [hnc]
            exact hni_lt
          obtain ⟨hbnd, hNV, hfl1⟩ := label_node_inputs_bound net ni k net1
            lbl xb hslA' hslD' hcnt' hAR' hDR' hnv' hEA' Hf hfan' hk hnode' hln
          set netA := net1.set_node_value ni
            (fun nv => { nv with label := some lbl }) with hAdef
          set netB := netA.set_node_value ni
            (fun nv => { nv with x_bar := xb }) with hBdef
          have hn1len : net1.node_values.length = net.node_values.length :=
            hNV.2.2.2.1
          have hnilt1 : ni < net1.node_values.length := by
            rw [hn1len, Hl, hnv0]
            exact hni_lt
          have hniltA : ni < netA.node_values.length := by
            rw [hAdef]
            show ni < (net1.node_values.set ni _).length
            rw [List.length_set]
            exact hnilt1
          have hvA : netA.node_value ni =
              { net1.node_value ni with label := some lbl } :=
            node_value_set_self_of_lt net1 ni _ hnilt1
          have hvB : netB.node_value ni =
              { netA.node_value ni with x_bar := xb } :=
            node_value_set_self_of_lt netA ni _ hniltA
          have hBother : ∀ j, j ≠ ni →
              netB.node_value j = net1.node_value j := by
            intro j hj
            rw [hBdef, BooleanNetwork.node_value_set_node_value_ne _ _ _ _ hj,
              hAdef, BooleanNetwork.node_value_set_node_value_ne _ _ _ _ hj]
          have HnB : netB.nodes = net0.nodes := by
            show net1.nodes = net0.nodes
            rw [hNV.1]
            exact Hn
          have HmB : netB.max_node_index = net0.max_node_index := by
            show net1.max_node_index = net0.max_node_index
            rw [hNV.2.1]
            exact Hm
          have HlB : netB.node_values.length = net0.node_values.length := by
            show (netA.node_values.set ni _).length = net0.node_values.length
            rw [List.length_set]
            show (net1.node_values.set ni _).length = net0.node_values.length
            rw [List.length_set, hn1len, Hl]
          have HeB : ∀ u, (netB.edge_values.getD u []).length =
              (net0.edge_values.getD u []).length := by
            intro u
            show ((net1.edge_values).getD u []).length = _
            rw [hNV.2.2.2.2 u]
            exact He u
          have HpB : ∀ i, (netB.node_value i).is_pi =
              (net0.node_value i).is_pi := by
            intro j
            by_cases hj : j = ni
            · subst hj
              rw [hvB, hvA]
              show (net1.node_value j).is_pi = (net0.node_value j).is_pi
              rw [(hNV.2.2.1 j).2.2.2.1]
              exact Hp j
            · rw [hBother j hj, (hNV.2.2.1 j).2.2.2.1]
              exact Hp j
          have HfB : ∀ i, (netB.node_value i).flow ≤ 1 := by
            intro j
            by_cases hj : j = ni
            · subst hj
              rw [hvB, hvA]
              show (net1.node_value j).flow ≤ 1
              exact hfl1 j
            · rw [hBother j hj]
              exact hfl1 j
          have HGB : ∀ v, v < net0.node_count →
              (netB.node_value v).is_pi = false → v ∈ topo'.visited →
              (inputs net0 ((netB.node_value v).x_bar)).length ≤ k := by
            intro v hv hpiv hvv
            by_cases hj : v = ni
            · subst hj
              have hxb : (netB.node_value v).x_bar = xb := by
                rw [hvB]
              rw [hxb, ← inputs_nodes_congr Hn xb]
              exact hbnd
            · rw [hvis'] at hvv
              rcases List.mem_append.1 hvv with h' | h'
              · have hxb : (netB.node_value v).x_bar =
                    (net.node_value v).x_bar := by
                  rw [hBother v hj, (hNV.2.2.1 v).2.2.1]
                have hpiv' : (net.node_value v).is_pi = false := by
                  rw [← hpiv, hBother v hj, (hNV.2.2.1 v).2.2.2.1]
                rw [hxb]
                exact HG v hv hpiv' h'
              · exact absurd (List.mem_singleton.1 h') hj
          exact ih netB topo' net'' h HnB HmB HlB HeB HpB HfB Hs' HGB HI'

/-- C1: on an acyclic network with fan-in at most 2, well-formed adjacency
and payload shape, zeroed flow scratch fields, PIs labelled 0 and every
ancestor-free node flagged as a PI, a completed `label_network` run with
K ≥ 2 leaves every non-PI node `v` with a cut set `x_bar` whose input
frontier `inputs(x_bar)` has at most K elements. -/
theorem c1_cut_inputs_le_k (net : BooleanNetwork) (k fuel : Nat)
    (net' : BooleanNetwork)
    (hacy : Acyclic net)
    (hwf : WFNet net)
    (hEL : net.edge_values.length = net.node_count)
    (hEA : ∀ u, u < net.node_count → (net.edge_values.getD u []).length =
      (net.ancestors u).length)
    (hfl0 : ∀ i, i < net.node_count → (net.node_value i).flow = 0)
    (hpil : ∀ v, v < net.node_count → (net.node_value v).is_pi = true →
      (net.node_value v).label = some 0)
    (hnopi : ∀ v, v < net.node_count → net.ancestors v = [] →
      (net.node_value v).is_pi = true)
    (hfan : ∀ v, v < net.node_count → (net.ancestors v).length ≤ 2)
    (hk : 2 ≤ k)
    (h : label_network net k fuel = .ok net') :
    ∀ v, (net'.node_value v).is_pi = false →
      (inputs net' ((net'.node_value v).x_bar)).length ≤ k := by
  obtain ⟨hlen, hnv, hAR, hDR, hcnt⟩ := hwf
  obtain ⟨rank, hrank⟩ := hacy
  have hslA : ∀ m, m ∉ net.ancestors m :=
    fun m hm => Nat.lt_irrefl _ (hrank m m hm)
  have hslD : ∀ m, m ∉ net.descendents m := by
    intro m hm
    have h1 : 0 < (net.descendents m).count m := List.count_pos_iff_mem.2 hm
    rw [← hcnt m m] at h1
    exact hslA m (List.count_pos_iff_mem.1 h1)
  have hancnil : ∀ v, ¬v < net.node_count → net.ancestors v = [] := by
    intro v hv
    unfold BooleanNetwork.ancestors
    rw [List.getD_eq_default]
    rw [hlen]
    exact Nat.le_of_not_lt hv
  have hfanAll : ∀ v, (net.ancestors v).length ≤ 2 := by
    intro v
    by_cases hv : v < net.node_count
    · exact hfan v hv
    · rw [hancnil v hv]
      exact Nat.zero_le _
  have hEAall : ∀ u, (net.edge_values.getD u []).length =
      (net.ancestors u).length := by
    intro u
    by_cases hu : u < net.node_count
    · exact hEA u hu
    · rw [hancnil u hu]
      rw [List.getD_eq_default]
      · rfl
      · rw [hEL]
        exact Nat.le_of_not_lt hu
  have hflAll : ∀ i, (net.node_value i).flow ≤ 1 := by
    intro i
    by_cases hi : i < net.node_count
    · rw [hfl0 i hi]
      exact Nat.zero_le _
    · have hdef : net.node_value i = NodeValue.default := by
        unfold BooleanNetwork.node_value
        rw [List.getD_eq_default]
        rw [hnv]
        exact Nat.le_of_not_lt hi
      rw [hdef]
      exact Nat.zero_le _
  rw [label_network] at h
  have hmaster := labelLoop_master k net hslA hslD hcnt hAR hDR hnv hEAall
    hfanAll hk fuel net (TopologicalOrder.new net) net' h rfl rfl rfl
    (fun _ => rfl) (fun _ => rfl) hflAll
    (by
      intro x hx
      have hx' : x ∈ ((List.range net.node_count).filter
          (fun ni => (net.ancestors ni).length == 0)).reverse := hx
      exact List.mem_range.1 (List.mem_filter.1 (List.mem_reverse.1 hx')).1)
    (by
      intro v _ _ hvv
      exact absurd hvv (List.not_mem_nil _))
    (by
      intro v hv hall
      right
      show v ∈ ((List.range net.node_count).filter
        (fun ni => (net.ancestors ni).length == 0)).reverse
      refine List.mem_reverse.2 (List.mem_filter.2 ⟨List.mem_range.2 hv, ?_⟩)
      have hnil : net.ancestors v = [] := by
        rcases hres : net.ancestors v with _ | ⟨a, l⟩
        · rfl
        · exact absurd (hall a (hres ▸ List.mem_cons_self _ _))
            (List.not_mem_nil _)
      rw [hnil]
      rfl)
  obtain ⟨hn', hl', _, visF, hclos, hbnd⟩ := hmaster
  have hall : ∀ r v, rank v < r → v < net.node_count → v ∈ visF := by
    intro r
    induction r with
    | zero => intro v hr _; exact absurd hr (Nat.not_lt_zero _)
    | succ r ihr =>
      intro v hr hv
      refine hclos v hv (fun a ha => ihr a ?_ (hAR v a ha))
      have := hrank v a ha
      omega
  intro v hpiv
  by_cases hv : v < net.node_count
  · have hvf : v ∈ visF := hall (rank v + 1) v (Nat.lt_succ_self _) hv
    have hb := hbnd v hv hpiv hvf
    rw [inputs_nodes_congr hn']
    exact hb
  · have hdef : net'.node_value v = NodeValue.default := by
      unfold BooleanNetwork.node_value
      rw [List.getD_eq_default]
      rw [hl', hnv]
      exact Nat.le_of_not_lt hv
    rw [hdef]
    exact Nat.zero_le _

/-- C1 witness: the regression network (edges 0→3, 1→3, 2→4, 3→4, PIs
0, 1, 2) with K = 2 satisfies every hypothesis, and the labelled network's
node 4 has an input frontier of at most 2 nodes. -/
theorem c1_cut_inputs_le_k_witness :
    (inputs (resNet (label_network c5Net 2 20))
      (((resNet (label_network c5Net 2 20)).node_value 4).x_bar)).length ≤ 2 :=
  c1_cut_inputs_le_k c5Net 2 20 (resNet (label_network c5Net 2 20))
    (acyclic_of_rank_list c5Net [0, 0, 0, 1, 2] (by decide) (by decide))
    (wfNet_of_checks c5Net (by decide) (by decide) (by decide) (by decide)
      (by decide))
    (by decide) (by decide) (by decide) (by decide) (by decide) (by decide)
    (by decide) (by decide) 4 (by decide)
